import Mathlib

/-!
Route tree of `router/base.go`.

A shallow embedding of `BaseRouter` (package `router`) and a verification of its
tree operations (`SetLevel`, `Child`, `AddChild`, `AddChildren`, `RemoveChild`), of
`check` and `Init`, and of its two filter chains (`AddBeforeFilter`,
`RemoveBeforeFilter`, `ExecBeforeFilter` and their `After` twins).

Routers are heap objects that point at each other (`super`, the two child maps), so
the embedding is a heap `Ref → BaseRouter` that every method reads and rewrites.
Recursive methods (`SetLevel`, `AddChild`) carry a fuel argument that bounds the depth
of the Go call stack: the result `none` stands for a call that does not return.

Conventions of the embedding:
* every router is initialised, that is, its two maps are allocated (a list of entries,
  possibly empty); the nil maps of a zero `BaseRouter` are not modelled;
* `int` is the 64-bit Go integer: `intAdd` wraps around;
* a `range` loop over a map visits the entries in list order, and visits the entries the
  map holds when the loop starts;
* `strings.ToLower`, `strings.EqualFold`, `ParseReg` and `(*RegSegment).Parse` are not
  part of `base.go`; they are the fields of an environment `Env`. The theorems hold for
  every environment; the instances are evaluated in one that follows Go on the code
  points up to U+00FF and on U+0130;
* a filter is a handle compared by identity; what its method `Filter` does is a function
  of the context alone (`FilterSem`), and the two `Exec` loops also return the record of
  the calls they make.
-/

namespace TinyRouter

/-! ## Data model -/

/-- A pointer to a `BaseRouter` object. -/
abbrev Ref := Nat

/-- A value of the Go interface `Router`: `none` is `nil`. -/
abbrev Router := Option Ref

/-- A value of the Go interface `RouterFilter`, compared by identity. -/
abbrev FilterRef := Nat

/-- A Go `map[string]Router`, kept as a list of entries. The operations below never
create two entries with one key. `range` visits the entries in list order. -/
abbrev RouterMap := List (String × Ref)

/-- Modelled from the spec: the type `RegSegment` is declared in a file of package
`router` that is not part of the sources at hand; the spec describes it as the
compiled, fully anchored pattern together with the ordered list of capture keys. -/
structure RegSegment where
  pattern : String
  keys : List String
deriving DecidableEq, Repr

/-- A Go `map[string]string` of captures (`none` is the nil map). -/
abbrev Captures := Option (List (String × String))

/-- The functions `BaseRouter` calls that live outside `base.go`: two functions of the
Go standard library and the two entry points of `RegSegment`. -/
structure Env where
  /-- The function `strings.ToLower`. -/
  toLower : String → String
  /-- The function `strings.EqualFold`. -/
  equalFold : String → String → Bool
  /-- The function `ParseReg(name)`: `some segment` when `err == nil`. -/
  parseReg : String → Option RegSegment
  /-- The method `(*RegSegment).Parse(route)`: the returned map and whether `err == nil`. -/
  segParse : Option RegSegment → String → Captures × Bool

/-- The struct `BaseRouter`, field by field. -/
structure BaseRouter where
  this : Router
  name : String
  super : Router
  level : Int
  segment : Option RegSegment
  reg : Bool
  children : RouterMap
  regchildren : RouterMap
  beforeFilters : List FilterRef
  afterFilters : List FilterRef
deriving DecidableEq, Repr

/-- The heap: every pointer designates a `BaseRouter`. -/
abbrev Heap := Ref → BaseRouter

/-- Store `b` at address `r`. -/
def Heap.set (h : Heap) (r : Ref) (b : BaseRouter) : Heap :=
  fun x => if x = r then b else h x

/-! ## Go primitives -/

/-- Reduce an integer to the range of the 64-bit Go type `int`. -/
def wrapInt (x : Int) : Int :=
  (x + 9223372036854775808) % 18446744073709551616 - 9223372036854775808

/-- Go addition on `int`. -/
def intAdd (a b : Int) : Int := wrapInt (a + b)

/-- Map read `m[k]`: the value and presence flag of Go, as an option. -/
def mapGet : RouterMap → String → Option Ref
  | [], _ => none
  | (k', v) :: m, k => if k' = k then some v else mapGet m k

/-- Built-in `delete(m, k)`. -/
def mapDelete (m : RouterMap) (k : String) : RouterMap :=
  m.filter (fun e => decide (e.1 ≠ k))

/-- Map write `m[k] = v`. -/
def mapSet (m : RouterMap) (k : String) (v : Ref) : RouterMap :=
  (k, v) :: mapDelete m k

/-- The loop `for _, v := range m { body(v) }` over the entries of a map, threading the
heap; it stops with `none` when a call of the body does not return. -/
def forRange (body : Heap → Ref → Option Heap) : RouterMap → Heap → Option Heap
  | [], h => some h
  | (_, v) :: rest, h =>
    match body h v with
    | none => none
    | some h' => forRange body rest h'

/-! ## Methods of `BaseRouter` -/

/-- Method `setName`: parse the name; a name that parses makes the node a regex node. A name
that does not parse leaves `segment` as it was. -/
def setName (E : Env) (b : BaseRouter) (name : String) : BaseRouter :=
  match E.parseReg name with
  | some seg => { b with segment := some seg, reg := true, name := E.toLower name }
  | none => { b with reg := false, name := E.toLower name }

/-- Method `Init`: set the name and allocate empty maps and filter slices. -/
def Init (E : Env) (b : BaseRouter) (t : Router) (name : String) : BaseRouter :=
  { setName E b name with
    this := t, children := [], regchildren := [], beforeFilters := [], afterFilters := [] }

/-- Method `Name`. -/
def Name (h : Heap) (self : Ref) : String := (h self).name

/-- Method `Super`. -/
def Super (h : Heap) (self : Ref) : Router := (h self).super

/-- Method `SetSuper`. -/
def SetSuper (h : Heap) (self : Ref) (super : Router) : Heap :=
  h.set self { h self with super := super }

/-- Method `Level`. -/
def Level (h : Heap) (self : Ref) : Int := (h self).level

/-- Method `Reg`. -/
def Reg (h : Heap) (self : Ref) : Bool := (h self).reg

/-- Method `SetLevel`: store the level, then visit the literal children and the regex children,
each with `this.level + 1` as read at the moment of the call. -/
def SetLevel : Nat → Heap → Ref → Int → Option Heap
  | 0, _, _, _ => none
  | fuel + 1, h, self, level =>
    let h0 := h.set self { h self with level := level }
    match forRange (fun hc child => SetLevel fuel hc child (intAdd (hc self).level 1))
        (h0 self).children h0 with
    | none => none
    | some h1 =>
      forRange (fun hc child => SetLevel fuel hc child (intAdd (hc self).level 1))
        (h1 self).regchildren h1

/-- Method `check`: a regex node asks its segment, a literal node compares the lower-cased
segment with its name under case folding and returns the nil map. -/
def check (E : Env) (b : BaseRouter) (route : String) : Captures × Bool :=
  if b.reg then E.segParse b.segment route
  else (none, E.equalFold (E.toLower route) b.name)

/-- Method `Child`: look the lower-cased name up in `children`, then in `regchildren`. -/
def Child (E : Env) (h : Heap) (self : Ref) (name : String) : Router × Bool :=
  let name := E.toLower name
  match mapGet (h self).children name with
  | some router => (some router, true)
  | none =>
    match mapGet (h self).regchildren name with
    | some router => (some router, true)
    | none => (none, false)

/-- Method `childrenMap`. -/
def childrenMap (h : Heap) (self : Ref) : RouterMap := (h self).children

/-- Method `regchildrenMap`. -/
def regchildrenMap (h : Heap) (self : Ref) : RouterMap := (h self).regchildren

/-- The assignment `children[key] = router` of `AddChild`, where `children` aliases the
regex map or the literal map of `self`. -/
def putChild (h : Heap) (self : Ref) (useReg : Bool) (key : String) (router : Ref) : Heap :=
  if useReg then
    h.set self { h self with regchildren := mapSet (h self).regchildren key router }
  else
    h.set self { h self with children := mapSet (h self).children key router }

/-- Method `AddChild`: insert a router whose name is free in the index chosen by its `reg` flag;
otherwise hand each of its children to the child that holds the name. The two range
loops visit the entries that the maps of `router` hold when the merge starts. -/
def AddChild (E : Env) : Nat → Heap → Ref → Router → Option (Heap × Bool)
  | 0, _, _, _ => none
  | _ + 1, h, _, none => some (h, false)
  | fuel + 1, h, self, some router =>
    let name := E.toLower (Name h router)
    let children := if Reg h router then (h self).regchildren else (h self).children
    match mapGet children name with
    | none =>
      let h1 := putChild h self (Reg h router) (E.toLower (Name h router)) router
      let h2 := SetSuper h1 router (some self)
      match SetLevel fuel h2 router (intAdd (h2 self).level 1) with
      | none => none
      | some h3 => some (h3, true)
    | some child =>
      let routerChildren := childrenMap h router
      let routerMapChildren := regchildrenMap h router
      match forRange (fun hc v => (AddChild E fuel hc child (some v)).map Prod.fst)
          routerChildren h with
      | none => none
      | some h1 =>
        match forRange (fun hc v => (AddChild E fuel hc child (some v)).map Prod.fst)
            routerMapChildren h1 with
        | none => none
        | some h2 => some (h2, false)

/-- Method `RemoveChild`: delete the exact key from the literal map. -/
def RemoveChild (h : Heap) (self : Ref) (name : String) : Heap × Bool :=
  match mapGet (h self).children name with
  | some _ => (h.set self { h self with children := mapDelete (h self).children name }, true)
  | none => (h, false)

/-! ## A concrete environment and concrete heaps -/

/-- Modelled from the Go standard library, which is not part of the sources at hand:
`unicode.ToLower` on the code points up to U+00FF and on U+0130. The letters `A` to `Z`
and U+00C0 to U+00DE (without the sign U+00D7) move up by 32, U+0130 becomes `i`, and
the other code points of that range map to themselves. Code points outside that range are
left as they are, whatever Go does with them. -/
def goLowerChar (c : Char) : Char :=
  if c.toNat = 304 then 'i'
  else if (65 ≤ c.toNat ∧ c.toNat ≤ 90) ∨ (192 ≤ c.toNat ∧ c.toNat ≤ 222 ∧ c.toNat ≠ 215) then
    Char.ofNat (c.toNat + 32)
  else c

/-- Modelled from the Go standard library: `strings.ToLower` maps every code point with
`unicode.ToLower`. -/
def goLower (s : String) : String := ⟨s.data.map goLowerChar⟩

/-- Modelled from the Go standard library: a representative of the simple case folding
orbit `unicode.SimpleFold` runs through, among the code points up to U+00FF and U+0130.
An upper-case letter and its lower-case letter share an orbit; U+0130 is alone in its
orbit, although its lower case is `i`. -/
def goFoldChar (c : Char) : Char :=
  if c.toNat = 304 then c else goLowerChar c

/-- Modelled from the Go standard library: `strings.EqualFold` compares two strings code
point by code point, up to simple case folding. -/
def goEqualFold (a b : String) : Bool :=
  decide (a.data.map goFoldChar = b.data.map goFoldChar)

/-- Modelled from the spec: `ParseReg` accepts a name with a parenthesised
`key=pattern` fragment and compiles it to an anchored pattern. Of all names only the one
regex name of the instances below is compiled here; the names without a parenthesis, and
the spelling with the upper-cased class name, which is no POSIX class, are refused. -/
def idParseReg (s : String) : Option RegSegment :=
  if s = "(id=[[:alpha:]]+)" then some ⟨"^[[:alpha:]]+$", ["id"]⟩ else none

/-- Modelled from the spec: `(*RegSegment).Parse` matches the whole segment against the
compiled pattern and returns what the keys captured. Only the pattern `idParseReg`
compiles is matched: one or more ASCII letters, captured under the key `id`. -/
def idSegParse (seg : Option RegSegment) (route : String) : Captures × Bool :=
  if seg = some ⟨"^[[:alpha:]]+$", ["id"]⟩ ∧ route.data ≠ [] ∧
      route.data.all Char.isAlpha = true then
    (some [("id", route)], true)
  else (none, false)

/-- The environment of the instances. It stands in for the Go standard library and for
the regex file of the package on the inputs the instances use, and on no more than that:
case mapping and case folding are those of Go on the code points up to U+00FF and on
U+0130, and one regex name is compiled and matched. The theorems below hold for every
environment; this one only evaluates them. -/
def asciiEnv : Env where
  toLower := goLower
  equalFold := goEqualFold
  parseReg := idParseReg
  segParse := idSegParse

/-- A node as `Init` leaves a zero `BaseRouter`. -/
def freshNode (name : String) (reg : Bool) : BaseRouter :=
  { this := none, name := name, super := none, level := 0, segment := none, reg := reg,
    children := [], regchildren := [], beforeFilters := [], afterFilters := [] }

/-- The zero value of `BaseRouter` with allocated maps. -/
def zeroNode : BaseRouter := freshNode "" false

/-- The environment of the instances that use the regex name: exactly one name parses
as a regex name, for the class name of the pattern is case-sensitive, so that the
upper-cased spelling does not compile. -/
def caseEnv : Env where
  toLower := goLower
  equalFold := goEqualFold
  parseReg := idParseReg
  segParse := idSegParse

/-- Three initialised routers: a root, a regex node and a literal node whose names
agree after lower-casing. -/
def twinHeap : Heap := fun r =>
  match r with
  | 0 => Init caseEnv zeroNode (some 0) "root"
  | 1 => Init caseEnv zeroNode (some 1) "(id=[[:alpha:]]+)"
  | 2 => Init caseEnv zeroNode (some 2) "(ID=[[:ALPHA:]]+)"
  | _ => zeroNode

/-- The heap after `root.AddChildren(regexNode, literalNode)`, call by call. -/
def twinAttached : Heap :=
  let h1 := ((AddChild caseEnv 2 twinHeap 0 (some 1)).map Prod.fst).getD twinHeap
  ((AddChild caseEnv 2 h1 0 (some 2)).map Prod.fst).getD h1

/-! ## Trees in the heap -/

/-- The routers held by the two child maps of `r`, literal children first. -/
def kids (h : Heap) (r : Ref) : List Ref :=
  ((h r).children ++ (h r).regchildren).map Prod.snd

/-- Every chain of children that starts at `r` has fewer than `d` nodes. -/
def finiteTree : Nat → Heap → Ref → Bool
  | 0, _, _ => false
  | d + 1, h, r => (kids h r).all (finiteTree d h)

/-- The nodes on chains of fewer than `d` child steps from `r`, in preorder; below a
`finiteTree d` these are all the nodes of the subtree, and the subtree is a tree (no node
is shared) when the list has no duplicates. -/
def nodes : Nat → Heap → Ref → List Ref
  | 0, _, _ => []
  | d + 1, h, r => r :: (kids h r).flatMap (nodes d h)

/-- The nodes exactly `k` child steps below `r`. -/
def nodesAt : Nat → Heap → Ref → List Ref
  | 0, _, r => [r]
  | k + 1, h, r => (kids h r).flatMap (nodesAt k h)

/-- The range loop of `forRange` over the values of the map only. -/
def forRefs (body : Heap → Ref → Option Heap) : List Ref → Heap → Option Heap
  | [], h => some h
  | v :: rest, h =>
    match body h v with
    | none => none
    | some h' => forRefs body rest h'

/-- The heaps agree on every field except `level`. -/
def SameShape (h h' : Heap) : Prop :=
  ∀ x, h' x = { h x with level := (h' x).level }

/-- The body of the two loops of `SetLevel`. -/
def levelBody (fuel : Nat) (self : Ref) : Heap → Ref → Option Heap :=
  fun hc child => SetLevel fuel hc child (intAdd (hc self).level 1)

/-- A literal node with the given name, level, parent and literal children. -/
def litNode (name : String) (level : Int) (super : Router) (children : RouterMap) :
    BaseRouter :=
  { freshNode name false with level := level, super := super, children := children }

/-- A small site: the tree of `api` (0, 1, 2) at levels 2, 3, 4; a detached tree of a
second `users` router (10 to 13) that shares the path `users/list` with it; a detached
chain `posts/new/draft` (20, 21, 22). -/
def siteHeap : Heap := fun r =>
  match r with
  | 0 => litNode "api" 2 none [("users", 1)]
  | 1 => litNode "users" 3 (some 0) [("list", 2)]
  | 2 => litNode "list" 4 (some 1) []
  | 10 => litNode "users" 0 none [("list", 11), ("edit", 12)]
  | 11 => litNode "list" 1 (some 10) [("all", 13)]
  | 12 => litNode "edit" 1 (some 10) []
  | 13 => litNode "all" 2 (some 11) []
  | 20 => litNode "posts" 0 none [("new", 21)]
  | 21 => litNode "new" 0 none [("draft", 22)]
  | 22 => litNode "draft" 0 none []
  | _ => zeroNode

/-! ## Key paths -/

/-- One step of a path: the index kind (`true` for the regex index) and the map key. -/
abbrev Key := Bool × String

/-- The step under which `AddChild` files the router `v`: its `Reg()` flag and its
lower-cased `Name()`. -/
def keyOf (E : Env) (h : Heap) (v : Ref) : Key := (Reg h v, E.toLower (Name h v))

/-- Lookup of one step in the index of its kind. -/
def edgeGet (h : Heap) (r : Ref) (k : Key) : Option Ref :=
  mapGet (if k.1 then (h r).regchildren else (h r).children) k.2

/-- The node that a key path leads to from `r`, when every step has an entry. -/
def walk (h : Heap) : Ref → List Key → Option Ref
  | r, [] => some r
  | r, k :: p =>
    match edgeGet h r k with
    | none => none
    | some c => walk h c p

/-- The first of two optional results. -/
def firstOf (a b : Option Ref) : Option Ref :=
  match a with
  | some x => some x
  | none => b

/-- The paths of `f` moved below the step `k`. -/
def under (k : Key) (f : List Key → Option Ref) : List Key → Option Ref
  | [] => none
  | k' :: q => if k' = k then f q else none

/-- The entries of both maps of `x` are filed under the lower-cased name of the router
they hold, literal routers in `children` and regex routers in `regchildren`, and no map
has two entries with one key. -/
def indexOK (E : Env) (h : Heap) (x : Ref) : Bool :=
  (h x).children.all (fun e => decide (keyOf E h e.2 = (false, e.1))) &&
  (h x).regchildren.all (fun e => decide (keyOf E h e.2 = (true, e.1))) &&
  decide ((h x).children.map Prod.fst).Nodup &&
  decide ((h x).regchildren.map Prod.fst).Nodup

/-- The heap of `AddChild` after the map write and `SetSuper`, before `SetLevel`. -/
def attach (E : Env) (h : Heap) (self router : Ref) : Heap :=
  SetSuper (putChild h self (Reg h router) (E.toLower (Name h router)) router) router (some self)

/-- The body of the two merge loops of `AddChild`. -/
def mergeBody (E : Env) (fuel : Nat) (child : Ref) : Heap → Ref → Option Heap :=
  fun hc v => (AddChild E fuel hc child (some v)).map Prod.fst

/-- Every edge below `X` steps the level by one. -/
def LevelInv (h : Heap) (X : Ref) : Prop :=
  ∀ p x s c, walk h X p = some x → edgeGet h x s = some c →
    (h c).level = intAdd (h x).level 1

/-- The list form of `LevelInv` on the nodes of a depth-bounded tree. -/
def levelOK (d : Nat) (h : Heap) (X : Ref) : Bool :=
  (nodes d h X).all (fun x => (kids h x).all (fun c => decide ((h c).level = intAdd (h x).level 1)))

/-- A single initialised router. -/
def loneHeap : Heap := fun r =>
  match r with
  | 0 => Init asciiEnv zeroNode (some 0) "root"
  | _ => zeroNode

/-- The entries of both maps of `r` with their steps, literal entries first. -/
def entries (h : Heap) (r : Ref) : List (Key × Ref) :=
  (h r).children.map (fun e => ((false, e.1), e.2)) ++
  (h r).regchildren.map (fun e => ((true, e.1), e.2))

/-- The paths that a list of routers filed by name contributes: below the step of the
first router with that step, the paths of that router. -/
def firstUnder (E : Env) (h : Heap) : List Ref → List Key → Option Ref
  | [], _ => none
  | v :: vs, p => firstOf (under (keyOf E h v) (walk h v) p) (firstUnder E h vs p)

/-- The fields of a router that `AddChild` and `SetLevel` never write. -/
def coreOf (b : BaseRouter) :
    Router × String × Option RegSegment × Bool × List FilterRef × List FilterRef :=
  (b.this, b.name, b.segment, b.reg, b.beforeFilters, b.afterFilters)

/-- What a call `X.AddChild(N)` may assume: the subtree of `N` is a finite tree, the key
paths from `X` lead to pairwise distinct nodes, none of them in the subtree of `N`. -/
structure AddPre (d : Nat) (h : Heap) (X N : Ref) : Prop where
  fin : finiteTree d h N = true
  nd : (nodes d h N).Nodup
  inj : ∀ p q x, walk h X p = some x → walk h X q = some x → p = q
  disj : ∀ p x, walk h X p = some x → x ∉ nodes d h N

/-- What attaching routers with node set `S` below `X` leaves behind: the old paths
from `X` lead where they led, the new paths lead into `S` without sharing; a node off
the old paths and outside `S` is untouched; the fields of `coreOf` are never written;
levels and parents change inside `S` only; the level invariant below `X` is kept. -/
structure Post (h h' : Heap) (X : Ref) (S : List Ref) : Prop where
  walk_ex : ∃ W : List Key → Option Ref,
    (∀ p, walk h' X p = firstOf (walk h X p) (W p)) ∧
    (∀ p x, W p = some x → x ∈ S) ∧
    (∀ p q x, W p = some x → W q = some x → p = q)
  frame : ∀ x, (∀ p, walk h X p ≠ some x) → x ∉ S → h' x = h x
  core : ∀ x, coreOf (h' x) = coreOf (h x)
  outside : ∀ x, x ∉ S → (h' x).level = (h x).level ∧ (h' x).super = (h x).super
  level : LevelInv h X → LevelInv h' X

/-- What one call `X.AddChild(N)` achieves below a tree, for subtrees of `N` of depth
below `d`. -/
def AddSpec (E : Env) (d : Nat) : Prop :=
  ∀ (h : Heap) (X N : Ref), AddPre d h X N →
    ∃ h' b, AddChild E (d + 1) h X (some N) = some (h', b) ∧
      b = (edgeGet h X (keyOf E h N)).isNone ∧
      Post h h' X (nodes d h N) ∧
      (∀ c, edgeGet h X (keyOf E h N) = some c → h' X = h X) ∧
      ((∀ x ∈ nodes d h N, indexOK E h x = true) →
        ∀ p, walk h' X p = firstOf (walk h X p) (under (keyOf E h N) (walk h N) p))

/-- Three initialised routers: `root`, and two routers whose names differ in letter case
only. -/
def usersBase : Heap := fun r =>
  match r with
  | 0 => Init asciiEnv zeroNode (some 0) "root"
  | 1 => Init asciiEnv zeroNode (some 1) "Users"
  | 2 => Init asciiEnv zeroNode (some 2) "users"
  | _ => zeroNode

/-- The heap after `root.AddChild(Users)`. -/
def usersHeap : Heap :=
  ((AddChild asciiEnv 2 usersBase 0 (some 1)).map Prod.fst).getD usersBase

/-- Three initialised routers `p`, `a`, `A`. -/
def cycleBase : Heap := fun r =>
  match r with
  | 0 => Init asciiEnv zeroNode (some 0) "p"
  | 1 => Init asciiEnv zeroNode (some 1) "a"
  | 2 => Init asciiEnv zeroNode (some 2) "A"
  | _ => zeroNode

/-- The heap after `p.AddChild(a)` and then `A.AddChild(p)`: the router `p` holds `a`,
and the detached router `A` holds `p`. -/
def cycleHeap : Heap :=
  let h1 := ((AddChild asciiEnv 2 cycleBase 0 (some 1)).map Prod.fst).getD cycleBase
  ((AddChild asciiEnv 3 h1 2 (some 0)).map Prod.fst).getD h1

/-! ## Filter chains -/

/-- A value of the Go interface `RouterFilter` as an argument: `none` is `nil`. The
slices `beforeFilters` and `afterFilters` hold non-nil filters only, since
`AddBeforeFilter` and `AddAfterFilter` are the only writers and skip `nil`. -/
abbrev RouterFilter := Option FilterRef

/-- What the method `Filter(context)` of each filter does: its answer and the context it
leaves. A filter acts on the context only; it does not touch the route tree. -/
abbrev FilterSem (C : Type) := FilterRef → C → Bool × C

/-- The loop of `ExecBeforeFilter` over the slice. Besides the result and the context, it
returns the record of the calls of `Filter` it made, each with the answer it got. -/
def beforeLoop {C : Type} (F : FilterSem C) :
    List FilterRef → C → List (FilterRef × Bool) → Bool × C × List (FilterRef × Bool)
  | [], ctx, calls => (true, ctx, calls)
  | router :: rest, ctx, calls =>
    let goon := (F router ctx).1
    if !goon then (false, (F router ctx).2, calls ++ [(router, goon)])
    else beforeLoop F rest (F router ctx).2 (calls ++ [(router, goon)])

/-- Method `ExecBeforeFilter`. -/
def ExecBeforeFilter {C : Type} (F : FilterSem C) (h : Heap) (self : Ref) (context : C) :
    Bool × C × List (FilterRef × Bool) :=
  beforeLoop F (h self).beforeFilters context []

/-- The loop of `ExecAfterFilter` over the slice, with the record of its calls. -/
def afterLoop {C : Type} (F : FilterSem C) :
    List FilterRef → C → List (FilterRef × Bool) → Bool × C × List (FilterRef × Bool)
  | [], ctx, calls => (true, ctx, calls)
  | router :: rest, ctx, calls =>
    let goon := (F router ctx).1
    if !goon then (false, (F router ctx).2, calls ++ [(router, goon)])
    else afterLoop F rest (F router ctx).2 (calls ++ [(router, goon)])

/-- Method `ExecAfterFilter`. -/
def ExecAfterFilter {C : Type} (F : FilterSem C) (h : Heap) (self : Ref) (context : C) :
    Bool × C × List (FilterRef × Bool) :=
  afterLoop F (h self).afterFilters context []

/-- Method `AddBeforeFilter`: append a non-nil filter; the result is `this.this`. -/
def AddBeforeFilter (h : Heap) (self : Ref) (filter : RouterFilter) : Heap × Router :=
  match filter with
  | some f =>
    (h.set self { h self with beforeFilters := (h self).beforeFilters ++ [f] }, (h self).this)
  | none => (h, (h self).this)

/-- Method `AddAfterFilter`: append a non-nil filter; the result is `this.this`. -/
def AddAfterFilter (h : Heap) (self : Ref) (filter : RouterFilter) : Heap × Router :=
  match filter with
  | some f =>
    (h.set self { h self with afterFilters := (h self).afterFilters ++ [f] }, (h self).this)
  | none => (h, (h self).this)

/-- The scan of `RemoveBeforeFilter` and `RemoveAfterFilter` from position `index`: at the
first element equal to `filter` the result is `append(all[:index], all[index+1:]...)`. -/
def removeScan (filter : RouterFilter) (all : List FilterRef) :
    List FilterRef → Nat → Option (List FilterRef)
  | [], _ => none
  | child :: rest, index =>
    if some child = filter then some (all.take index ++ all.drop (index + 1))
    else removeScan filter all rest (index + 1)

/-- Method `RemoveBeforeFilter`. -/
def RemoveBeforeFilter (h : Heap) (self : Ref) (filter : RouterFilter) : Heap × Bool :=
  match removeScan filter (h self).beforeFilters (h self).beforeFilters 0 with
  | some l => (h.set self { h self with beforeFilters := l }, true)
  | none => (h, false)

/-- Method `RemoveAfterFilter`. -/
def RemoveAfterFilter (h : Heap) (self : Ref) (filter : RouterFilter) : Heap × Bool :=
  match removeScan filter (h self).afterFilters (h self).afterFilters 0 with
  | some l => (h.set self { h self with afterFilters := l }, true)
  | none => (h, false)

/-- The calls `AddBeforeFilter(f1)`, ..., `AddBeforeFilter(fn)` on one node, in order. -/
def addBeforeAll (h : Heap) (self : Ref) (fs : List FilterRef) : Heap :=
  fs.foldl (fun hc f => (AddBeforeFilter hc self (some f)).1) h

/-- A record of calls is genuine: made one after the other from `ctx`, each filter gives
the recorded answer; the result is the context after the last call. -/
def replay {C : Type} (F : FilterSem C) : List (FilterRef × Bool) → C → Option C
  | [], ctx => some ctx
  | (f, a) :: rest, ctx => if (F f ctx).1 = a then replay F rest (F f ctx).2 else none

/-- Filters over a counter context: filter `f` adds `f` to the counter and lets the
request pass while the counter stays below 10. -/
def countSem : FilterSem Nat := fun f ctx => (decide (ctx + f < 10), ctx + f)

/-- A router with before-filters 3, 4, 5 and after-filters 3, 4, 5, and a fresh router. -/
def filterHeap : Heap := fun r =>
  match r with
  | 0 => { freshNode "root" false with beforeFilters := [3, 4, 5], afterFilters := [3, 4, 5] }
  | _ => zeroNode

/-- A router to which the filter 3 was added twice, around the filter 4, on both chains. -/
def twiceHeap : Heap := fun r =>
  match r with
  | 0 => { freshNode "root" false with beforeFilters := [3, 4, 3], afterFilters := [3, 4, 3] }
  | _ => zeroNode

/-! ## `AddChildren` -/

/-- The loop `for _, router := range routers { body(router) }` over the arguments of a
variadic call, threading the heap. -/
def forRouters (body : Heap → Router → Option Heap) : List Router → Heap → Option Heap
  | [], h => some h
  | router :: rest, h =>
    match body h router with
    | none => none
    | some h' => forRouters body rest h'

/-- Method `AddChildren`: call `AddChild` on each argument, drop its result, return
false. -/
def AddChildren (E : Env) (fuel : Nat) (h : Heap) (self : Ref) (routers : List Router) :
    Option (Heap × Bool) :=
  match forRouters (fun hc router => (AddChild E fuel hc self router).map Prod.fst) routers h with
  | none => none
  | some h' => some (h', false)

/-- The state after the calls `P.AddChild(r1)`, ..., `P.AddChild(rn)` made one after the
other in that order, as the claim about `AddChildren` words it. -/
def sequentialAddChild (E : Env) (fuel : Nat) (h : Heap) (P : Ref) (rs : List Router) :
    Option Heap :=
  rs.foldl (fun acc r => acc.bind (fun hc => (AddChild E fuel hc P r).map Prod.fst)) (some h)

/-- What every returning call `X.AddChild(r)` guarantees, on any heap: the fields of
`coreOf` are not written; no entry leaves a child map; well-filed indexes stay well-filed;
the level and the parent of a node from which `X` is reachable are not written. -/
structure Gen (E : Env) (h h' : Heap) (X : Ref) : Prop where
  core : ∀ x, coreOf (h' x) = coreOf (h x)
  mono : ∀ x, ∀ c ∈ kids h x, c ∈ kids h' x
  idx : (∀ x, indexOK E h x = true) → ∀ x, indexOK E h' x = true
  anc : ∀ y d, X ∈ nodes d h y → (h' y).level = (h y).level ∧ (h' y).super = (h y).super

/-- The states reached from freshly initialised routers by calls of `AddChild`,
`AddChildren`, `RemoveChild` and `SetLevel` that return. -/
inductive Reached (E : Env) : Heap → Prop
  | fresh (h : Heap) (hnew : ∀ x, ∃ b t name, h x = Init E b t name) : Reached E h
  | addChild (h : Heap) (fuel : Nat) (P : Ref) (r : Router) (h' : Heap) (b : Bool) :
      Reached E h → AddChild E fuel h P r = some (h', b) → Reached E h'
  | addChildren (h : Heap) (fuel : Nat) (P : Ref) (rs : List Router) (h' : Heap) (b : Bool) :
      Reached E h → AddChildren E fuel h P rs = some (h', b) → Reached E h'
  | removeChild (h : Heap) (P : Ref) (s : String) :
      Reached E h → Reached E (RemoveChild h P s).1
  | setLevel (h : Heap) (fuel : Nat) (P : Ref) (l : Int) (h' : Heap) :
      Reached E h → SetLevel fuel h P l = some h' → Reached E h'

/-- A root that holds `a`, which carries the before-filter 3 and the after-filter 6; a
detached router `a` with before-filters 4, 5, after-filter 7 and one child `x`. -/
def keepHeap : Heap := fun r =>
  match r with
  | 0 => litNode "root" 0 none [("a", 1)]
  | 1 => { litNode "a" 1 (some 0) [] with beforeFilters := [3], afterFilters := [6] }
  | 2 => { litNode "a" 0 none [("x", 3)] with beforeFilters := [4, 5], afterFilters := [7] }
  | 3 => litNode "x" 1 (some 2) []
  | _ => zeroNode

/-- Four initialised routers `root`, `a`, `A`, `x`. -/
def sharedBase : Heap := fun r =>
  match r with
  | 0 => Init asciiEnv zeroNode (some 0) "root"
  | 1 => Init asciiEnv zeroNode (some 1) "a"
  | 2 => Init asciiEnv zeroNode (some 2) "A"
  | 3 => Init asciiEnv zeroNode (some 3) "x"
  | _ => zeroNode

/-- The heap after `A.AddChild(x)`, `root.AddChild(a)` and `root.AddChild(A)`. -/
def sharedHeap : Heap :=
  let h1 := ((AddChild asciiEnv 2 sharedBase 2 (some 3)).map Prod.fst).getD sharedBase
  let h2 := ((AddChild asciiEnv 2 h1 0 (some 1)).map Prod.fst).getD h1
  ((AddChild asciiEnv 3 h2 0 (some 2)).map Prod.fst).getD h2

/-- The name, regex flag, parent, level and both filter lists of `x` are the same in the
two heaps. -/
def sameNodeData (h h' : Heap) (x : Ref) : Prop :=
  Name h' x = Name h x ∧ Reg h' x = Reg h x ∧ Super h' x = Super h x ∧
  Level h' x = Level h x ∧ (h' x).beforeFilters = (h x).beforeFilters ∧
  (h' x).afterFilters = (h x).afterFilters

/-- Four initialised routers `root`, `a`, `b`, `x`. -/
def pairBase : Heap := fun r =>
  match r with
  | 0 => Init asciiEnv zeroNode (some 0) "root"
  | 1 => Init asciiEnv zeroNode (some 1) "a"
  | 2 => Init asciiEnv zeroNode (some 2) "b"
  | 3 => Init asciiEnv zeroNode (some 3) "x"
  | _ => zeroNode

/-- The heap after `root.AddChild(a)`. -/
def pairOne : Heap :=
  ((AddChild asciiEnv 2 pairBase 0 (some 1)).map Prod.fst).getD pairBase

/-- The heap after `root.AddChild(a)` and `root.AddChild(b)`. -/
def pairTwo : Heap :=
  ((AddChild asciiEnv 2 pairOne 0 (some 2)).map Prod.fst).getD pairOne

/-- The heap after `root.AddChild(a)`, `root.AddChild(b)` and `a.AddChild(x)`. -/
def pairThree : Heap :=
  ((AddChild asciiEnv 2 pairTwo 1 (some 3)).map Prod.fst).getD pairTwo

/-- The heap after `root.AddChild(a)`, `root.AddChild(b)`, `a.AddChild(x)` and
`b.AddChild(x)`. -/
def pairShared : Heap :=
  ((AddChild asciiEnv 2 pairThree 2 (some 3)).map Prod.fst).getD pairThree

/-- Five initialised routers `root`, `q`, `n`, `N`, `w`. -/
def holderBase : Heap := fun r =>
  match r with
  | 0 => Init asciiEnv zeroNode (some 0) "root"
  | 1 => Init asciiEnv zeroNode (some 1) "q"
  | 2 => Init asciiEnv zeroNode (some 2) "n"
  | 3 => Init asciiEnv zeroNode (some 3) "N"
  | 4 => Init asciiEnv zeroNode (some 4) "w"
  | _ => zeroNode

/-- The heap after `q.AddChild(n)`. -/
def holderOne : Heap :=
  ((AddChild asciiEnv 2 holderBase 1 (some 2)).map Prod.fst).getD holderBase

/-- The heap after `q.AddChild(n)` and `root.AddChild(n)`. -/
def holderTwo : Heap :=
  ((AddChild asciiEnv 2 holderOne 0 (some 2)).map Prod.fst).getD holderOne

/-- The heap after `q.AddChild(n)`, `root.AddChild(n)` and `N.AddChild(w)`. -/
def holderThree : Heap :=
  ((AddChild asciiEnv 2 holderTwo 3 (some 4)).map Prod.fst).getD holderTwo

/-- The heap after `q.AddChild(n)`, `root.AddChild(n)`, `N.AddChild(w)` and
`root.AddChild(w)`. -/
def holderFour : Heap :=
  ((AddChild asciiEnv 2 holderThree 0 (some 4)).map Prod.fst).getD holderThree

/-- The heap after `q.AddChild(n)`, `root.AddChild(n)`, `N.AddChild(w)`,
`root.AddChild(w)` and the merging call `q.AddChild(N)`. -/
def holderFive : Heap :=
  ((AddChild asciiEnv 3 holderFour 1 (some 3)).map Prod.fst).getD holderFour

/-- The heap after `A.AddChild(x)` on the four routers `root`, `a`, `A`, `x`. -/
def graftOne : Heap :=
  ((AddChild asciiEnv 2 sharedBase 2 (some 3)).map Prod.fst).getD sharedBase

/-- The heap after `A.AddChild(x)` and `root.AddChildren(a, A)`. -/
def graftHeap : Heap :=
  ((AddChildren asciiEnv 3 graftOne 0 [some 1, some 2]).map Prod.fst).getD graftOne

/-- The calls `P.AddChild(r)` that the tree below `R` admits in the heap `h`: the
argument is nil; or `P` is a router below `R` and the argument is the root of a finite
tree none of whose routers is below `R`; or the call is made away from the tree, no
router reachable from `P` or from the argument through the child maps being below `R`. -/
def admits (R : Ref) (h : Heap) (P : Ref) (r : Router) : Prop :=
  match r with
  | none => True
  | some N =>
    (∃ path d, walk h R path = some P ∧ finiteTree d h N = true ∧ (nodes d h N).Nodup ∧
      ∀ p x, walk h R p = some x → x ∉ nodes d h N) ∨
    (∀ p x d, walk h R p = some x → x ∉ nodes d h P ∧ x ∉ nodes d h N)

/-- The calls `P.AddChildren(rs)` whose calls of `AddChild` the tree below `R` admits,
each in the heap the calls before it leave. -/
def admitsAll (E : Env) (fuel : Nat) (R P : Ref) : Heap → List Router → Prop
  | _, [] => True
  | h, r :: rs =>
    admits R h P r ∧ ∀ h1 b, AddChild E fuel h P r = some (h1, b) → admitsAll E fuel R P h1 rs

/-- The states reached from freshly initialised routers by calls of `AddChild`,
`AddChildren` and `RemoveChild` that return, when the tree below `R` admits every call of
`AddChild` and `AddChildren` on the way. -/
inductive TreeReached (E : Env) (R : Ref) : Heap → Prop
  | fresh (h : Heap) (hnew : ∀ x, ∃ b t name, h x = Init E b t name) : TreeReached E R h
  | addChild (h : Heap) (fuel : Nat) (P : Ref) (r : Router) (h' : Heap) (b : Bool) :
      TreeReached E R h → admits R h P r → AddChild E fuel h P r = some (h', b) →
      TreeReached E R h'
  | addChildren (h : Heap) (fuel : Nat) (P : Ref) (rs : List Router) (h' : Heap) (b : Bool) :
      TreeReached E R h → admitsAll E fuel R P h rs →
      AddChildren E fuel h P rs = some (h', b) → TreeReached E R h'
  | removeChild (h : Heap) (P : Ref) (s : String) :
      TreeReached E R h → TreeReached E R (RemoveChild h P s).1

/-! # Verification -/

/-! ## Basic facts -/

theorem Heap.set_same (h : Heap) (r : Ref) (b : BaseRouter) : (h.set r b) r = b := by
  simp [Heap.set]

theorem Heap.set_other (h : Heap) (r x : Ref) (b : BaseRouter) (hx : x ≠ r) :
    (h.set r b) x = h x := by
  simp [Heap.set, hx]

theorem Heap.set_self (h : Heap) (r : Ref) : h.set r (h r) = h := by
  funext x
  by_cases hx : x = r
  · subst hx; simp [Heap.set]
  · simp [Heap.set, hx]

theorem mapGet_mapDelete (m : RouterMap) (k k' : String) :
    mapGet (mapDelete m k) k' = if k' = k then none else mapGet m k' := by
  induction m with
  | nil => simp [mapDelete, mapGet]
  | cons e m ih =>
    obtain ⟨a, v⟩ := e
    unfold mapDelete at ih ⊢
    by_cases ha : a = k
    · subst ha
      by_cases hk : k' = a
      · subst hk; simpa [List.filter, mapGet] using ih
      · have hk2 : ¬ a = k' := fun e => hk e.symm
        simpa [List.filter, mapGet, hk, hk2] using ih
    · by_cases hk : k' = k
      · subst hk
        simpa [List.filter, mapGet, ha] using ih
      · by_cases hak : a = k'
        · simp [List.filter, mapGet, ha, hk, hak]
        · simpa [List.filter, mapGet, ha, hk, hak] using ih

theorem mapDelete_absent (m : RouterMap) (k : String) (hk : mapGet m k = none) :
    mapDelete m k = m := by
  induction m with
  | nil => rfl
  | cons e m ih =>
    obtain ⟨a, v⟩ := e
    unfold mapDelete at ih ⊢
    by_cases ha : a = k
    · simp [mapGet, ha] at hk
    · simp only [mapGet, ha, if_false] at hk
      have := ih hk
      rw [List.filter_cons_of_pos (by simpa using ha), this]

theorem mapGet_mapSet (m : RouterMap) (k k' : String) (v : Ref) :
    mapGet (mapSet m k v) k' = if k' = k then some v else mapGet m k' := by
  unfold mapSet
  by_cases hk : k' = k
  · subst hk; simp [mapGet]
  · have hk2 : ¬ k = k' := fun e => hk e.symm
    simp [mapGet, hk, hk2, mapGet_mapDelete]

/-! ## Lookup, removal, literal matching -/

/-- C7: `Child` is a direct key lookup under the lower-cased name, the literal index
first and the regex index only when the literal index has no entry; a name with the same
lower-casing gives the same result. -/
theorem Child_direct_lookup (E : Env) (h : Heap) (P : Ref) (s : String) :
    Child E h P s =
      (match mapGet (h P).children (E.toLower s) with
       | some c => (some c, true)
       | none =>
         match mapGet (h P).regchildren (E.toLower s) with
         | some c => (some c, true)
         | none => (none, false)) ∧
    ∀ s', E.toLower s' = E.toLower s → Child E h P s' = Child E h P s := by
  refine ⟨rfl, ?_⟩
  intro s' hs
  simp only [Child, hs]

/-- Instance of C7 on a root holding a regex child and a literal child under one key:
the literal child wins, under any spelling of the name. -/
theorem Child_direct_lookup_witness :
    Child caseEnv twinAttached 0 "(ID=[[:alpha:]]+)" = (some 2, true) ∧
    Child caseEnv twinAttached 0 "(Id=[[:ALPHA:]]+)"
      = Child caseEnv twinAttached 0 "(ID=[[:alpha:]]+)" :=
  ⟨by decide, (Child_direct_lookup caseEnv twinAttached 0 "(ID=[[:alpha:]]+)").2
      "(Id=[[:ALPHA:]]+)" (by decide)⟩

/-- C8: `RemoveChild` reports whether the literal index held the exact key, removes that
key alone from the literal index, and leaves every other field of the node and every
other node as it was. -/
theorem RemoveChild_literal_only (h : Heap) (P : Ref) (s : String) :
    (RemoveChild h P s).2 = (mapGet (h P).children s).isSome ∧
    ((RemoveChild h P s).1 P).children = (h P).children.filter (fun e => decide (e.1 ≠ s)) ∧
    (∀ k, mapGet ((RemoveChild h P s).1 P).children k
        = if k = s then none else mapGet (h P).children k) ∧
    (mapGet (h P).children s = none → (RemoveChild h P s).1 = h) ∧
    ((RemoveChild h P s).1 P).regchildren = (h P).regchildren ∧
    ((RemoveChild h P s).1 P).beforeFilters = (h P).beforeFilters ∧
    ((RemoveChild h P s).1 P).afterFilters = (h P).afterFilters ∧
    ((RemoveChild h P s).1 P).name = (h P).name ∧
    ((RemoveChild h P s).1 P).level = (h P).level ∧
    ((RemoveChild h P s).1 P).super = (h P).super ∧
    (∀ r, r ≠ P → (RemoveChild h P s).1 r = h r) := by
  unfold RemoveChild
  cases hg : mapGet (h P).children s with
  | none =>
    have hd := mapDelete_absent _ _ hg
    unfold mapDelete at hd
    refine ⟨rfl, hd.symm, ?_, fun _ => rfl, rfl, rfl, rfl, rfl, rfl, rfl, fun _ _ => rfl⟩
    intro k
    by_cases hk : k = s
    · subst hk; simp [hg]
    · simp [hk]
  | some c =>
    refine ⟨rfl, ?_, ?_, ?_, ?_, ?_, ?_, ?_, ?_, ?_, ?_⟩
    · simp [Heap.set, mapDelete]
    · intro k
      simp only [Heap.set, if_true]
      exact mapGet_mapDelete _ _ _
    · intro hc; cases hc
    · simp [Heap.set]
    · simp [Heap.set]
    · simp [Heap.set]
    · simp [Heap.set]
    · simp [Heap.set]
    · simp [Heap.set]
    · intro r hr; simp [Heap.set, hr]

/-- Instance of C8: removing an absent key changes nothing. -/
theorem RemoveChild_literal_only_witness :
    mapGet (twinAttached 0).children "users" = none ∧
    (RemoveChild twinAttached 0 "users").1 = twinAttached :=
  ⟨by decide, (RemoveChild_literal_only twinAttached 0 "users").2.2.2.1 (by decide)⟩

/-- C9, as stated, fails: a root holds a literal child and a regex child under one key;
after the literal child is removed, `Child` under that name finds the regex child. -/
theorem RemoveChild_then_Child_finds_regex_twin :
    mapGet (twinAttached 0).children "(id=[[:alpha:]]+)" = some 2 ∧
    (twinAttached 2).name = "(id=[[:alpha:]]+)" ∧
    (RemoveChild twinAttached 0 "(id=[[:alpha:]]+)").2 = true ∧
    Child caseEnv (RemoveChild twinAttached 0 "(id=[[:alpha:]]+)").1 0 "(id=[[:alpha:]]+)"
      = (some 1, true) := by
  decide

/-- C9, amended: after `RemoveChild(s)` for a lower-case key `s` of the literal index, the
literal index has no entry under `s`, the regex index is what it was, and `Child(s)`
answers from the regex index alone: its entry under `s` when there is one, not found
otherwise. -/
theorem RemoveChild_then_Child (E : Env) (h : Heap) (P : Ref) (s : String)
    (hs : mapGet (h P).children s ≠ none) (hl : E.toLower s = s) :
    (RemoveChild h P s).2 = true ∧
    mapGet ((RemoveChild h P s).1 P).children s = none ∧
    ((RemoveChild h P s).1 P).regchildren = (h P).regchildren ∧
    Child E (RemoveChild h P s).1 P s =
      (match mapGet (h P).regchildren s with
       | some c => (some c, true)
       | none => (none, false)) := by
  cases hg : mapGet (h P).children s with
  | none => exact absurd hg hs
  | some c =>
    have hnone : mapGet ((RemoveChild h P s).1 P).children s = none := by
      simp only [RemoveChild, hg, Heap.set, if_true]
      rw [mapGet_mapDelete]
      simp
    have hreg : ((RemoveChild h P s).1 P).regchildren = (h P).regchildren := by
      simp [RemoveChild, hg, Heap.set]
    refine ⟨by simp [RemoveChild, hg], hnone, hreg, ?_⟩
    simp only [Child, hl, hnone, hreg]

/-- Instance of the amended C9 on the root with twin children. -/
theorem RemoveChild_then_Child_witness :
    Child caseEnv (RemoveChild twinAttached 0 "(id=[[:alpha:]]+)").1 0 "(id=[[:alpha:]]+)" =
      (match mapGet (twinAttached 0).regchildren "(id=[[:alpha:]]+)" with
       | some c => (some c, true)
       | none => (none, false)) :=
  (RemoveChild_then_Child caseEnv twinAttached 0 "(id=[[:alpha:]]+)"
    (by decide) (by decide)).2.2.2

/-- C10, as stated, fails: a node named `i` is no regex node, and it matches the segment
made of the one letter U+0130, whose lower case is `i`; case folding tells the two
apart, so the segment does not equal the name ignoring letter case. -/
theorem check_lowers_before_folding :
    asciiEnv.parseReg "i" = none ∧
    check asciiEnv (Init asciiEnv zeroNode none "i") "\u0130" = (none, true) ∧
    asciiEnv.equalFold "\u0130" "i" = false := by
  decide

/-- C10, amended: a node initialised with a name `n` that does not parse as a regex name
matches a segment `r` exactly when the lower-cased `r` equals the lower-cased `n` under
case folding, and it returns the nil capture map. -/
theorem check_literal_lowered (E : Env) (b : BaseRouter) (t : Router) (n r : String)
    (hn : E.parseReg n = none) :
    check E (Init E b t n) r = (none, E.equalFold (E.toLower r) (E.toLower n)) := by
  have hreg : (Init E b t n).reg = false := by
    simp only [Init, setName, hn]
  have hname : (Init E b t n).name = E.toLower n := by
    simp only [Init, setName, hn]
  unfold check
  rw [hreg, hname]
  rfl

/-- Instance of the amended C10: a node named `Users` matches `users`, `USERS` and
`UsErS`, and does not match `user`. -/
theorem check_literal_lowered_witness :
    asciiEnv.parseReg "Users" = none ∧
    check asciiEnv (Init asciiEnv zeroNode none "Users") "USERS"
      = (none, asciiEnv.equalFold (asciiEnv.toLower "USERS") (asciiEnv.toLower "Users")) ∧
    check asciiEnv (Init asciiEnv zeroNode none "Users") "users" = (none, true) ∧
    check asciiEnv (Init asciiEnv zeroNode none "Users") "USERS" = (none, true) ∧
    check asciiEnv (Init asciiEnv zeroNode none "Users") "UsErS" = (none, true) ∧
    check asciiEnv (Init asciiEnv zeroNode none "Users") "user" = (none, false) :=
  ⟨by decide, check_literal_lowered asciiEnv zeroNode none "Users" "USERS" (by decide),
    by decide, by decide, by decide, by decide⟩

/-! ## Integers -/

theorem intAdd_intAdd (l a b : Int) : intAdd (intAdd l a) b = intAdd l (a + b) := by
  unfold intAdd wrapInt
  omega

/-! ## Range loops -/

theorem forRange_eq_forRefs (body : Heap → Ref → Option Heap) (m : RouterMap) (h : Heap) :
    forRange body m h = forRefs body (m.map Prod.snd) h := by
  induction m generalizing h with
  | nil => rfl
  | cons e m ih =>
    obtain ⟨k, v⟩ := e
    simp only [forRange, List.map_cons, forRefs]
    cases body h v with
    | none => rfl
    | some h' => exact ih h'

theorem forRefs_append (body : Heap → Ref → Option Heap) (a b : List Ref) (h : Heap) :
    forRefs body (a ++ b) h = (forRefs body a h).bind (forRefs body b) := by
  induction a generalizing h with
  | nil => rfl
  | cons v a ih =>
    simp only [List.cons_append, forRefs]
    cases body h v with
    | none => rfl
    | some h' => exact ih h'

/-! ## Shape -/

theorem SameShape.refl (h : Heap) : SameShape h h := fun _ => rfl

theorem SameShape.trans {a b c : Heap} (h1 : SameShape a b) (h2 : SameShape b c) :
    SameShape a c := by
  intro x
  have e1 := h1 x
  have e2 := h2 x
  rw [e2, e1]

theorem SameShape.setLevel (h : Heap) (r : Ref) (l : Int) :
    SameShape h (h.set r { h r with level := l }) := by
  intro x
  by_cases hx : x = r
  · subst hx; simp [Heap.set]
  · simp [Heap.set, hx]

theorem SameShape.children {h h' : Heap} (s : SameShape h h') (x : Ref) :
    (h' x).children = (h x).children := by rw [s x]

theorem SameShape.regchildren {h h' : Heap} (s : SameShape h h') (x : Ref) :
    (h' x).regchildren = (h x).regchildren := by rw [s x]

theorem SameShape.kids {h h' : Heap} (s : SameShape h h') (x : Ref) :
    kids h' x = kids h x := by
  unfold TinyRouter.kids
  rw [s.children, s.regchildren]

theorem SameShape.finiteTree {h h' : Heap} (s : SameShape h h') (d : Nat) (x : Ref) :
    finiteTree d h' x = finiteTree d h x := by
  induction d generalizing x with
  | zero => rfl
  | succ d ih =>
    simp only [TinyRouter.finiteTree, s.kids]
    congr 1
    funext c
    exact ih c

theorem SameShape.nodes {h h' : Heap} (s : SameShape h h') (d : Nat) (x : Ref) :
    nodes d h' x = nodes d h x := by
  induction d generalizing x with
  | zero => rfl
  | succ d ih =>
    simp only [TinyRouter.nodes, s.kids]
    congr 2
    funext c
    exact ih c

theorem SameShape.eq_of_level {h h' : Heap} (s : SameShape h h') (x : Ref)
    (hl : (h' x).level = (h x).level) : h' x = h x := by
  rw [s x, hl]

/-- A loop whose body keeps the shape keeps the shape. -/
theorem forRefs_shape (body : Heap → Ref → Option Heap)
    (hb : ∀ hc v hc', body hc v = some hc' → SameShape hc hc')
    (cs : List Ref) (h h' : Heap) (hr : forRefs body cs h = some h') : SameShape h h' := by
  induction cs generalizing h with
  | nil =>
    simp only [forRefs, Option.some.injEq] at hr
    subst hr
    exact SameShape.refl h
  | cons v cs ih =>
    simp only [forRefs] at hr
    cases hv : body h v with
    | none => rw [hv] at hr; cases hr
    | some h1 =>
      rw [hv] at hr
      exact (hb h v h1 hv).trans (ih h1 hr)

/-! ## `SetLevel` -/

theorem SetLevel_shape (f : Nat) (h : Heap) (r : Ref) (l : Int) (h' : Heap)
    (hr : SetLevel f h r l = some h') : SameShape h h' := by
  induction f generalizing h r l h' with
  | zero => simp [SetLevel] at hr
  | succ f ih =>
    simp only [SetLevel, forRange_eq_forRefs] at hr
    have hb : ∀ hc v hc', (fun hc child => SetLevel f hc child (intAdd (hc r).level 1)) hc v
        = some hc' → SameShape hc hc' := fun hc v hc' e => ih hc v _ hc' e
    cases h1e : forRefs (fun hc child => SetLevel f hc child (intAdd (hc r).level 1))
        (List.map Prod.snd ((h.set r { h r with level := l }) r).children)
        (h.set r { h r with level := l }) with
    | none => rw [h1e] at hr; cases hr
    | some h1 =>
      rw [h1e] at hr
      simp only [] at hr
      have s0 := SameShape.setLevel h r l
      have s1 := forRefs_shape _ hb _ _ _ h1e
      have s2 := forRefs_shape _ hb _ _ _ hr
      exact (s0.trans s1).trans s2

/-- One call of `SetLevel`: the store, then one loop over all children. -/
theorem SetLevel_succ (f : Nat) (h : Heap) (r : Ref) (l : Int) :
    SetLevel (f + 1) h r l
      = forRefs (levelBody f r) (kids h r) (h.set r { h r with level := l }) := by
  have s0 := SameShape.setLevel h r l
  have hb : ∀ hc v hc', levelBody f r hc v = some hc' → SameShape hc hc' :=
    fun hc v hc' e => SetLevel_shape f hc v _ hc' e
  unfold kids
  rw [List.map_append, forRefs_append]
  simp only [SetLevel, forRange_eq_forRefs]
  rw [s0.children]
  change (match forRefs (levelBody f r) _ _ with
    | none => none
    | some h1 => forRefs (levelBody f r) (List.map Prod.snd (h1 r).regchildren) h1) = _
  cases h1e : forRefs (levelBody f r) (List.map Prod.snd (h r).children)
      (h.set r { h r with level := l }) with
  | none => rfl
  | some h1 =>
    have s1 := forRefs_shape _ hb _ _ _ h1e
    simp only [Option.bind]
    rw [(s0.trans s1).regchildren]

/-- A loop of `SetLevel` calls touches only the subtrees of the children it visits. -/
theorem levelLoop_frame (f : Nat) (r : Ref)
    (ih : ∀ h c l h', SetLevel f h c l = some h' → ∀ x, x ∉ nodes f h c → h' x = h x)
    (h0 : Heap) (cs : List Ref) (h h' : Heap) (s : SameShape h0 h)
    (hr : forRefs (levelBody f r) cs h = some h') :
    ∀ x, (∀ c ∈ cs, x ∉ nodes f h0 c) → h' x = h x := by
  induction cs generalizing h with
  | nil =>
    simp only [forRefs, Option.some.injEq] at hr
    subst hr
    intro x _; rfl
  | cons v cs ihl =>
    simp only [forRefs] at hr
    cases hv : levelBody f r h v with
    | none => rw [hv] at hr; cases hr
    | some h1 =>
      rw [hv] at hr
      simp only [] at hr
      intro x hx
      have s1 : SameShape h h1 := SetLevel_shape f h v _ h1 hv
      have e1 : h1 x = h x := by
        apply ih h v _ h1 hv x
        rw [s.nodes]
        exact hx v (List.mem_cons_self _ _)
      rw [ihl h1 (s.trans s1) hr x (fun c hc => hx c (List.mem_cons_of_mem _ hc)), e1]

theorem SetLevel_frame (f : Nat) (h : Heap) (r : Ref) (l : Int) (h' : Heap)
    (hr : SetLevel f h r l = some h') : ∀ x, x ∉ nodes f h r → h' x = h x := by
  induction f generalizing h r l h' with
  | zero => simp [SetLevel] at hr
  | succ f ih =>
    rw [SetLevel_succ] at hr
    intro x hx
    simp only [nodes, List.mem_cons, List.mem_flatMap, not_or, not_exists, not_and] at hx
    have s0 := SameShape.setLevel h r l
    have := levelLoop_frame f r ih h (kids h r) _ h' s0 hr x (fun c hc => hx.2 c hc)
    rw [this, Heap.set_other _ _ _ _ hx.1]

theorem finiteTree_pos {d : Nat} {h : Heap} {r : Ref} (hf : finiteTree d h r = true) :
    ∃ e, d = e + 1 := by
  cases d with
  | zero => simp [finiteTree] at hf
  | succ e => exact ⟨e, rfl⟩

theorem finiteTree_kid {d : Nat} {h : Heap} {r c : Ref} (hf : finiteTree (d + 1) h r = true)
    (hc : c ∈ kids h r) : finiteTree d h c = true := by
  simp only [finiteTree, List.all_eq_true] at hf
  exact hf c hc

theorem mem_nodes_self {d : Nat} {h : Heap} {r : Ref} (hf : finiteTree d h r = true) :
    r ∈ nodes d h r := by
  obtain ⟨e, rfl⟩ := finiteTree_pos hf
  simp [nodes]

/-- Below a `finiteTree`, the list of nodes is closed under taking children. -/
theorem nodes_closed {d : Nat} {h : Heap} {r x c : Ref} (hf : finiteTree d h r = true)
    (hx : x ∈ nodes d h r) (hc : c ∈ kids h x) : c ∈ nodes d h r := by
  induction d generalizing r with
  | zero => simp [nodes] at hx
  | succ d ih =>
    simp only [nodes, List.mem_cons, List.mem_flatMap] at hx ⊢
    right
    rcases hx with rfl | ⟨c0, hc0, hx0⟩
    · exact ⟨c, hc, mem_nodes_self (finiteTree_kid hf hc)⟩
    · exact ⟨c0, hc0, ih (finiteTree_kid hf hc0) hx0⟩

/-- A loop of `SetLevel` calls over depth-bounded children returns. -/
theorem levelLoop_total (f : Nat) (r : Ref)
    (ih : ∀ h c l, finiteTree f h c = true → ∃ h', SetLevel f h c l = some h')
    (h0 : Heap) (cs : List Ref) (h : Heap) (s : SameShape h0 h)
    (hf : ∀ c ∈ cs, finiteTree f h0 c = true) :
    ∃ h', forRefs (levelBody f r) cs h = some h' := by
  induction cs generalizing h with
  | nil => exact ⟨h, rfl⟩
  | cons v cs ihl =>
    have hv : finiteTree f h v = true := by
      rw [s.finiteTree]; exact hf v (List.mem_cons_self _ _)
    obtain ⟨h1, e1⟩ := ih h v (intAdd (h r).level 1) hv
    have s1 : SameShape h h1 := SetLevel_shape f h v _ h1 e1
    obtain ⟨h', e'⟩ := ihl h1 (s.trans s1) (fun c hc => hf c (List.mem_cons_of_mem _ hc))
    refine ⟨h', ?_⟩
    simp only [forRefs]
    have : levelBody f r h v = some h1 := e1
    rw [this]
    exact e'

theorem SetLevel_total (f : Nat) (h : Heap) (r : Ref) (l : Int)
    (hf : finiteTree f h r = true) : ∃ h', SetLevel f h r l = some h' := by
  induction f generalizing h r l with
  | zero => simp [finiteTree] at hf
  | succ f ih =>
    rw [SetLevel_succ]
    have s0 := SameShape.setLevel h r l
    exact levelLoop_total f r ih h (kids h r) _ s0 (fun c hc => finiteTree_kid hf hc)

theorem SameShape.nodesAt {h h' : Heap} (s : SameShape h h') (k : Nat) (x : Ref) :
    nodesAt k h' x = nodesAt k h x := by
  induction k generalizing x with
  | zero => rfl
  | succ k ih =>
    simp only [TinyRouter.nodesAt, s.kids]
    congr 1
    funext c
    exact ih c

/-- Inside a tree, a loop of `SetLevel` calls leaves each visited child at the level
handed to it and every edge below it with a step of one. -/
theorem levelLoop_levels (f : Nat) (r : Ref) (l : Int)
    (ih : ∀ h c l h', finiteTree f h c = true → (nodes f h c).Nodup →
      SetLevel f h c l = some h' →
      (h' c).level = l ∧ ∀ x ∈ nodes f h c, ∀ c' ∈ kids h x,
        (h' c').level = intAdd (h' x).level 1)
    (h0 : Heap) (cs : List Ref) (h h' : Heap) (s : SameShape h0 h)
    (hf : ∀ c ∈ cs, finiteTree f h0 c = true)
    (hnd : (cs.flatMap (nodes f h0)).Nodup) (hr : r ∉ cs.flatMap (nodes f h0))
    (hl : (h r).level = l) (hrun : forRefs (levelBody f r) cs h = some h') :
    (h' r).level = l ∧ ∀ c ∈ cs, (h' c).level = intAdd l 1 ∧
      ∀ x ∈ nodes f h0 c, ∀ c' ∈ kids h0 x, (h' c').level = intAdd (h' x).level 1 := by
  induction cs generalizing h with
  | nil =>
    simp only [forRefs, Option.some.injEq] at hrun
    subst hrun
    exact ⟨hl, fun c hc => absurd hc (List.not_mem_nil c)⟩
  | cons v cs ihl =>
    simp only [forRefs] at hrun
    cases hv : levelBody f r h v with
    | none => rw [hv] at hrun; cases hrun
    | some h1 =>
      rw [hv] at hrun
      simp only [] at hrun
      have hv' : SetLevel f h v (intAdd (h r).level 1) = some h1 := hv
      rw [List.flatMap_cons, List.nodup_append] at hnd
      obtain ⟨hndv, hndcs, hdisj⟩ := hnd
      rw [List.flatMap_cons, List.mem_append, not_or] at hr
      have s1 : SameShape h h1 := SetLevel_shape f h v _ h1 hv'
      have hfv : finiteTree f h0 v = true := hf v (List.mem_cons_self _ _)
      have hgood := ih h v _ h1 (by rw [s.finiteTree]; exact hfv)
        (by rw [s.nodes]; exact hndv) hv'
      rw [hl, s.nodes] at hgood
      have hr1 : (h1 r).level = l := by
        rw [SetLevel_frame f h v _ h1 hv' r (by rw [s.nodes]; exact hr.1)]
        exact hl
      obtain ⟨hrl, hrest⟩ := ihl h1 (s.trans s1)
        (fun c hc => hf c (List.mem_cons_of_mem _ hc)) hndcs hr.2 hr1 hrun
      have hkeep : ∀ x ∈ nodes f h0 v, h' x = h1 x := by
        intro x hx
        apply levelLoop_frame f r (fun h c l h' e => SetLevel_frame f h c l h' e) h0 cs h1 h'
          (s.trans s1) hrun x
        intro c hc hxc
        exact hdisj hx (List.mem_flatMap.mpr ⟨c, hc, hxc⟩)
      refine ⟨hrl, ?_⟩
      intro c hc
      rcases List.mem_cons.mp hc with rfl | hc
      · refine ⟨?_, ?_⟩
        · rw [hkeep c (mem_nodes_self hfv)]; exact hgood.1
        · intro x hx c' hc'
          rw [hkeep x hx, hkeep c' (nodes_closed hfv hx hc'), ← s.kids] at *
          exact hgood.2 x hx c' hc'
      · exact hrest c hc

/-- On a finite tree `SetLevel` stores the level at the root and leaves every edge of the
tree with a step of one. -/
theorem SetLevel_levels (f : Nat) (h : Heap) (r : Ref) (l : Int) (h' : Heap)
    (hf : finiteTree f h r = true) (hnd : (nodes f h r).Nodup)
    (hrun : SetLevel f h r l = some h') :
    (h' r).level = l ∧ ∀ x ∈ nodes f h r, ∀ c ∈ kids h x,
      (h' c).level = intAdd (h' x).level 1 := by
  induction f generalizing h r l h' with
  | zero => simp [finiteTree] at hf
  | succ f ih =>
    rw [SetLevel_succ] at hrun
    simp only [nodes, List.nodup_cons] at hnd
    have s0 := SameShape.setLevel h r l
    obtain ⟨hrl, hgood⟩ := levelLoop_levels f r l ih h (kids h r) _ h' s0
      (fun c hc => finiteTree_kid hf hc) hnd.2 hnd.1 (by simp [Heap.set]) hrun
    refine ⟨hrl, ?_⟩
    intro x hx c hc
    simp only [nodes, List.mem_cons, List.mem_flatMap] at hx
    rcases hx with rfl | ⟨c0, hc0, hx0⟩
    · rw [hrl]; exact (hgood c hc).1
    · exact (hgood c0 hc0).2 x hx0 c hc

theorem mem_nodesAt_succ (k : Nat) (h : Heap) (r x : Ref) :
    x ∈ nodesAt (k + 1) h r ↔ ∃ y ∈ nodesAt k h r, x ∈ kids h y := by
  induction k generalizing r with
  | zero => simp [nodesAt]
  | succ k ih =>
    constructor
    · intro hx
      rw [nodesAt, List.mem_flatMap] at hx
      obtain ⟨c, hc, hxc⟩ := hx
      obtain ⟨y, hy, hxy⟩ := (ih c).mp hxc
      exact ⟨y, by rw [nodesAt, List.mem_flatMap]; exact ⟨c, hc, hy⟩, hxy⟩
    · rintro ⟨y, hy, hxy⟩
      rw [nodesAt, List.mem_flatMap] at hy
      obtain ⟨c, hc, hyc⟩ := hy
      rw [nodesAt, List.mem_flatMap]
      exact ⟨c, hc, (ih c).mpr ⟨y, hyc, hxy⟩⟩

theorem nodesAt_subset_nodes {d : Nat} {h : Heap} {r : Ref} (hf : finiteTree d h r = true)
    (k : Nat) (x : Ref) (hx : x ∈ nodesAt k h r) : x ∈ nodes d h r := by
  induction k generalizing x with
  | zero =>
    simp only [nodesAt, List.mem_singleton] at hx
    subst hx
    exact mem_nodes_self hf
  | succ k ih =>
    obtain ⟨y, hy, hxy⟩ := (mem_nodesAt_succ k h r x).mp hx
    exact nodes_closed hf (ih y hy) hxy

theorem mem_nodes_depth (d : Nat) (h : Heap) (r x : Ref) (hx : x ∈ nodes d h r) :
    ∃ k, x ∈ nodesAt k h r := by
  induction d generalizing r with
  | zero => simp [nodes] at hx
  | succ d ih =>
    simp only [nodes, List.mem_cons, List.mem_flatMap] at hx
    rcases hx with rfl | ⟨c, hc, hxc⟩
    · exact ⟨0, by simp [nodesAt]⟩
    · obtain ⟨k, hk⟩ := ih c hxc
      exact ⟨k + 1, by rw [nodesAt, List.mem_flatMap]; exact ⟨c, hc, hk⟩⟩

/-- Levels along the edges of a tree give the level of a node from its depth. -/
theorem level_of_depth {d : Nat} {h h' : Heap} {r : Ref} {l : Int}
    (hf : finiteTree d h r = true) (hroot : (h' r).level = l)
    (hedge : ∀ x ∈ nodes d h r, ∀ c ∈ kids h x, (h' c).level = intAdd (h' x).level 1)
    (k : Nat) (x : Ref) (hx : x ∈ nodesAt (k + 1) h r) :
    (h' x).level = intAdd l ((k + 1 : Nat) : Int) := by
  induction k generalizing x with
  | zero =>
    obtain ⟨y, hy, hxy⟩ := (mem_nodesAt_succ 0 h r x).mp hx
    simp only [nodesAt, List.mem_singleton] at hy
    subst hy
    rw [hedge y (mem_nodes_self hf) x hxy, hroot]
    rfl
  | succ k ih =>
    obtain ⟨y, hy, hxy⟩ := (mem_nodesAt_succ (k + 1) h r x).mp hx
    rw [hedge y (nodesAt_subset_nodes hf (k + 1) y hy) x hxy, ih y hy, intAdd_intAdd]
    congr 1

/-- What `SetLevel` does to a finite tree. -/
theorem SetLevel_tree (d : Nat) (h : Heap) (R : Ref) (l : Int)
    (hfin : finiteTree d h R = true) (htree : (nodes d h R).Nodup) :
    ∃ h', SetLevel d h R l = some h' ∧
      (h' R).level = l ∧
      (∀ k x, x ∈ nodesAt (k + 1) h R → (h' x).level = intAdd l ((k + 1 : Nat) : Int)) ∧
      (∀ x, h' x = { h x with level := (h' x).level }) ∧
      (∀ x, x ∉ nodes d h R → h' x = h x) := by
  obtain ⟨h', hrun⟩ := SetLevel_total d h R l hfin
  obtain ⟨hroot, hedge⟩ := SetLevel_levels d h R l h' hfin htree hrun
  exact ⟨h', hrun, hroot, level_of_depth hfin hroot hedge, SetLevel_shape d h R l h' hrun,
    SetLevel_frame d h R l h' hrun⟩

/-- C5: on a finite tree rooted at `R`, `SetLevel(l)` returns, leaves `R` at level `l`
and every node `k + 1` steps below `R` at level `l + (k + 1)` in Go arithmetic, changes
no field but `level`, and leaves every node outside the tree as it was. -/
theorem SetLevel_postcondition (d : Nat) (h : Heap) (R : Ref) (l : Int)
    (hfin : finiteTree d h R = true) (htree : (nodes d h R).Nodup) :
    ∃ h', SetLevel d h R l = some h' ∧
      (h' R).level = l ∧
      (∀ k x, x ∈ nodesAt (k + 1) h R → (h' x).level = intAdd l ((k + 1 : Nat) : Int)) ∧
      (∀ x, h' x = { h x with level := (h' x).level }) ∧
      (∀ x, x ∉ nodes d h R → h' x = h x) := by
  obtain ⟨h', hrun⟩ := SetLevel_total d h R l hfin
  obtain ⟨hroot, hedge⟩ := SetLevel_levels d h R l h' hfin htree hrun
  refine ⟨h', hrun, hroot, ?_, SetLevel_shape d h R l h' hrun, SetLevel_frame d h R l h' hrun⟩
  intro k x hx
  exact level_of_depth hfin hroot hedge k x hx

/-- Instance of C5: `SetLevel(7)` on the chain `posts/new/draft`. -/
theorem SetLevel_postcondition_witness :
    ∃ h', SetLevel 3 siteHeap 20 7 = some h' ∧
      (h' 20).level = 7 ∧
      (∀ k x, x ∈ nodesAt (k + 1) siteHeap 20 →
        (h' x).level = intAdd 7 ((k + 1 : Nat) : Int)) ∧
      (∀ x, h' x = { siteHeap x with level := (h' x).level }) ∧
      (∀ x, x ∉ nodes 3 siteHeap 20 → h' x = siteHeap x) :=
  SetLevel_postcondition 3 siteHeap 20 7 (by decide) (by decide)

/-- C6: on a finite tree, a second `SetLevel(l)` returns the heap the first one left. -/
theorem SetLevel_idempotent (d : Nat) (h : Heap) (R : Ref) (l : Int)
    (hfin : finiteTree d h R = true) (htree : (nodes d h R).Nodup) :
    ∃ h1, SetLevel d h R l = some h1 ∧ SetLevel d h1 R l = some h1 := by
  obtain ⟨h1, hrun1, hroot1, hlev1, hshape1, -⟩ := SetLevel_tree d h R l hfin htree
  have s1 : SameShape h h1 := hshape1
  obtain ⟨h2, hrun2, hroot2, hlev2, hshape2, hframe2⟩ := SetLevel_tree d h1 R l
    (by rw [s1.finiteTree]; exact hfin) (by rw [s1.nodes]; exact htree)
  refine ⟨h1, hrun1, ?_⟩
  rw [hrun2]
  congr 1
  funext x
  by_cases hx : x ∈ nodes d h1 R
  · have s2 : SameShape h1 h2 := hshape2
    apply s2.eq_of_level
    obtain ⟨k, hk⟩ := mem_nodes_depth d h1 R x hx
    cases k with
    | zero =>
      simp only [nodesAt, List.mem_singleton] at hk
      subst hk
      rw [hroot2, hroot1]
    | succ k =>
      have hk' : x ∈ nodesAt (k + 1) h R := by
        rw [← s1.nodesAt]; exact hk
      rw [hlev2 k x hk, hlev1 k x hk']
  · exact hframe2 x hx

/-- Instance of C6 on the tree of the second `users` router. -/
theorem SetLevel_idempotent_witness :
    ∃ h1, SetLevel 3 siteHeap 10 5 = some h1 ∧ SetLevel 3 h1 10 5 = some h1 :=
  SetLevel_idempotent 3 siteHeap 10 5 (by decide) (by decide)

/-! ## `AddChild`, one call -/

theorem AddChild_succ (E : Env) (f : Nat) (h : Heap) (X N : Ref) :
    AddChild E (f + 1) h X (some N) =
      match edgeGet h X (keyOf E h N) with
      | none =>
        (SetLevel f (attach E h X N) N (intAdd ((attach E h X N) X).level 1)).map
          (fun h3 => (h3, true))
      | some child => (forRefs (mergeBody E f child) (kids h N) h).map (fun h2 => (h2, false)) := by
  have hk : edgeGet h X (keyOf E h N)
      = mapGet (if Reg h N then (h X).regchildren else (h X).children)
          (E.toLower (Name h N)) := by
    unfold edgeGet keyOf
    cases Reg h N <;> rfl
  rw [hk]
  simp only [AddChild]
  cases hg : mapGet (if Reg h N = true then (h X).regchildren else (h X).children)
      (E.toLower (Name h N)) with
  | none =>
    simp only []
    unfold attach
    cases SetLevel f (SetSuper (putChild h X (Reg h N) (E.toLower (Name h N)) N) N (some X)) N
      (intAdd ((SetSuper (putChild h X (Reg h N) (E.toLower (Name h N)) N) N (some X)) X).level 1)
      <;> rfl
  | some child =>
    simp only [forRange_eq_forRefs, childrenMap, regchildrenMap]
    unfold kids
    rw [List.map_append, forRefs_append]
    change _ = Option.map _ (Option.bind (forRefs (mergeBody E f child) _ h) _)
    change (match forRefs (mergeBody E f child) _ h with
      | none => none
      | some h1 => match forRefs (mergeBody E f child) _ h1 with
        | none => none
        | some h2 => some (h2, false)) = _
    cases forRefs (mergeBody E f child) (List.map Prod.snd (h N).children) h with
    | none => rfl
    | some h1 =>
      simp only [Option.bind]
      cases forRefs (mergeBody E f child) (List.map Prod.snd (h N).regchildren) h1 <;> rfl

/-! ## The heap after the map write and `SetSuper` -/

theorem attach_other (E : Env) (h : Heap) (X N x : Ref) (hX : x ≠ X) (hN : x ≠ N) :
    attach E h X N x = h x := by
  unfold attach SetSuper putChild
  cases Reg h N <;> simp [Heap.set, hX, hN]

theorem attach_router (E : Env) (h : Heap) (X N : Ref) (hne : N ≠ X) :
    attach E h X N N = { h N with super := some X } := by
  unfold attach SetSuper putChild
  cases Reg h N <;> simp [Heap.set, hne]

theorem attach_self (E : Env) (h : Heap) (X N : Ref) (hne : N ≠ X) :
    attach E h X N X =
      if Reg h N then
        { h X with regchildren := mapSet (h X).regchildren (E.toLower (Name h N)) N }
      else { h X with children := mapSet (h X).children (E.toLower (Name h N)) N } := by
  have hne' : X ≠ N := fun e => hne e.symm
  unfold attach SetSuper putChild
  cases Reg h N <;> simp [Heap.set, hne']

theorem attach_level (E : Env) (h : Heap) (X N x : Ref) :
    (attach E h X N x).level = (h x).level := by
  unfold attach SetSuper putChild Heap.set
  cases Reg h N <;> simp only [Bool.false_eq_true, if_false, if_true] <;> split_ifs <;>
    simp_all

theorem edgeGet_attach_self (E : Env) (h : Heap) (X N : Ref) (hne : N ≠ X) (k : Key) :
    edgeGet (attach E h X N) X k = if k = keyOf E h N then some N else edgeGet h X k := by
  unfold edgeGet keyOf
  rw [attach_self E h X N hne]
  obtain ⟨b, s⟩ := k
  cases hr : Reg h N <;> cases b <;> simp [mapGet_mapSet]

theorem edgeGet_attach_other (E : Env) (h : Heap) (X N x : Ref) (hne : N ≠ X) (hx : x ≠ X)
    (k : Key) : edgeGet (attach E h X N) x k = edgeGet h x k := by
  unfold edgeGet
  by_cases hN : x = N
  · subst hN
    rw [attach_router E h X x hne]
  · rw [attach_other E h X N x hx hN]

theorem kids_attach_other (E : Env) (h : Heap) (X N x : Ref) (hne : N ≠ X) (hx : x ≠ X) :
    kids (attach E h X N) x = kids h x := by
  unfold kids
  by_cases hN : x = N
  · subst hN
    rw [attach_router E h X x hne]
  · rw [attach_other E h X N x hx hN]

/-! ## Depth-bounded subtrees -/

theorem finiteTree_mono {d : Nat} {h : Heap} {r : Ref} (hf : finiteTree d h r = true) :
    finiteTree (d + 1) h r = true := by
  induction d generalizing r with
  | zero => simp [finiteTree] at hf
  | succ d ih =>
    rw [finiteTree, List.all_eq_true]
    intro c hc
    exact ih (finiteTree_kid hf hc)

theorem finiteTree_of_mem_nodes {d e : Nat} {h : Heap} {c x : Ref} (hx : x ∈ nodes d h c)
    (hf : finiteTree e h c = true) : finiteTree e h x = true := by
  induction d generalizing c e with
  | zero => simp [nodes] at hx
  | succ d ih =>
    simp only [nodes, List.mem_cons, List.mem_flatMap] at hx
    rcases hx with rfl | ⟨c', hc', hx'⟩
    · exact hf
    · obtain ⟨e', rfl⟩ := finiteTree_pos hf
      exact finiteTree_mono (ih hx' (finiteTree_kid hf hc'))

/-- A depth-bounded subtree has no cycle through its root. -/
theorem not_mem_nodes_kid {e : Nat} {h : Heap} {r c : Ref} (hf : finiteTree e h r = true)
    (hc : c ∈ kids h r) (d : Nat) : r ∉ nodes d h c := by
  induction e generalizing r c with
  | zero => simp [finiteTree] at hf
  | succ e ih =>
    intro hr
    have hfc : finiteTree e h c = true := finiteTree_kid hf hc
    have hfr : finiteTree e h r = true := finiteTree_of_mem_nodes hr hfc
    exact ih hfr hc hr

/-- The node list and the depth bound read only the child maps of the nodes listed. -/
theorem nodes_congr {d : Nat} {h h' : Heap} {r : Ref}
    (hk : ∀ x ∈ nodes d h r, kids h' x = kids h x) :
    nodes d h' r = nodes d h r ∧ finiteTree d h' r = finiteTree d h r := by
  induction d generalizing r with
  | zero => exact ⟨rfl, rfl⟩
  | succ d ih =>
    have hr : kids h' r = kids h r := hk r (by simp [nodes])
    have hsub : ∀ c ∈ kids h r, nodes d h' c = nodes d h c ∧ finiteTree d h' c = finiteTree d h c := by
      intro c hc
      apply ih
      intro x hx
      apply hk
      simp only [nodes, List.mem_cons, List.mem_flatMap]
      exact Or.inr ⟨c, hc, hx⟩
    constructor
    · simp only [nodes, hr]
      congr 1
      apply List.flatMap_congr
      intro c hc
      exact (hsub c hc).1
    · simp only [finiteTree, hr]
      rw [Bool.eq_iff_iff, List.all_eq_true, List.all_eq_true]
      constructor
      · intro H c hc; rw [← (hsub c hc).2]; exact H c hc
      · intro H c hc; rw [(hsub c hc).2]; exact H c hc

/-! ## `SetLevel` returns only on depth-bounded subtrees -/

theorem levelLoop_finite (f : Nat) (r : Ref)
    (ih : ∀ h c l h', SetLevel f h c l = some h' → finiteTree f h c = true)
    (h0 : Heap) (cs : List Ref) (h h' : Heap) (s : SameShape h0 h)
    (hr : forRefs (levelBody f r) cs h = some h') : ∀ c ∈ cs, finiteTree f h0 c = true := by
  induction cs generalizing h with
  | nil => intro c hc; cases hc
  | cons v cs ihl =>
    simp only [forRefs] at hr
    cases hv : levelBody f r h v with
    | none => rw [hv] at hr; cases hr
    | some h1 =>
      rw [hv] at hr
      simp only [] at hr
      have s1 : SameShape h h1 := SetLevel_shape f h v _ h1 hv
      intro c hc
      rcases List.mem_cons.mp hc with rfl | hc
      · rw [← s.finiteTree]; exact ih h c _ h1 hv
      · exact ihl h1 (s.trans s1) hr c hc

theorem SetLevel_some_finite (f : Nat) (h : Heap) (r : Ref) (l : Int) (h' : Heap)
    (hr : SetLevel f h r l = some h') : finiteTree f h r = true := by
  induction f generalizing h r l h' with
  | zero => simp [SetLevel] at hr
  | succ f ih =>
    rw [SetLevel_succ] at hr
    rw [finiteTree, List.all_eq_true]
    exact levelLoop_finite f r ih h (kids h r) _ h' (SameShape.setLevel h r l) hr

theorem SetLevel_root_level (f : Nat) (h : Heap) (r : Ref) (l : Int) (h' : Heap)
    (hf : finiteTree f h r = true) (hr : SetLevel f h r l = some h') : (h' r).level = l := by
  obtain ⟨e, rfl⟩ := finiteTree_pos hf
  rw [SetLevel_succ] at hr
  have := levelLoop_frame e r (fun h c l h' e => SetLevel_frame _ h c l h' e) h (kids h r) _ h'
    (SameShape.setLevel h r l) hr r (fun c hc => not_mem_nodes_kid hf hc e)
  rw [this]
  simp [Heap.set]

theorem finiteTree_selfloop {h : Heap} {r : Ref} (hr : r ∈ kids h r) (f : Nat) :
    finiteTree f h r = false := by
  induction f with
  | zero => rfl
  | succ f ih =>
    cases hf : finiteTree (f + 1) h r with
    | false => rfl
    | true => rw [finiteTree_kid hf hr] at ih; cases ih

/-! ## Fresh insert -/

/-- C1, as stated, fails: a router handed to its own `AddChild` has a free name, and the
call never returns, whatever the depth allowed to the call stack. -/
theorem AddChild_self_never_returns :
    mapGet (if Reg loneHeap 0 then (loneHeap 0).regchildren else (loneHeap 0).children)
      (asciiEnv.toLower (Name loneHeap 0)) = none ∧
    ¬ ∃ fuel r, AddChild asciiEnv fuel loneHeap 0 (some 0) = some r := by
  refine ⟨by decide, ?_⟩
  rintro ⟨fuel, r, hr⟩
  cases fuel with
  | zero => simp [AddChild] at hr
  | succ f =>
    rw [AddChild_succ] at hr
    have hk : edgeGet loneHeap 0 (keyOf asciiEnv loneHeap 0) = none := by decide
    rw [hk] at hr
    simp only [] at hr
    cases hs : SetLevel f (attach asciiEnv loneHeap 0 0) 0
        (intAdd ((attach asciiEnv loneHeap 0 0) 0).level 1) with
    | none => rw [hs] at hr; cases hr
    | some h3 =>
      have hfin := SetLevel_some_finite f _ 0 _ h3 hs
      have hloop : (0 : Ref) ∈ kids (attach asciiEnv loneHeap 0 0) 0 := by decide
      rw [finiteTree_selfloop hloop f] at hfin
      cases hfin

/-- C1, amended: when the subtree of `N` is depth-bounded and does not contain `P`, and
the index of `P` chosen by `N.Reg()` has no entry under `lower(N.Name())`, then
`P.AddChild(N)` returns true; afterwards that index maps the key to `N`, `N.Super()` is
`P`, `N.Level()` is `P.Level() + 1` with the level of `P` unchanged, and
`P.Child(N.Name())` returns `N` unless `N` is a regex node shadowed by a literal entry. -/
theorem AddChild_fresh_insert (E : Env) (d : Nat) (h : Heap) (P N : Ref)
    (hfin : finiteTree d h N = true) (hP : P ∉ nodes d h N)
    (hfree : mapGet (if Reg h N then (h P).regchildren else (h P).children)
      (E.toLower (Name h N)) = none) :
    ∃ h', AddChild E (d + 1) h P (some N) = some (h', true) ∧
      mapGet (if Reg h' N then (h' P).regchildren else (h' P).children)
        (E.toLower (Name h' N)) = some N ∧
      Super h' N = some P ∧
      Level h' N = intAdd (Level h' P) 1 ∧
      Level h' P = Level h P ∧
      ((Reg h N = true → mapGet (h P).children (E.toLower (Name h N)) = none) →
        Child E h' P (Name h' N) = (some N, true)) := by
  have hNP : N ≠ P := by
    rintro rfl
    exact hP (mem_nodes_self hfin)
  have hk : edgeGet h P (keyOf E h N) = none := by
    unfold edgeGet keyOf
    cases hr : Reg h N <;> simpa [hr] using hfree
  have hkids : ∀ x ∈ nodes d h N, kids (attach E h P N) x = kids h x := by
    intro x hx
    exact kids_attach_other E h P N x hNP (fun e => hP (e ▸ hx))
  obtain ⟨hnodes, hfin2⟩ := nodes_congr hkids
  rw [hfin] at hfin2
  obtain ⟨h3, hrun⟩ := SetLevel_total d (attach E h P N) N
    (intAdd ((attach E h P N) P).level 1) hfin2
  have s : SameShape (attach E h P N) h3 := SetLevel_shape _ _ _ _ _ hrun
  have hroot := SetLevel_root_level _ _ _ _ _ hfin2 hrun
  have hPsame : h3 P = attach E h P N P :=
    SetLevel_frame _ _ _ _ _ hrun P (by rw [hnodes]; exact hP)
  have hname : Name h3 N = Name h N := by
    unfold Name; rw [s N, attach_router E h P N hNP]
  have hreg : Reg h3 N = Reg h N := by
    unfold Reg; rw [s N, attach_router E h P N hNP]
  have hedge : edgeGet h3 P (keyOf E h N) = some N := by
    unfold edgeGet
    rw [hPsame]
    have := edgeGet_attach_self E h P N hNP (keyOf E h N)
    unfold edgeGet at this
    rw [this, if_pos rfl]
  refine ⟨h3, ?_, ?_, ?_, ?_, ?_, ?_⟩
  · rw [AddChild_succ, hk, hrun]; rfl
  · rw [hname, hreg]
    unfold edgeGet keyOf at hedge
    cases hr : Reg h N <;> simpa [hr] using hedge
  · unfold Super; rw [s N, attach_router E h P N hNP]
  · unfold Level; rw [hroot, hPsame]
  · unfold Level; rw [hPsame, attach_level]
  · intro hlit
    rw [hname]
    unfold Child
    rw [hPsame, attach_self E h P N hNP]
    cases hr : Reg h N with
    | false =>
      simp [mapGet_mapSet]
    | true =>
      simp [mapGet_mapSet, hlit hr]

/-- Instance of the amended C1: attaching the chain `posts/new/draft` below `api`. -/
theorem AddChild_fresh_insert_witness :
    ∃ h', AddChild asciiEnv 4 siteHeap 0 (some 20) = some (h', true) ∧
      mapGet (if Reg h' 20 then (h' 0).regchildren else (h' 0).children)
        (asciiEnv.toLower (Name h' 20)) = some 20 ∧
      Super h' 20 = some 0 ∧
      Level h' 20 = intAdd (Level h' 0) 1 ∧
      Level h' 0 = Level siteHeap 0 ∧
      ((Reg siteHeap 20 = true →
          mapGet (siteHeap 0).children (asciiEnv.toLower (Name siteHeap 20)) = none) →
        Child asciiEnv h' 0 (Name h' 20) = (some 20, true)) :=
  AddChild_fresh_insert asciiEnv 3 siteHeap 0 20 (by decide) (by decide) (by decide)

/-! ## Walking key paths -/

theorem firstOf_none_right (a : Option Ref) : firstOf a none = a := by
  cases a <;> rfl

theorem firstOf_assoc (a b c : Option Ref) :
    firstOf (firstOf a b) c = firstOf a (firstOf b c) := by
  cases a <;> rfl

theorem firstOf_eq_some {a b : Option Ref} {x : Ref} (hx : firstOf a b = some x) :
    a = some x ∨ (a = none ∧ b = some x) := by
  cases a with
  | none => exact Or.inr ⟨rfl, hx⟩
  | some y => exact Or.inl hx

theorem under_eq_some {k : Key} {f : List Key → Option Ref} {p : List Key} {x : Ref}
    (hx : under k f p = some x) : ∃ q, p = k :: q ∧ f q = some x := by
  cases p with
  | nil => cases hx
  | cons s q =>
    by_cases hs : s = k
    · subst hs
      simp only [under, if_true] at hx
      exact ⟨q, rfl, hx⟩
    · simp [under, hs] at hx

theorem mapGet_mem {m : RouterMap} {k : String} {c : Ref} (hg : mapGet m k = some c) :
    (k, c) ∈ m := by
  induction m with
  | nil => cases hg
  | cons e m ih =>
    obtain ⟨a, v⟩ := e
    by_cases ha : a = k
    · subst ha
      simp only [mapGet, if_true, Option.some.injEq] at hg
      subst hg
      exact List.mem_cons_self _ _
    · simp only [mapGet, ha, if_false] at hg
      exact List.mem_cons_of_mem _ (ih hg)

theorem kids_eq_entries (h : Heap) (r : Ref) : kids h r = (entries h r).map Prod.snd := by
  simp [kids, entries, List.map_append, List.map_map, Function.comp_def]

theorem edgeGet_mem_entries {h : Heap} {r c : Ref} {k : Key} (hg : edgeGet h r k = some c) :
    (k, c) ∈ entries h r := by
  obtain ⟨b, s⟩ := k
  unfold edgeGet at hg
  unfold entries
  cases b with
  | false =>
    simp only [Bool.false_eq_true, if_false] at hg
    exact List.mem_append_left _ (List.mem_map.mpr ⟨(s, c), mapGet_mem hg, rfl⟩)
  | true =>
    simp only [if_true] at hg
    exact List.mem_append_right _ (List.mem_map.mpr ⟨(s, c), mapGet_mem hg, rfl⟩)

theorem edgeGet_mem_kids {h : Heap} {r c : Ref} {k : Key} (hg : edgeGet h r k = some c) :
    c ∈ kids h r := by
  rw [kids_eq_entries]
  exact List.mem_map.mpr ⟨(k, c), edgeGet_mem_entries hg, rfl⟩

theorem walk_cons_some {h : Heap} {r c : Ref} {k : Key} (hg : edgeGet h r k = some c)
    (p : List Key) : walk h r (k :: p) = walk h c p := by
  simp only [walk, hg]

theorem walk_cons_none {h : Heap} {r : Ref} {k : Key} (hg : edgeGet h r k = none)
    (p : List Key) : walk h r (k :: p) = none := by
  simp only [walk, hg]

theorem walk_cons_eq_some {h : Heap} {r x : Ref} {k : Key} {p : List Key}
    (hw : walk h r (k :: p) = some x) : ∃ c, edgeGet h r k = some c ∧ walk h c p = some x := by
  cases hg : edgeGet h r k with
  | none => rw [walk_cons_none hg] at hw; cases hw
  | some c => rw [walk_cons_some hg] at hw; exact ⟨c, rfl, hw⟩

theorem walk_snoc {h : Heap} {r x c : Ref} {p : List Key} {s : Key}
    (hw : walk h r p = some x) (hg : edgeGet h x s = some c) :
    walk h r (p ++ [s]) = some c := by
  induction p generalizing r with
  | nil =>
    simp only [walk, Option.some.injEq] at hw
    subst hw
    simp [walk, hg]
  | cons k p ih =>
    obtain ⟨c0, hc0, hw0⟩ := walk_cons_eq_some hw
    rw [List.cons_append, walk_cons_some hc0]
    exact ih hw0

theorem walk_mem_nodes {d : Nat} {h : Heap} {r x : Ref} {p : List Key}
    (hf : finiteTree d h r = true) (hw : walk h r p = some x) : x ∈ nodes d h r := by
  induction p generalizing r d with
  | nil =>
    simp only [walk, Option.some.injEq] at hw
    subst hw
    exact mem_nodes_self hf
  | cons k p ih =>
    obtain ⟨c, hc, hw0⟩ := walk_cons_eq_some hw
    obtain ⟨e, rfl⟩ := finiteTree_pos hf
    have hck := edgeGet_mem_kids hc
    simp only [nodes, List.mem_cons, List.mem_flatMap]
    exact Or.inr ⟨c, hck, ih (finiteTree_kid hf hck) hw0⟩

/-- A walk reads only the maps of the nodes it passes. -/
theorem walk_congr {h h' : Heap} {c : Ref}
    (hk : ∀ q x, walk h c q = some x → ∀ k, edgeGet h' x k = edgeGet h x k) (q : List Key) :
    walk h' c q = walk h c q := by
  induction q generalizing c with
  | nil => rfl
  | cons k q ih =>
    have he : edgeGet h' c k = edgeGet h c k := hk [] c rfl k
    cases hg : edgeGet h c k with
    | none => rw [walk_cons_none hg, walk_cons_none (he.trans hg)]
    | some c' =>
      rw [walk_cons_some hg, walk_cons_some (he.trans hg)]
      apply ih
      intro q' x hw
      apply hk (k :: q') x
      rw [walk_cons_some hg]
      exact hw

theorem edgeGet_congr {h h' : Heap} {x : Ref} (hx : h' x = h x) (k : Key) :
    edgeGet h' x k = edgeGet h x k := by
  unfold edgeGet; rw [hx]

/-- In a tree, two key paths to one node are one path. -/
theorem walk_inj_of_nodup {d : Nat} {h : Heap} {r : Ref} (hf : finiteTree d h r = true)
    (hnd : (nodes d h r).Nodup) :
    ∀ p q x, walk h r p = some x → walk h r q = some x → p = q := by
  induction d generalizing r with
  | zero => simp [finiteTree] at hf
  | succ e ih =>
    simp only [nodes, List.nodup_cons] at hnd
    obtain ⟨hr, hflat⟩ := hnd
    rw [List.nodup_flatMap] at hflat
    obtain ⟨hsub, hpair⟩ := hflat
    have hroot : ∀ k q, walk h r (k :: q) ≠ some r := by
      intro k q hw
      obtain ⟨c, hc, hw0⟩ := walk_cons_eq_some hw
      have hck := edgeGet_mem_kids hc
      exact hr (List.mem_flatMap.mpr ⟨c, hck, walk_mem_nodes (finiteTree_kid hf hck) hw0⟩)
    intro p q x hp hq
    cases p with
    | nil =>
      simp only [walk, Option.some.injEq] at hp
      subst hp
      cases q with
      | nil => rfl
      | cons k q => exact absurd hq (hroot k q)
    | cons k p =>
      cases q with
      | nil =>
        simp only [walk, Option.some.injEq] at hq
        subst hq
        exact absurd hp (hroot k p)
      | cons k' q =>
        obtain ⟨c, hc, hwp⟩ := walk_cons_eq_some hp
        obtain ⟨c', hc', hwq⟩ := walk_cons_eq_some hq
        have hck := edgeGet_mem_kids hc
        have hck' := edgeGet_mem_kids hc'
        by_cases hk : k = k'
        · subst hk
          rw [hc] at hc'
          cases hc'
          rw [ih (finiteTree_kid hf hck) (hsub c hck) p q x hwp hwq]
        · exfalso
          rw [kids_eq_entries, List.pairwise_map] at hpair
          have hsym : Symmetric (fun a b : Key × Ref =>
              (List.Disjoint on nodes e h) a.2 b.2) := by
            intro a b hab
            exact List.Disjoint.symm hab
          have hd := hpair.forall hsym (edgeGet_mem_entries hc) (edgeGet_mem_entries hc')
            (by intro e; exact hk (congrArg Prod.fst e))
          exact hd (walk_mem_nodes (finiteTree_kid hf hck) hwp)
            (walk_mem_nodes (finiteTree_kid hf hck') hwq)

/-! ## Composing attachments -/

theorem Post.start (h : Heap) (X : Ref) : Post h h X [] where
  walk_ex := ⟨fun _ => none, fun _ => (firstOf_none_right _).symm,
    fun _ _ hx => Option.noConfusion hx, fun _ _ _ hx => Option.noConfusion hx⟩
  frame := fun _ _ _ => rfl
  core := fun _ => rfl
  outside := fun _ _ => ⟨rfl, rfl⟩
  level := fun hl => hl

theorem Post.comp {h h1 h' : Heap} {X : Ref} {S1 S2 : List Ref}
    (p1 : Post h h1 X S1) (p2 : Post h1 h' X S2) (hd : ∀ x ∈ S1, x ∉ S2) :
    Post h h' X (S1 ++ S2) := by
  obtain ⟨W1, hW1, hR1, hI1⟩ := p1.walk_ex
  obtain ⟨W2, hW2, hR2, hI2⟩ := p2.walk_ex
  constructor
  · refine ⟨fun p => firstOf (W1 p) (W2 p), ?_, ?_, ?_⟩
    · intro p
      rw [hW2 p, hW1 p, firstOf_assoc]
    · intro p x hx
      rcases firstOf_eq_some hx with h1x | ⟨-, h2x⟩
      · exact List.mem_append_left _ (hR1 p x h1x)
      · exact List.mem_append_right _ (hR2 p x h2x)
    · intro p q x hp hq
      rcases firstOf_eq_some hp with hp1 | ⟨hpn, hp2⟩
      · rcases firstOf_eq_some hq with hq1 | ⟨-, hq2⟩
        · exact hI1 p q x hp1 hq1
        · exact absurd (hR2 q x hq2) (hd x (hR1 p x hp1))
      · rcases firstOf_eq_some hq with hq1 | ⟨-, hq2⟩
        · exact absurd (hR2 p x hp2) (hd x (hR1 q x hq1))
        · exact hI2 p q x hp2 hq2
  · intro x hx hS
    rw [List.mem_append, not_or] at hS
    have e1 : h1 x = h x := p1.frame x hx hS.1
    rw [← e1]
    apply p2.frame x _ hS.2
    intro p hw
    rw [hW1 p] at hw
    rcases firstOf_eq_some hw with hold | ⟨-, hnew⟩
    · exact hx p hold
    · exact hS.1 (hR1 p x hnew)
  · intro x
    rw [p2.core x, p1.core x]
  · intro x hS
    rw [List.mem_append, not_or] at hS
    obtain ⟨a1, a2⟩ := p1.outside x hS.1
    obtain ⟨b1, b2⟩ := p2.outside x hS.2
    exact ⟨b1.trans a1, b2.trans a2⟩
  · intro hl
    exact p2.level (p1.level hl)

theorem keyOf_of_core {E : Env} {h h' : Heap} (hc : ∀ x, coreOf (h' x) = coreOf (h x))
    (y : Ref) : keyOf E h' y = keyOf E h y := by
  have := hc y
  simp only [coreOf, Prod.mk.injEq] at this
  obtain ⟨-, hn, -, hr, -⟩ := this
  simp only [keyOf, Reg, Name, hn, hr]

theorem indexOK_congr {E : Env} {h h' : Heap} {x : Ref} (hx : h' x = h x)
    (hk : ∀ y, keyOf E h' y = keyOf E h y) : indexOK E h' x = indexOK E h x := by
  unfold indexOK
  rw [hx]
  simp only [hk]

theorem firstUnder_congr {E : Env} {h h' : Heap} {vs : List Ref}
    (hk : ∀ w ∈ vs, keyOf E h' w = keyOf E h w)
    (hw : ∀ w ∈ vs, ∀ q, walk h' w q = walk h w q) (p : List Key) :
    firstUnder E h' vs p = firstUnder E h vs p := by
  induction vs with
  | nil => rfl
  | cons v vs ih =>
    simp only [firstUnder]
    rw [ih (fun w hw' => hk w (List.mem_cons_of_mem _ hw'))
      (fun w hw' => hw w (List.mem_cons_of_mem _ hw'))]
    rw [hk v (List.mem_cons_self _ _)]
    have : walk h' v = walk h v := funext (hw v (List.mem_cons_self _ _))
    rw [this]

theorem mapGet_none_of_not_mem {m : RouterMap} {k : String}
    (hk : k ∉ m.map Prod.fst) : mapGet m k = none := by
  cases hg : mapGet m k with
  | none => rfl
  | some c => exact absurd (List.mem_map.mpr ⟨(k, c), mapGet_mem hg, rfl⟩) hk

/-- The paths contributed by the values of a well-filed map of kind `b`, followed by
further routers. -/
theorem firstUnder_map (E : Env) (h : Heap) (b : Bool) (m : RouterMap) (rest : List Ref)
    (hm : ∀ e ∈ m, keyOf E h e.2 = (b, e.1)) (hnd : (m.map Prod.fst).Nodup)
    (s : Key) (q : List Key) :
    firstUnder E h (m.map Prod.snd ++ rest) (s :: q) =
      if s.1 = b then
        (match mapGet m s.2 with
         | some c => firstOf (walk h c q) (firstUnder E h rest (s :: q))
         | none => firstUnder E h rest (s :: q))
      else firstUnder E h rest (s :: q) := by
  induction m with
  | nil =>
    simp only [List.map_nil, List.nil_append, mapGet]
    split <;> rfl
  | cons e m ih =>
    obtain ⟨a, v⟩ := e
    simp only [List.map_cons, List.nodup_cons] at hnd
    have hv : keyOf E h v = (b, a) := hm (a, v) (List.mem_cons_self _ _)
    have ih' := ih (fun e he => hm e (List.mem_cons_of_mem _ he)) hnd.2
    have hcons : firstUnder E h (List.map Prod.snd ((a, v) :: m) ++ rest) (s :: q)
        = firstOf (under (keyOf E h v) (walk h v) (s :: q))
            (firstUnder E h (List.map Prod.snd m ++ rest) (s :: q)) := rfl
    rw [hcons, ih', hv]
    obtain ⟨sb, sk⟩ := s
    by_cases hs : (sb, sk) = (b, a)
    · simp only [Prod.mk.injEq] at hs
      obtain ⟨rfl, rfl⟩ := hs
      simp only [under, if_true, mapGet, mapGet_none_of_not_mem hnd.1]
    · have hu : under (b, a) (walk h v) ((sb, sk) :: q) = none := by
        simp [under, hs]
      rw [hu]
      simp only [firstOf]
      by_cases hb : sb = b
      · subst hb
        have hak : ¬ a = sk := by
          intro e; apply hs; rw [e]
        simp only [if_true, mapGet, hak, if_false]
      · simp only [hb, if_false]

theorem firstUnder_kids (E : Env) (h : Heap) (N : Ref) (hidx : indexOK E h N = true)
    (s : Key) (q : List Key) :
    firstUnder E h (kids h N) (s :: q) = walk h N (s :: q) := by
  simp only [indexOK, Bool.and_eq_true, List.all_eq_true, decide_eq_true_eq] at hidx
  obtain ⟨⟨⟨hlit, hreg⟩, hndl⟩, hndr⟩ := hidx
  unfold kids
  rw [List.map_append, firstUnder_map E h false _ _ hlit hndl]
  have hr := firstUnder_map E h true (h N).regchildren [] hreg hndr s q
  rw [List.append_nil] at hr
  rw [hr]
  obtain ⟨sb, sk⟩ := s
  cases sb with
  | false =>
    simp only [Bool.false_eq_true, if_false, if_true, firstUnder, walk, edgeGet]
    cases mapGet (h N).children sk with
    | none => rfl
    | some c => simp [firstOf_none_right]
  | true =>
    simp only [Bool.true_eq_false, if_false, if_true, firstUnder, walk, edgeGet]
    cases mapGet (h N).regchildren sk with
    | none => rfl
    | some c => simp [firstOf_none_right]

/-- Paths from `X` after a merge below its child `X'` under the step `kN`. -/
theorem walk_lift_merge {h h' : Heap} {X X' : Ref} {kN : Key} {V : List Key → Option Ref}
    (hX : h' X = h X) (hedge : edgeGet h X kN = some X')
    (hsib : ∀ s c, s ≠ kN → edgeGet h X s = some c → ∀ q, walk h' c q = walk h c q)
    (hV : ∀ q, walk h' X' q = firstOf (walk h X' q) (V q)) :
    ∀ p, walk h' X p = firstOf (walk h X p) (under kN V p) := by
  intro p
  cases p with
  | nil => rfl
  | cons s q =>
    have e0 : edgeGet h' X s = edgeGet h X s := edgeGet_congr hX s
    by_cases hs : s = kN
    · subst hs
      rw [walk_cons_some (e0.trans hedge), walk_cons_some hedge, hV q]
      simp [under]
    · have hu : under kN V (s :: q) = none := by simp [under, hs]
      rw [hu, firstOf_none_right]
      cases hg : edgeGet h X s with
      | none => rw [walk_cons_none hg, walk_cons_none (e0.trans hg)]
      | some c => rw [walk_cons_some hg, walk_cons_some (e0.trans hg), hsib s c hs hg q]

theorem attach_core (E : Env) (h : Heap) (X N x : Ref) :
    coreOf (attach E h X N x) = coreOf (h x) := by
  unfold attach SetSuper putChild Heap.set coreOf
  cases Reg h N <;> simp only [Bool.false_eq_true, if_false, if_true] <;> split_ifs <;>
    simp_all

theorem attach_super (E : Env) (h : Heap) (X N x : Ref) (hx : x ≠ N) :
    (attach E h X N x).super = (h x).super := by
  unfold attach SetSuper putChild Heap.set
  cases Reg h N <;> simp only [Bool.false_eq_true, if_false, if_true] <;> split_ifs <;>
    simp_all

theorem SameShape.core {h h' : Heap} (s : SameShape h h') (x : Ref) :
    coreOf (h' x) = coreOf (h x) := by
  rw [s x]; rfl

theorem SameShape.edgeGet {h h' : Heap} (s : SameShape h h') (x : Ref) (k : Key) :
    edgeGet h' x k = edgeGet h x k := by
  unfold TinyRouter.edgeGet
  rw [s.children, s.regchildren]

/-! ## `AddChild`: the fresh insert below a tree -/

theorem AddChild_fresh_post (E : Env) (d : Nat) (h : Heap) (X N : Ref)
    (pre : AddPre d h X N) (hk : edgeGet h X (keyOf E h N) = none) :
    ∃ h', AddChild E (d + 1) h X (some N) = some (h', true) ∧
      Post h h' X (nodes d h N) ∧
      ∀ p, walk h' X p = firstOf (walk h X p) (under (keyOf E h N) (walk h N) p) := by
  have hXN : X ∉ nodes d h N := pre.disj [] X rfl
  have hNX : N ≠ X := by
    rintro rfl
    exact hXN (mem_nodes_self pre.fin)
  have hneX : ∀ x ∈ nodes d h N, x ≠ X := fun x hx e => hXN (e ▸ hx)
  have hkids : ∀ x ∈ nodes d h N, kids (attach E h X N) x = kids h x :=
    fun x hx => kids_attach_other E h X N x hNX (hneX x hx)
  obtain ⟨hnodes, hfin2⟩ := nodes_congr hkids
  rw [pre.fin] at hfin2
  obtain ⟨h3, hrun⟩ := SetLevel_total d (attach E h X N) N
    (intAdd ((attach E h X N) X).level 1) hfin2
  have sh : SameShape (attach E h X N) h3 := SetLevel_shape _ _ _ _ _ hrun
  have hframe3 : ∀ x, x ∉ nodes d h N → h3 x = attach E h X N x := by
    intro x hx
    exact SetLevel_frame _ _ _ _ _ hrun x (by rw [hnodes]; exact hx)
  have hroot := SetLevel_root_level _ _ _ _ _ hfin2 hrun
  have hlev := (SetLevel_levels d _ N _ h3 hfin2 (by rw [hnodes]; exact pre.nd) hrun).2
  have g1 : ∀ x, x ≠ X → ∀ k, edgeGet h3 x k = edgeGet h x k := by
    intro x hx k
    rw [sh.edgeGet, edgeGet_attach_other E h X N x hNX hx]
  have g2 : ∀ k, edgeGet h3 X k = if k = keyOf E h N then some N else edgeGet h X k := by
    intro k
    rw [sh.edgeGet, edgeGet_attach_self E h X N hNX]
  have hout : ∀ x, x ∉ nodes d h N →
      (h3 x).level = (h x).level ∧ (h3 x).super = (h x).super := by
    intro x hx
    have hxN : x ≠ N := by
      rintro rfl
      exact hx (mem_nodes_self pre.fin)
    rw [hframe3 x hx]
    exact ⟨attach_level E h X N x, attach_super E h X N x hxN⟩
  have wN : ∀ q, walk h3 N q = walk h N q := by
    apply walk_congr
    intro q x hw k
    exact g1 x (hneX x (walk_mem_nodes pre.fin hw)) k
  have wsib : ∀ s c, edgeGet h X s = some c → ∀ q, walk h3 c q = walk h c q := by
    intro s c hc
    apply walk_congr
    intro q x hw k
    apply g1 x _ k
    rintro rfl
    have := pre.inj (s :: q) [] x (by rw [walk_cons_some hc]; exact hw) rfl
    cases this
  have weq : ∀ p, walk h3 X p
      = firstOf (walk h X p) (under (keyOf E h N) (walk h N) p) := by
    intro p
    cases p with
    | nil => rfl
    | cons s q =>
      by_cases hs : s = keyOf E h N
      · subst hs
        have e3 : edgeGet h3 X (keyOf E h N) = some N := by rw [g2, if_pos rfl]
        rw [walk_cons_some e3, wN, walk_cons_none hk]
        simp [under, firstOf]
      · have e3 : edgeGet h3 X s = edgeGet h X s := by rw [g2, if_neg hs]
        have hu : under (keyOf E h N) (walk h N) (s :: q) = none := by simp [under, hs]
        rw [hu, firstOf_none_right]
        cases hg : edgeGet h X s with
        | none => rw [walk_cons_none hg, walk_cons_none (e3.trans hg)]
        | some c => rw [walk_cons_some hg, walk_cons_some (e3.trans hg), wsib s c hg]
  refine ⟨h3, ?_, ?_, weq⟩
  · rw [AddChild_succ, hk, hrun]; rfl
  · constructor
    · refine ⟨under (keyOf E h N) (walk h N), weq, ?_, ?_⟩
      · intro p x hx
        obtain ⟨q, -, hq⟩ := under_eq_some hx
        exact walk_mem_nodes pre.fin hq
      · intro p q x hp hq
        obtain ⟨p', rfl, hp'⟩ := under_eq_some hp
        obtain ⟨q', rfl, hq'⟩ := under_eq_some hq
        rw [walk_inj_of_nodup pre.fin pre.nd p' q' x hp' hq']
    · intro x hx hxN
      have hxX : x ≠ X := fun e => hx [] (by rw [e]; rfl)
      have hxN' : x ≠ N := by
        rintro rfl
        exact hxN (mem_nodes_self pre.fin)
      rw [hframe3 x hxN, attach_other E h X N x hxX hxN']
    · intro x
      rw [sh.core, attach_core]
    · exact hout
    · intro hinv p x st c hw he
      rw [weq p] at hw
      rcases firstOf_eq_some hw with hold | ⟨-, hnew⟩
      · have hxN : x ∉ nodes d h N := pre.disj p x hold
        by_cases hcase : x = X ∧ st = keyOf E h N
        · obtain ⟨rfl, rfl⟩ := hcase
          rw [g2, if_pos rfl] at he
          cases he
          rw [hroot, hframe3 x hXN]
        · have he' : edgeGet h x st = some c := by
            by_cases hxX : x = X
            · subst hxX
              have hst : st ≠ keyOf E h N := fun e => hcase ⟨rfl, e⟩
              rw [g2, if_neg hst] at he
              exact he
            · rw [g1 x hxX] at he
              exact he
          have hcN : c ∉ nodes d h N := pre.disj (p ++ [st]) c (walk_snoc hold he')
          rw [(hout c hcN).1, (hout x hxN).1]
          exact hinv p x st c hold he'
      · obtain ⟨q, -, hq⟩ := under_eq_some hnew
        have hx : x ∈ nodes d h N := walk_mem_nodes pre.fin hq
        have he' : edgeGet h x st = some c := by
          rw [g1 x (hneX x hx)] at he
          exact he
        apply hlev x (by rw [hnodes]; exact hx) c
        rw [hkids x hx]
        exact edgeGet_mem_kids he'

/-! ## `AddChild`: the merge loops -/

theorem mergeLoop (E : Env) (e : Nat) (X : Ref) (ih : AddSpec E e)
    (vs : List Ref) (hc : Heap)
    (hfin : ∀ v ∈ vs, finiteTree e hc v = true)
    (hnd : (vs.flatMap (nodes e hc)).Nodup)
    (hinj : ∀ p q x, walk hc X p = some x → walk hc X q = some x → p = q)
    (hdisj : ∀ p x, walk hc X p = some x → x ∉ vs.flatMap (nodes e hc)) :
    ∃ h', forRefs (mergeBody E (e + 1) X) vs hc = some h' ∧
      Post hc h' X (vs.flatMap (nodes e hc)) ∧
      ((∀ x ∈ vs.flatMap (nodes e hc), indexOK E hc x = true) →
        ∀ p, walk h' X p = firstOf (walk hc X p) (firstUnder E hc vs p)) := by
  induction vs generalizing hc with
  | nil =>
    exact ⟨hc, rfl, Post.start hc X, fun _ p => (firstOf_none_right _).symm⟩
  | cons v vs ihl =>
    rw [List.flatMap_cons, List.nodup_append] at hnd
    obtain ⟨hndv, hndvs, hdv⟩ := hnd
    have hfv : finiteTree e hc v = true := hfin v (List.mem_cons_self _ _)
    have pre : AddPre e hc X v :=
      ⟨hfv, hndv, hinj, fun p x hw hx => hdisj p x hw
        (by rw [List.flatMap_cons]; exact List.mem_append_left _ hx)⟩
    obtain ⟨h1, b, hrun, -, post1, -, weq1⟩ := ih hc X v pre
    have hagree : ∀ x ∈ vs.flatMap (nodes e hc), h1 x = hc x := by
      intro x hx
      apply post1.frame x
      · intro p hw
        exact hdisj p x hw (by rw [List.flatMap_cons]; exact List.mem_append_right _ hx)
      · intro hxv
        exact hdv hxv hx
    have hkey : ∀ y, keyOf E h1 y = keyOf E hc y := keyOf_of_core post1.core
    have hsubv : ∀ w ∈ vs, ∀ x ∈ nodes e hc w, x ∈ vs.flatMap (nodes e hc) :=
      fun w hw x hx => List.mem_flatMap.mpr ⟨w, hw, hx⟩
    have hnodes : ∀ w ∈ vs, nodes e h1 w = nodes e hc w ∧
        finiteTree e h1 w = finiteTree e hc w := by
      intro w hw
      apply nodes_congr
      intro x hx
      unfold kids
      rw [hagree x (hsubv w hw x hx)]
    have hflat : vs.flatMap (nodes e h1) = vs.flatMap (nodes e hc) :=
      List.flatMap_congr (fun w hw => (hnodes w hw).1)
    obtain ⟨W1, hW1, hR1, hI1⟩ := post1.walk_ex
    have hinj1 : ∀ p q x, walk h1 X p = some x → walk h1 X q = some x → p = q := by
      intro p q x hp hq
      rw [hW1 p] at hp
      rw [hW1 q] at hq
      rcases firstOf_eq_some hp with hp1 | ⟨-, hp2⟩
      · rcases firstOf_eq_some hq with hq1 | ⟨-, hq2⟩
        · exact hinj p q x hp1 hq1
        · exact absurd (hR1 q x hq2) (pre.disj p x hp1)
      · rcases firstOf_eq_some hq with hq1 | ⟨-, hq2⟩
        · exact absurd (hR1 p x hp2) (pre.disj q x hq1)
        · exact hI1 p q x hp2 hq2
    have hdisj1 : ∀ p x, walk h1 X p = some x → x ∉ vs.flatMap (nodes e h1) := by
      intro p x hw
      rw [hflat]
      rw [hW1 p] at hw
      rcases firstOf_eq_some hw with hold | ⟨-, hnew⟩
      · intro hx
        exact hdisj p x hold (by rw [List.flatMap_cons]; exact List.mem_append_right _ hx)
      · exact fun hx => hdv (hR1 p x hnew) hx
    obtain ⟨h', hrun', post2, weq2⟩ := ihl h1
      (fun w hw => by rw [(hnodes w hw).2]; exact hfin w (List.mem_cons_of_mem _ hw))
      (by rw [hflat]; exact hndvs) hinj1 hdisj1
    refine ⟨h', ?_, ?_, ?_⟩
    · have hb : mergeBody E (e + 1) X hc v = some h1 := by
        simp [mergeBody, hrun]
      simp only [forRefs, hb]
      exact hrun'
    · rw [hflat] at post2
      rw [List.flatMap_cons]
      exact Post.comp post1 post2 (fun x hx hx' => hdv hx hx')
    · intro hidx p
      have hidxv : ∀ x ∈ nodes e hc v, indexOK E hc x = true := fun x hx =>
        hidx x (by rw [List.flatMap_cons]; exact List.mem_append_left _ hx)
      have hidx1 : ∀ x ∈ vs.flatMap (nodes e h1), indexOK E h1 x = true := by
        intro x hx
        rw [hflat] at hx
        rw [indexOK_congr (hagree x hx) hkey]
        exact hidx x (by rw [List.flatMap_cons]; exact List.mem_append_right _ hx)
      rw [weq2 hidx1 p, weq1 hidxv p, firstOf_assoc]
      congr 1
      have hfu : firstUnder E h1 vs p = firstUnder E hc vs p := by
        apply firstUnder_congr (fun w _ => hkey w)
        intro w hw
        apply walk_congr
        intro q x hwx k
        have hfw : finiteTree e hc w = true := hfin w (List.mem_cons_of_mem _ hw)
        exact edgeGet_congr (hagree x (hsubv w hw x (walk_mem_nodes hfw hwx))) k
      rw [hfu]
      rfl

/-! ## `AddChild`: the merge into an existing child -/

theorem AddChild_merge_post (E : Env) (e : Nat) (ih : AddSpec E e) (h : Heap) (X N X' : Ref)
    (pre : AddPre (e + 1) h X N) (hk : edgeGet h X (keyOf E h N) = some X') :
    ∃ h', AddChild E (e + 2) h X (some N) = some (h', false) ∧
      Post h h' X (nodes (e + 1) h N) ∧
      h' X = h X ∧
      ((∀ x ∈ nodes (e + 1) h N, indexOK E h x = true) →
        ∀ p, walk h' X p = firstOf (walk h X p) (under (keyOf E h N) (walk h N) p)) := by
  have hnd := pre.nd
  simp only [nodes, List.nodup_cons] at hnd
  have hsub : ∀ x, x ∈ (kids h N).flatMap (nodes e h) → x ∈ nodes (e + 1) h N := by
    intro x hx
    simp only [nodes, List.mem_cons]
    exact Or.inr hx
  have hstep : ∀ p, walk h X (keyOf E h N :: p) = walk h X' p := fun p => walk_cons_some hk p
  have winj : ∀ p q x, walk h X' p = some x → walk h X' q = some x → p = q := by
    intro p q x hp hq
    have := pre.inj (keyOf E h N :: p) (keyOf E h N :: q) x
      (by rw [hstep]; exact hp) (by rw [hstep]; exact hq)
    exact (List.cons.inj this).2
  obtain ⟨h', hrun, post, weqL⟩ := mergeLoop E e X' ih (kids h N) h
    (fun v hv => finiteTree_kid pre.fin hv) hnd.2 winj
    (fun p x hw hx => pre.disj (keyOf E h N :: p) x (by rw [hstep]; exact hw) (hsub x hx))
  have f1 : h' X = h X := by
    apply post.frame X
    · intro p hw
      have := pre.inj (keyOf E h N :: p) [] X (by rw [hstep]; exact hw) rfl
      cases this
    · exact fun hx => pre.disj [] X rfl (hsub X hx)
  have f2 : ∀ s c, s ≠ keyOf E h N → edgeGet h X s = some c →
      ∀ q x, walk h c q = some x → h' x = h x := by
    intro s c hs hc q x hw
    have hwX : walk h X (s :: q) = some x := by rw [walk_cons_some hc]; exact hw
    apply post.frame x
    · intro p hw'
      have := pre.inj (keyOf E h N :: p) (s :: q) x (by rw [hstep]; exact hw') hwX
      exact hs (List.cons.inj this).1.symm
    · exact fun hx => pre.disj (s :: q) x hwX (hsub x hx)
  have hsib : ∀ s c, s ≠ keyOf E h N → edgeGet h X s = some c →
      ∀ q, walk h' c q = walk h c q := by
    intro s c hs hc
    apply walk_congr
    intro q x hw k
    exact edgeGet_congr (f2 s c hs hc q x hw) k
  obtain ⟨W, hW, hR, hI⟩ := post.walk_ex
  refine ⟨h', ?_, ?_, f1, ?_⟩
  · rw [AddChild_succ, hk]
    simp only [hrun, Option.map]
  · constructor
    · refine ⟨under (keyOf E h N) W, walk_lift_merge f1 hk hsib hW, ?_, ?_⟩
      · intro p x hx
        obtain ⟨q, -, hq⟩ := under_eq_some hx
        exact hsub x (hR q x hq)
      · intro p q x hp hq
        obtain ⟨p', rfl, hp'⟩ := under_eq_some hp
        obtain ⟨q', rfl, hq'⟩ := under_eq_some hq
        rw [hI p' q' x hp' hq']
    · intro x hx hxN
      apply post.frame x
      · intro p hw
        exact hx (keyOf E h N :: p) (by rw [hstep]; exact hw)
      · exact fun hx' => hxN (hsub x hx')
    · exact post.core
    · exact fun x hx => post.outside x (fun hx' => hx (hsub x hx'))
    · intro hinv p x st c hw he
      have hinv' : LevelInv h X' := fun p x st c hw he =>
        hinv (keyOf E h N :: p) x st c (by rw [hstep]; exact hw) he
      have hinvL := post.level hinv'
      cases p with
      | nil =>
        simp only [walk, Option.some.injEq] at hw
        subst hw
        rw [edgeGet_congr f1] at he
        have hcN : c ∉ (kids h N).flatMap (nodes e h) := fun hx =>
          pre.disj [st] c (walk_snoc (p := []) rfl he) (hsub c hx)
        rw [(post.outside c hcN).1, f1]
        exact hinv [] X st c rfl he
      | cons s0 q =>
        obtain ⟨c0, hc0, hw0⟩ := walk_cons_eq_some hw
        rw [edgeGet_congr f1] at hc0
        by_cases hs0 : s0 = keyOf E h N
        · subst hs0
          rw [hk] at hc0
          cases hc0
          exact hinvL q x st c hw0 he
        · rw [hsib s0 c0 hs0 hc0] at hw0
          have hx : h' x = h x := f2 s0 c0 hs0 hc0 q x hw0
          rw [edgeGet_congr hx] at he
          have hcc : h' c = h c := f2 s0 c0 hs0 hc0 (q ++ [st]) c (walk_snoc hw0 he)
          rw [hcc, hx]
          exact hinv (s0 :: q) x st c (by rw [walk_cons_some hc0]; exact hw0) he
  · intro hidx p
    have hN : indexOK E h N = true := hidx N (mem_nodes_self pre.fin)
    rw [walk_lift_merge f1 hk hsib (weqL (fun x hx => hidx x (hsub x hx))) p]
    cases p with
    | nil => rfl
    | cons s q =>
      by_cases hs : s = keyOf E h N
      · subst hs
        cases q with
        | nil =>
          rw [hstep]
          rfl
        | cons s' q' =>
          simp only [under, if_true]
          rw [firstUnder_kids E h N hN]
      · simp [under, hs]

/-- The general statement about `AddChild` below a tree. -/
theorem AddChild_main (E : Env) (d : Nat) : AddSpec E d := by
  induction d with
  | zero =>
    intro h X N pre
    have := pre.fin
    simp [finiteTree] at this
  | succ e ih =>
    intro h X N pre
    cases hk : edgeGet h X (keyOf E h N) with
    | none =>
      obtain ⟨h', hrun, post, weq⟩ := AddChild_fresh_post E (e + 1) h X N pre hk
      exact ⟨h', true, hrun, rfl, post, fun _ hc => Option.noConfusion hc, fun _ => weq⟩
    | some X' =>
      obtain ⟨h', hrun, post, hX, weq⟩ := AddChild_merge_post E e ih h X N X' pre hk
      exact ⟨h', false, hrun, rfl, post, fun _ _ => hX, weq⟩

/-! ## `AddChild` on two disjoint finite trees -/

theorem AddPre_of_lists {dP dN : Nat} {h : Heap} {P N : Ref}
    (hP : finiteTree dP h P = true) (hPt : (nodes dP h P).Nodup)
    (hN : finiteTree dN h N = true) (hNt : (nodes dN h N).Nodup)
    (hdis : ∀ x ∈ nodes dP h P, x ∉ nodes dN h N) : AddPre dN h P N :=
  ⟨hN, hNt, walk_inj_of_nodup hP hPt, fun _ x hw => hdis x (walk_mem_nodes hP hw)⟩

theorem levelInv_of_levelOK {d : Nat} {h : Heap} {X : Ref} (hf : finiteTree d h X = true)
    (hl : levelOK d h X = true) : LevelInv h X := by
  intro p x s c hw he
  simp only [levelOK, List.all_eq_true, decide_eq_true_eq] at hl
  exact hl x (walk_mem_nodes hf hw) c (edgeGet_mem_kids he)

theorem finiteTree_two_cycle {h : Heap} {a b : Ref} (hab : b ∈ kids h a) (hba : a ∈ kids h b)
    (f : Nat) : finiteTree f h a = false ∧ finiteTree f h b = false := by
  induction f with
  | zero => exact ⟨rfl, rfl⟩
  | succ f ih =>
    constructor
    · cases hf : finiteTree (f + 1) h a with
      | false => rfl
      | true => rw [finiteTree_kid hf hab] at ih; cases ih.2
    · cases hf : finiteTree (f + 1) h b with
      | false => rfl
      | true => rw [finiteTree_kid hf hba] at ih; cases ih.1

theorem edgeGet_keyOf_eq (E : Env) (h : Heap) (P N : Ref) :
    edgeGet h P (keyOf E h N)
      = mapGet (if Reg h N then (h P).regchildren else (h P).children)
          (E.toLower (Name h N)) := by
  unfold edgeGet keyOf
  cases Reg h N <;> rfl

/-- C2, as stated, fails: `p` holds `a`, the router `A` (same name up to case) holds `p`
as its child; then `p.AddChild(A)` hands `p` to `a.AddChild`, which files `p` below `a`
and never returns from `SetLevel`. -/
theorem AddChild_collision_never_returns :
    mapGet (if Reg cycleHeap 2 then (cycleHeap 0).regchildren else (cycleHeap 0).children)
      (asciiEnv.toLower (Name cycleHeap 2)) = some 1 ∧
    ¬ ∃ fuel r, AddChild asciiEnv fuel cycleHeap 0 (some 2) = some r := by
  refine ⟨by decide, ?_⟩
  rintro ⟨fuel, r, hr⟩
  cases fuel with
  | zero => simp [AddChild] at hr
  | succ f =>
    rw [AddChild_succ] at hr
    have hk : edgeGet cycleHeap 0 (keyOf asciiEnv cycleHeap 2) = some 1 := by decide
    have hkids : kids cycleHeap 2 = [0] := by decide
    rw [hk] at hr
    simp only [hkids, forRefs, mergeBody] at hr
    cases f with
    | zero => simp [AddChild] at hr
    | succ f =>
      rw [AddChild_succ] at hr
      have hk2 : edgeGet cycleHeap 1 (keyOf asciiEnv cycleHeap 0) = none := by decide
      rw [hk2] at hr
      cases hs : SetLevel f (attach asciiEnv cycleHeap 1 0) 0
          (intAdd ((attach asciiEnv cycleHeap 1 0) 1).level 1) with
      | none => rw [hs] at hr; simp at hr
      | some h3 =>
        have hfin := SetLevel_some_finite f _ 0 _ h3 hs
        have h01 : (1 : Ref) ∈ kids (attach asciiEnv cycleHeap 1 0) 0 := by decide
        have h10 : (0 : Ref) ∈ kids (attach asciiEnv cycleHeap 1 0) 1 := by decide
        rw [(finiteTree_two_cycle h01 h10 f).1] at hfin
        cases hfin

/-- C2, amended: when the trees below `P` and below `N` are finite trees without a common
node and `P` holds `E` under `lower(N.Name())` in the index chosen by `N.Reg()`, then
`P.AddChild(N)` returns false and leaves `P` as it was: both maps of `P` are the same
lists of entries, and the key is still mapped to `E`. -/
theorem AddChild_collision (E : Env) (dP dN : Nat) (h : Heap) (P N Ex : Ref)
    (hP : finiteTree dP h P = true) (hPt : (nodes dP h P).Nodup)
    (hN : finiteTree dN h N = true) (hNt : (nodes dN h N).Nodup)
    (hdis : ∀ x ∈ nodes dP h P, x ∉ nodes dN h N)
    (hcol : mapGet (if Reg h N then (h P).regchildren else (h P).children)
      (E.toLower (Name h N)) = some Ex) :
    ∃ h', AddChild E (dN + 1) h P (some N) = some (h', false) ∧
      h' P = h P ∧
      (h' P).children = (h P).children ∧
      (h' P).regchildren = (h P).regchildren ∧
      mapGet (if Reg h' N then (h' P).regchildren else (h' P).children)
        (E.toLower (Name h' N)) = some Ex := by
  have pre := AddPre_of_lists hP hPt hN hNt hdis
  have hk : edgeGet h P (keyOf E h N) = some Ex := by
    rw [edgeGet_keyOf_eq]; exact hcol
  obtain ⟨h', b, hrun, hb, post, hX, -⟩ := AddChild_main E dN h P N pre
  have hPP : h' P = h P := hX Ex hk
  rw [hk] at hb
  simp only [Option.isNone] at hb
  subst hb
  refine ⟨h', hrun, hPP, by rw [hPP], by rw [hPP], ?_⟩
  have hkey := keyOf_of_core (E := E) post.core N
  rw [← edgeGet_keyOf_eq, hkey, edgeGet_congr hPP]
  exact hk

/-- Instance of the amended C2: `root` holds `Users`; adding `users` returns false and
leaves one entry. -/
theorem AddChild_collision_witness :
    ∃ h', AddChild asciiEnv 2 usersHeap 0 (some 2) = some (h', false) ∧
      h' 0 = usersHeap 0 ∧
      (h' 0).children = (usersHeap 0).children ∧
      (h' 0).regchildren = (usersHeap 0).regchildren ∧
      mapGet (if Reg h' 2 then (h' 0).regchildren else (h' 0).children)
        (asciiEnv.toLower (Name h' 2)) = some 1 :=
  AddChild_collision asciiEnv 2 1 usersHeap 0 2 1 (by decide) (by decide) (by decide)
    (by decide) (by decide) (by decide)

/-- C3: for a finite tree below `P` and a finite well-formed tree below `N` without a
common node, `P.AddChild(N)` returns, and the key paths from `P` afterwards are the key
paths from `P` before together with the key paths from `N` moved below the key of `N`;
an old path leads to the node it led to, a new path leads to the node it led to from
`N`. -/
theorem AddChild_paths (E : Env) (dP dN : Nat) (h : Heap) (P N : Ref)
    (hP : finiteTree dP h P = true) (hPt : (nodes dP h P).Nodup)
    (hN : finiteTree dN h N = true) (hNt : (nodes dN h N).Nodup)
    (hidx : ∀ x ∈ nodes dN h N, indexOK E h x = true)
    (hdis : ∀ x ∈ nodes dP h P, x ∉ nodes dN h N) :
    ∃ h' b, AddChild E (dN + 1) h P (some N) = some (h', b) ∧
      (∀ p, walk h' P p = firstOf (walk h P p) (under (keyOf E h N) (walk h N) p)) ∧
      (∀ p, (walk h' P p).isSome = true ↔
        ((walk h P p).isSome = true ∨
          ∃ q, p = keyOf E h N :: q ∧ (walk h N q).isSome = true)) := by
  have pre := AddPre_of_lists hP hPt hN hNt hdis
  obtain ⟨h', b, hrun, -, -, -, weq⟩ := AddChild_main E dN h P N pre
  refine ⟨h', b, hrun, weq hidx, ?_⟩
  intro p
  rw [weq hidx p]
  cases hw : walk h P p with
  | some x => simp [firstOf]
  | none =>
    simp only [firstOf, Option.isSome_none, Bool.false_eq_true, false_or]
    constructor
    · intro hs
      obtain ⟨x, hx⟩ := Option.isSome_iff_exists.mp hs
      obtain ⟨q, rfl, hq⟩ := under_eq_some hx
      exact ⟨q, rfl, by rw [hq]; rfl⟩
    · rintro ⟨q, rfl, hq⟩
      simpa [under] using hq

/-- Instance of C3: the second `users` tree, which shares `users/list` with the tree of
`api`, merged into it. -/
theorem AddChild_paths_witness :
    ∃ h' b, AddChild asciiEnv 4 siteHeap 0 (some 10) = some (h', b) ∧
      (∀ p, walk h' 0 p
        = firstOf (walk siteHeap 0 p)
            (under (keyOf asciiEnv siteHeap 10) (walk siteHeap 10) p)) ∧
      (∀ p, (walk h' 0 p).isSome = true ↔
        ((walk siteHeap 0 p).isSome = true ∨
          ∃ q, p = keyOf asciiEnv siteHeap 10 :: q ∧ (walk siteHeap 10 q).isSome = true)) :=
  AddChild_paths asciiEnv 3 3 siteHeap 0 10 (by decide) (by decide) (by decide) (by decide)
    (by decide) (by decide)

/-- C4: for finite trees below `P` and below `N` without a common node, if every edge
below `P` steps the level by one before `P.AddChild(N)`, the call returns and every edge
below `P` steps the level by one afterwards. -/
theorem AddChild_level_invariant (E : Env) (dP dN : Nat) (h : Heap) (P N : Ref)
    (hP : finiteTree dP h P = true) (hPt : (nodes dP h P).Nodup)
    (hN : finiteTree dN h N = true) (hNt : (nodes dN h N).Nodup)
    (hdis : ∀ x ∈ nodes dP h P, x ∉ nodes dN h N)
    (hlev : LevelInv h P) :
    ∃ h' b, AddChild E (dN + 1) h P (some N) = some (h', b) ∧ LevelInv h' P := by
  have pre := AddPre_of_lists hP hPt hN hNt hdis
  obtain ⟨h', b, hrun, -, post, -, -⟩ := AddChild_main E dN h P N pre
  exact ⟨h', b, hrun, post.level hlev⟩

/-- Instance of C4: the chain `posts/new/draft` attached below `api` at level 2 ends at
levels 3, 4 and 5; the merge of the second `users` tree keeps the invariant too. -/
theorem AddChild_level_invariant_witness :
    (∃ h' b, AddChild asciiEnv 4 siteHeap 0 (some 20) = some (h', b) ∧ LevelInv h' 0) ∧
    (AddChild asciiEnv 4 siteHeap 0 (some 20)).map
        (fun r => [(r.1 20).level, (r.1 21).level, (r.1 22).level]) = some [3, 4, 5] ∧
    (AddChild asciiEnv 4 siteHeap 0 (some 10)).map
        (fun r => [(r.1 12).level, (r.1 13).level]) = some [4, 5] :=
  ⟨AddChild_level_invariant asciiEnv 3 3 siteHeap 0 20 (by decide) (by decide) (by decide)
      (by decide) (by decide) (levelInv_of_levelOK (d := 3) (by decide) (by decide)),
    by decide, by decide⟩

/-! ## Filter chains: execution -/

theorem replay_append {C : Type} (F : FilterSem C) (a b : List (FilterRef × Bool)) (ctx : C) :
    replay F (a ++ b) ctx = (replay F a ctx).bind (replay F b) := by
  induction a generalizing ctx with
  | nil => rfl
  | cons e a ih =>
    obtain ⟨f, ans⟩ := e
    simp only [List.cons_append, replay]
    split
    · exact ih _
    · rfl

/-- What the loop of `ExecBeforeFilter` returns, from any position. -/
theorem beforeLoop_calls {C : Type} (F : FilterSem C) (L : List FilterRef) (ctx : C)
    (calls : List (FilterRef × Bool)) :
    ∃ made : List (FilterRef × Bool),
      (beforeLoop F L ctx calls).2.2 = calls ++ made ∧
      (∃ rest, made.map Prod.fst ++ rest = L) ∧
      replay F made ctx = some (beforeLoop F L ctx calls).2.1 ∧
      (∀ e ∈ made.dropLast, e.2 = true) ∧
      ((beforeLoop F L ctx calls).1 = true ↔
        (made.map Prod.fst = L ∧ ∀ e ∈ made, e.2 = true)) ∧
      ((beforeLoop F L ctx calls).1 = false → ∃ f, made.getLast? = some (f, false)) := by
  induction L generalizing ctx calls with
  | nil =>
    refine ⟨[], by simp [beforeLoop], ⟨[], rfl⟩, rfl, by simp, by simp [beforeLoop],
      by simp [beforeLoop]⟩
  | cons f L ih =>
    cases hans : (F f ctx).1 with
    | false =>
      refine ⟨[(f, false)], by simp [beforeLoop, hans], ⟨L, rfl⟩, ?_, by simp, ?_, ?_⟩
      · simp [beforeLoop, hans, replay]
      · simp [beforeLoop, hans]
      · intro _
        exact ⟨f, rfl⟩
    | true =>
      obtain ⟨made, h1, ⟨rest, h2⟩, h3, h4, h5, h6⟩ := ih (F f ctx).2 (calls ++ [(f, true)])
      have hstep : beforeLoop F (f :: L) ctx calls
          = beforeLoop F L (F f ctx).2 (calls ++ [(f, true)]) := by
        simp [beforeLoop, hans]
      rw [hstep]
      refine ⟨(f, true) :: made, ?_, ⟨rest, ?_⟩, ?_, ?_, ?_, ?_⟩
      · rw [h1]; simp
      · simp [h2]
      · simp [replay, hans, h3]
      · intro e he
        cases made with
        | nil => simp at he
        | cons m ms =>
          rw [List.dropLast_cons₂] at he
          rcases List.mem_cons.mp he with rfl | he
          · rfl
          · exact h4 e he
      · rw [h5]
        simp
      · intro hf
        obtain ⟨g, hg⟩ := h6 hf
        refine ⟨g, ?_⟩
        cases made with
        | nil => simp at hg
        | cons m ms => rw [List.getLast?_cons_cons]; exact hg

theorem AddBeforeFilter_list (h : Heap) (self : Ref) (f : FilterRef) :
    ((AddBeforeFilter h self (some f)).1 self).beforeFilters = (h self).beforeFilters ++ [f] := by
  simp [AddBeforeFilter, Heap.set]

theorem addBeforeAll_list (h : Heap) (self : Ref) (fs : List FilterRef) :
    ((addBeforeAll h self fs) self).beforeFilters = (h self).beforeFilters ++ fs := by
  induction fs generalizing h with
  | nil => simp [addBeforeAll]
  | cons f fs ih =>
    have := ih (AddBeforeFilter h self (some f)).1
    unfold addBeforeAll at this ⊢
    rw [List.foldl_cons, this, AddBeforeFilter_list]
    simp

/-- C11: on a node whose before-filters were added by `AddBeforeFilter` in the order
`fs`, the calls that `ExecBeforeFilter` makes are an initial part of `fs` in that order;
the record is genuine; every call but the last answered true; the result is true exactly
when all of `fs` was called and every answer was true; a false result comes with a last
call that answered false. -/
theorem ExecBeforeFilter_in_order {C : Type} (F : FilterSem C) (h : Heap) (P : Ref)
    (fs : List FilterRef) (ctx : C) (hnew : (h P).beforeFilters = []) :
    (∃ rest, (ExecBeforeFilter F (addBeforeAll h P fs) P ctx).2.2.map Prod.fst ++ rest = fs) ∧
    replay F (ExecBeforeFilter F (addBeforeAll h P fs) P ctx).2.2 ctx
      = some (ExecBeforeFilter F (addBeforeAll h P fs) P ctx).2.1 ∧
    (∀ e ∈ (ExecBeforeFilter F (addBeforeAll h P fs) P ctx).2.2.dropLast, e.2 = true) ∧
    ((ExecBeforeFilter F (addBeforeAll h P fs) P ctx).1 = true ↔
      ((ExecBeforeFilter F (addBeforeAll h P fs) P ctx).2.2.map Prod.fst = fs ∧
        ∀ e ∈ (ExecBeforeFilter F (addBeforeAll h P fs) P ctx).2.2, e.2 = true)) ∧
    ((ExecBeforeFilter F (addBeforeAll h P fs) P ctx).1 = false →
      ∃ f, (ExecBeforeFilter F (addBeforeAll h P fs) P ctx).2.2.getLast? = some (f, false)) := by
  have hl : ((addBeforeAll h P fs) P).beforeFilters = fs := by
    rw [addBeforeAll_list, hnew, List.nil_append]
  unfold ExecBeforeFilter
  rw [hl]
  obtain ⟨made, h1, h2, h3, h4, h5, h6⟩ := beforeLoop_calls F fs ctx []
  rw [List.nil_append] at h1
  rw [h1]
  exact ⟨h2, h3, h4, h5, h6⟩

/-- Instance of C11: filters 3, 4, 5 added to a fresh node; from the counter 0 the calls
are 3, 4 and 5, and the third answers false; with no filter the result is true. -/
theorem ExecBeforeFilter_in_order_witness :
    ExecBeforeFilter countSem (addBeforeAll loneHeap 0 [3, 4, 5]) 0 0
      = (false, 12, [(3, true), (4, true), (5, false)]) ∧
    ExecBeforeFilter countSem (addBeforeAll loneHeap 0 []) 0 0 = (true, 0, []) ∧
    ((ExecBeforeFilter countSem (addBeforeAll loneHeap 0 [3, 4, 5]) 0 0).1 = false →
      ∃ f, (ExecBeforeFilter countSem (addBeforeAll loneHeap 0 [3, 4, 5]) 0 0).2.2.getLast?
        = some (f, false)) :=
  ⟨by decide, by decide,
    (ExecBeforeFilter_in_order countSem loneHeap 0 [3, 4, 5] 0 (by decide)).2.2.2.2⟩

theorem afterLoop_eq_beforeLoop {C : Type} (F : FilterSem C) (L : List FilterRef) (ctx : C)
    (calls : List (FilterRef × Bool)) : afterLoop F L ctx calls = beforeLoop F L ctx calls := by
  induction L generalizing ctx calls with
  | nil => rfl
  | cons f L ih =>
    simp only [afterLoop, beforeLoop]
    split
    · rfl
    · exact ih _ _

/-- C12: on equal filter lists `ExecAfterFilter` and `ExecBeforeFilter` return the same
result, the same context and the same record of calls; neither depends on the other
list of the node it runs on. -/
theorem ExecAfterFilter_symmetric {C : Type} (F : FilterSem C) (ha hb : Heap) (a b : Ref)
    (L : List FilterRef) (ctx : C)
    (hA : (ha a).afterFilters = L) (hB : (hb b).beforeFilters = L) :
    ExecAfterFilter F ha a ctx = ExecBeforeFilter F hb b ctx ∧
    (∀ L', ExecAfterFilter F (ha.set a { ha a with beforeFilters := L' }) a ctx
      = ExecAfterFilter F ha a ctx) ∧
    (∀ L', ExecBeforeFilter F (hb.set b { hb b with afterFilters := L' }) b ctx
      = ExecBeforeFilter F hb b ctx) := by
  refine ⟨?_, ?_, ?_⟩
  · unfold ExecAfterFilter ExecBeforeFilter
    rw [hA, hB, afterLoop_eq_beforeLoop]
  · intro L'
    simp [ExecAfterFilter, Heap.set]
  · intro L'
    simp [ExecBeforeFilter, Heap.set]

/-- Instance of C12 on a router whose two chains are both 3, 4, 5. -/
theorem ExecAfterFilter_symmetric_witness :
    ExecAfterFilter countSem filterHeap 0 0 = ExecBeforeFilter countSem filterHeap 0 0 ∧
    ExecAfterFilter countSem filterHeap 0 0 = (false, 12, [(3, true), (4, true), (5, false)]) :=
  ⟨(ExecAfterFilter_symmetric countSem filterHeap filterHeap 0 0 [3, 4, 5] 0
      (by decide) (by decide)).1, by decide⟩

/-! ## Filter chains: removal -/

theorem removeScan_nil (all rem : List FilterRef) (i : Nat) :
    removeScan none all rem i = none := by
  induction rem generalizing i with
  | nil => rfl
  | cons c rem ih =>
    simp only [removeScan]
    rw [if_neg (by simp)]
    exact ih _

/-- The scan finds the first occurrence and cuts it out of the slice. -/
theorem removeScan_first (f : FilterRef) (done rem : List FilterRef) (hdone : f ∉ done) :
    (f ∈ rem → ∃ pre post, rem = pre ++ f :: post ∧ f ∉ pre ∧
      removeScan (some f) (done ++ rem) rem done.length = some (done ++ pre ++ post)) ∧
    (f ∉ rem → removeScan (some f) (done ++ rem) rem done.length = none) := by
  induction rem generalizing done with
  | nil =>
    exact ⟨fun hm => absurd hm (List.not_mem_nil f), fun _ => rfl⟩
  | cons c rem ih =>
    by_cases hc : c = f
    · subst hc
      refine ⟨fun _ => ⟨[], rem, rfl, List.not_mem_nil c, ?_⟩, fun hn => ?_⟩
      · simp [removeScan]
      · exact absurd (List.mem_cons_self _ _) hn
    · have hne : ¬ (some c = some f) := by simpa using hc
      have hdone' : f ∉ done ++ [c] := by
        simp only [List.mem_append, List.mem_singleton, not_or]
        exact ⟨hdone, fun e => hc e.symm⟩
      have hassoc : done ++ c :: rem = (done ++ [c]) ++ rem := by simp
      have hlen : done.length + 1 = (done ++ [c]).length := by simp
      obtain ⟨ih1, ih2⟩ := ih (done ++ [c]) hdone'
      constructor
      · intro hm
        have hm' : f ∈ rem := by
          rcases List.mem_cons.mp hm with e | hm'
          · exact absurd e.symm hc
          · exact hm'
        obtain ⟨pre, post, hrem, hpre, hscan⟩ := ih1 hm'
        refine ⟨c :: pre, post, by rw [hrem]; rfl, ?_, ?_⟩
        · simp only [List.mem_cons, not_or]
          exact ⟨fun e => hc e.symm, hpre⟩
        · simp only [removeScan, if_neg hne]
          rw [hassoc, hlen, hscan]
          simp
      · intro hn
        have hn' : f ∉ rem := fun hm => hn (List.mem_cons_of_mem _ hm)
        simp only [removeScan, if_neg hne]
        rw [hassoc, hlen]
        exact ih2 hn'

theorem erase_first (f : FilterRef) (pre post : List FilterRef) (hpre : f ∉ pre) :
    (pre ++ f :: post).erase f = pre ++ post := by
  induction pre with
  | nil => simp
  | cons c pre ih =>
    have hc : c ≠ f := fun e => hpre (e ▸ List.mem_cons_self _ _)
    have hp : f ∉ pre := fun hm => hpre (List.mem_cons_of_mem _ hm)
    rw [List.cons_append, List.erase_cons_tail (by simpa using hc), ih hp]
    rfl

/-- C13: `RemoveBeforeFilter(f)` and `RemoveAfterFilter(f)` return true exactly when `f`
occurs in the list, and then cut out its first occurrence and nothing else; when `f`
does not occur, and for the nil filter, they return false and change nothing. -/
theorem RemoveFilter_first_occurrence (h : Heap) (P : Ref) (f : FilterRef) :
    (f ∈ (h P).beforeFilters → ∃ pre post,
      (h P).beforeFilters = pre ++ f :: post ∧ f ∉ pre ∧
      RemoveBeforeFilter h P (some f)
        = (h.set P { h P with beforeFilters := pre ++ post }, true)) ∧
    (f ∉ (h P).beforeFilters → RemoveBeforeFilter h P (some f) = (h, false)) ∧
    (f ∈ (h P).afterFilters → ∃ pre post,
      (h P).afterFilters = pre ++ f :: post ∧ f ∉ pre ∧
      RemoveAfterFilter h P (some f)
        = (h.set P { h P with afterFilters := pre ++ post }, true)) ∧
    (f ∉ (h P).afterFilters → RemoveAfterFilter h P (some f) = (h, false)) ∧
    ((RemoveBeforeFilter h P (some f)).1 P).beforeFilters = (h P).beforeFilters.erase f ∧
    ((RemoveAfterFilter h P (some f)).1 P).afterFilters = (h P).afterFilters.erase f ∧
    RemoveBeforeFilter h P none = (h, false) ∧
    RemoveAfterFilter h P none = (h, false) := by
  have hb := removeScan_first f [] (h P).beforeFilters (List.not_mem_nil f)
  have ha := removeScan_first f [] (h P).afterFilters (List.not_mem_nil f)
  simp only [List.nil_append, List.length_nil] at hb ha
  have b1 : f ∈ (h P).beforeFilters → ∃ pre post,
      (h P).beforeFilters = pre ++ f :: post ∧ f ∉ pre ∧
      RemoveBeforeFilter h P (some f)
        = (h.set P { h P with beforeFilters := pre ++ post }, true) := by
    intro hm
    obtain ⟨pre, post, hL, hpre, hscan⟩ := hb.1 hm
    exact ⟨pre, post, hL, hpre, by simp only [RemoveBeforeFilter, hscan]⟩
  have b2 : f ∉ (h P).beforeFilters → RemoveBeforeFilter h P (some f) = (h, false) := by
    intro hn
    simp only [RemoveBeforeFilter, hb.2 hn]
  have a1 : f ∈ (h P).afterFilters → ∃ pre post,
      (h P).afterFilters = pre ++ f :: post ∧ f ∉ pre ∧
      RemoveAfterFilter h P (some f)
        = (h.set P { h P with afterFilters := pre ++ post }, true) := by
    intro hm
    obtain ⟨pre, post, hL, hpre, hscan⟩ := ha.1 hm
    exact ⟨pre, post, hL, hpre, by simp only [RemoveAfterFilter, hscan]⟩
  have a2 : f ∉ (h P).afterFilters → RemoveAfterFilter h P (some f) = (h, false) := by
    intro hn
    simp only [RemoveAfterFilter, ha.2 hn]
  refine ⟨b1, b2, a1, a2, ?_, ?_, ?_, ?_⟩
  · by_cases hm : f ∈ (h P).beforeFilters
    · obtain ⟨pre, post, hL, hpre, hrun⟩ := b1 hm
      rw [hrun, hL, erase_first f pre post hpre]
      simp [Heap.set]
    · rw [b2 hm, List.erase_of_not_mem hm]
  · by_cases hm : f ∈ (h P).afterFilters
    · obtain ⟨pre, post, hL, hpre, hrun⟩ := a1 hm
      rw [hrun, hL, erase_first f pre post hpre]
      simp [Heap.set]
    · rw [a2 hm, List.erase_of_not_mem hm]
  · simp only [RemoveBeforeFilter, removeScan_nil]
  · simp only [RemoveAfterFilter, removeScan_nil]

/-- Instance of C13: the filter 3 was added twice; one removal leaves 4, 3, and removing
an absent filter reports false. -/
theorem RemoveFilter_first_occurrence_witness :
    ((RemoveBeforeFilter twiceHeap 0 (some 3)).1 0).beforeFilters = [4, 3] ∧
    (RemoveBeforeFilter twiceHeap 0 (some 3)).2 = true ∧
    ((RemoveAfterFilter twiceHeap 0 (some 3)).1 0).afterFilters = [4, 3] ∧
    RemoveBeforeFilter twiceHeap 0 (some 9) = (twiceHeap, false) :=
  ⟨by decide, by decide, by decide,
    (RemoveFilter_first_occurrence twiceHeap 0 9).2.1 (by decide)⟩

/-! ## `AddChildren` and the nil argument -/

theorem foldl_bind_none (E : Env) (fuel : Nat) (P : Ref) (rs : List Router) :
    rs.foldl (fun acc r => acc.bind (fun hc => (AddChild E fuel hc P r).map Prod.fst)) none
      = none := by
  induction rs with
  | nil => rfl
  | cons r rs ih => exact ih

theorem forRouters_eq_sequential (E : Env) (fuel : Nat) (h : Heap) (P : Ref)
    (rs : List Router) :
    forRouters (fun hc router => (AddChild E fuel hc P router).map Prod.fst) rs h
      = sequentialAddChild E fuel h P rs := by
  induction rs generalizing h with
  | nil => rfl
  | cons r rs ih =>
    unfold sequentialAddChild
    rw [List.foldl_cons]
    simp only [forRouters, Option.bind]
    cases hr : Option.map Prod.fst (AddChild E fuel h P r) with
    | none => simp only []; exact (foldl_bind_none E fuel P rs).symm
    | some h1 => exact ih h1

theorem sequentialAddChild_cons (E : Env) (fuel : Nat) (h : Heap) (P : Ref) (r : Router)
    (rs : List Router) :
    sequentialAddChild E fuel h P (r :: rs)
      = ((AddChild E fuel h P r).map Prod.fst).bind
          (fun h1 => sequentialAddChild E fuel h1 P rs) := by
  rw [← forRouters_eq_sequential]
  simp only [forRouters]
  cases hr : Option.map Prod.fst (AddChild E fuel h P r) with
  | none => rfl
  | some h1 => exact forRouters_eq_sequential E fuel h1 P rs

theorem sequentialAddChild_append (E : Env) (fuel : Nat) (h : Heap) (P : Ref)
    (rs1 rs2 : List Router) :
    sequentialAddChild E fuel h P (rs1 ++ rs2)
      = (sequentialAddChild E fuel h P rs1).bind
          (fun h1 => sequentialAddChild E fuel h1 P rs2) := by
  induction rs1 generalizing h with
  | nil => rfl
  | cons r rs1 ih =>
    rw [List.cons_append, sequentialAddChild_cons, sequentialAddChild_cons]
    cases hr : Option.map Prod.fst (AddChild E fuel h P r) with
    | none => rfl
    | some h1 => exact ih h1

/-- C17: the state after `P.AddChildren(r1, ..., rn)` is the state after the calls
`P.AddChild(r1)`, ..., `P.AddChild(rn)` in that order; in particular the state after
`rs1 ++ r :: rs2` is reached from the state after `rs1` by the call for `r` and then the
calls for `rs2`, whatever `r` returns, and a nil argument changes nothing. -/
theorem AddChildren_sequential (E : Env) (fuel : Nat) (h : Heap) (P : Ref)
    (rs : List Router) :
    (AddChildren E fuel h P rs).map Prod.fst = sequentialAddChild E fuel h P rs ∧
    (∀ rs1 r rs2, rs = rs1 ++ r :: rs2 →
      (AddChildren E fuel h P rs).map Prod.fst
        = (sequentialAddChild E fuel h P rs1).bind (fun h1 =>
            ((AddChild E fuel h1 P r).map Prod.fst).bind (fun h2 =>
              sequentialAddChild E fuel h2 P rs2))) ∧
    (∀ rs1 rs2, 0 < fuel → rs = rs1 ++ none :: rs2 →
      (AddChildren E fuel h P rs).map Prod.fst = sequentialAddChild E fuel h P (rs1 ++ rs2)) := by
  have hfst : (AddChildren E fuel h P rs).map Prod.fst = sequentialAddChild E fuel h P rs := by
    unfold AddChildren
    rw [forRouters_eq_sequential]
    cases sequentialAddChild E fuel h P rs <;> rfl
  refine ⟨hfst, ?_, ?_⟩
  · intro rs1 r rs2 hrs
    rw [hfst, hrs, sequentialAddChild_append]
    congr 1
    funext h1
    exact sequentialAddChild_cons E fuel h1 P r rs2
  · intro rs1 rs2 hfuel hrs
    obtain ⟨f, rfl⟩ : ∃ f, fuel = f + 1 := ⟨fuel - 1, by omega⟩
    rw [hfst, hrs, sequentialAddChild_append, sequentialAddChild_append]
    have hstep : ∀ h1, sequentialAddChild E (f + 1) h1 P (none :: rs2)
        = sequentialAddChild E (f + 1) h1 P rs2 := by
      intro h1
      rw [sequentialAddChild_cons]
      rfl
    simp only [hstep]

theorem option_eq_some_getD {α : Type} (o : Option α) (d : α) (ho : o.isSome = true) :
    o = some (o.getD d) := by
  cases o with
  | none => cases ho
  | some a => rfl

/-- Instance of C17: `root.AddChildren(Users, nil, users)`; the second and third
arguments fail, the first insertion stays. -/
theorem AddChildren_sequential_witness :
    (AddChildren asciiEnv 2 usersBase 0 [some 1, none, some 2]).map Prod.fst
      = sequentialAddChild asciiEnv 2 usersBase 0 ([some 1] ++ [some 2]) ∧
    (AddChildren asciiEnv 2 usersBase 0 [some 1, none, some 2]).map
      (fun r => (r.1 0).children) = some [("users", 1)] :=
  ⟨(AddChildren_sequential asciiEnv 2 usersBase 0 [some 1, none, some 2]).2.2
      [some 1] [some 2] (by decide) rfl, by decide⟩

/-- C18: `AddChild(nil)` returns false and leaves the heap as it is: both child indexes,
the level, the parent, the name and both filter lists of every node are unchanged. -/
theorem AddChild_nil (E : Env) (fuel : Nat) (h : Heap) (P : Ref) :
    AddChild E (fuel + 1) h P none = some (h, false) := by
  simp [AddChild]

theorem loneHeap_self_none (fuel : Nat) : AddChild asciiEnv fuel loneHeap 0 (some 0) = none := by
  cases fuel with
  | zero => simp [AddChild]
  | succ f =>
    rw [AddChild_succ]
    have hk : edgeGet loneHeap 0 (keyOf asciiEnv loneHeap 0) = none := by decide
    rw [hk]
    simp only []
    cases hs : SetLevel f (attach asciiEnv loneHeap 0 0) 0
        (intAdd ((attach asciiEnv loneHeap 0 0) 0).level 1) with
    | none => rfl
    | some h3 =>
      have hfin := SetLevel_some_finite f _ 0 _ h3 hs
      have hloop : (0 : Ref) ∈ kids (attach asciiEnv loneHeap 0 0) 0 := by decide
      rw [finiteTree_selfloop hloop f] at hfin
      cases hfin

theorem forRouters_skip_nil (E : Env) (f : Nat) (P : Ref) (rs : List Router) (h : Heap) :
    forRouters (fun hc router => (AddChild E (f + 1) hc P router).map Prod.fst) rs h
      = forRefs (mergeBody E (f + 1) P) rs.reduceOption h := by
  induction rs generalizing h with
  | nil => rfl
  | cons r rs ih =>
    cases r with
    | none =>
      rw [List.reduceOption_cons_of_none]
      simp only [forRouters, AddChild, Option.map]
      exact ih h
    | some v =>
      rw [List.reduceOption_cons_of_some]
      simp only [forRouters, forRefs, mergeBody]
      cases hr : Option.map Prod.fst (AddChild E (f + 1) h P (some v)) with
      | none => rfl
      | some h1 => exact ih h1

/-- C20, as stated, fails: `root.AddChildren(root)` never returns, whatever the depth
allowed to the call stack, so it does not return false. -/
theorem AddChildren_self_never_returns :
    ¬ ∃ fuel r, AddChildren asciiEnv fuel loneHeap 0 [some 0] = some r := by
  rintro ⟨fuel, r, hr⟩
  simp only [AddChildren, forRouters, loneHeap_self_none, Option.map] at hr
  cases hr

/-- C20, amended: a call of `AddChildren` that returns, returns false, with the state
the calls of `AddChild` on the arguments leave one after the other. And it does return
when the routers below `P` form a finite tree and the arguments other than nil are the
roots of finite trees that share no node with each other or with the tree of `P`. -/
theorem AddChildren_false_on_trees (E : Env) (dP d : Nat) (h : Heap) (P : Ref)
    (rs : List Router)
    (hP : finiteTree dP h P = true) (hPt : (nodes dP h P).Nodup)
    (hfin : ∀ N ∈ rs.reduceOption, finiteTree d h N = true)
    (hnd : (rs.reduceOption.flatMap (nodes d h)).Nodup)
    (hdis : ∀ x ∈ nodes dP h P, x ∉ rs.reduceOption.flatMap (nodes d h)) :
    (∃ h', AddChildren E (d + 1) h P rs = some (h', false) ∧
      sequentialAddChild E (d + 1) h P rs = some h') ∧
    (∀ fuel h0 X rs0 res, AddChildren E fuel h0 X rs0 = some res →
      res.2 = false ∧ sequentialAddChild E fuel h0 X rs0 = some res.1) := by
  constructor
  · obtain ⟨h', hrun, -, -⟩ := mergeLoop E d P (AddChild_main E d) rs.reduceOption h hfin hnd
      (walk_inj_of_nodup hP hPt) (fun p x hw => hdis x (walk_mem_nodes hP hw))
    refine ⟨h', ?_, ?_⟩
    · unfold AddChildren
      rw [forRouters_skip_nil, hrun]
    · rw [← forRouters_eq_sequential, forRouters_skip_nil, hrun]
  · intro fuel h0 X rs0 res hres
    unfold AddChildren at hres
    rw [forRouters_eq_sequential] at hres
    cases hs : sequentialAddChild E fuel h0 X rs0 with
    | none => rw [hs] at hres; cases hres
    | some h1 =>
      rw [hs] at hres
      simp only [Option.some.injEq] at hres
      subst hres
      exact ⟨rfl, rfl⟩

/-- Instance of the amended C20: `root.AddChild(Users)` returns true, and
`root.AddChildren(Users, nil, users)` returns false. -/
theorem AddChildren_false_on_trees_witness :
    (AddChild asciiEnv 2 usersBase 0 (some 1)).map Prod.snd = some true ∧
    ((∃ h', AddChildren asciiEnv 2 usersBase 0 [some 1, none, some 2] = some (h', false) ∧
      sequentialAddChild asciiEnv 2 usersBase 0 [some 1, none, some 2] = some h') ∧
    (∀ fuel h0 X rs0 res, AddChildren asciiEnv fuel h0 X rs0 = some res →
      res.2 = false ∧ sequentialAddChild asciiEnv fuel h0 X rs0 = some res.1)) :=
  ⟨by decide,
    AddChildren_false_on_trees asciiEnv 1 1 usersBase 0 [some 1, none, some 2]
      (by decide) (by decide) (by decide) (by decide) (by decide)⟩

/-! ## `AddChild` on an arbitrary heap -/

theorem attach_children (E : Env) (h : Heap) (X N x : Ref) :
    (attach E h X N x).children =
      if x = X ∧ Reg h N = false then mapSet (h X).children (E.toLower (Name h N)) N
      else (h x).children := by
  unfold attach SetSuper putChild Heap.set
  cases Reg h N <;> simp only [Bool.false_eq_true, if_false, if_true] <;> split_ifs <;>
    simp_all

theorem attach_regchildren (E : Env) (h : Heap) (X N x : Ref) :
    (attach E h X N x).regchildren =
      if x = X ∧ Reg h N = true then mapSet (h X).regchildren (E.toLower (Name h N)) N
      else (h x).regchildren := by
  unfold attach SetSuper putChild Heap.set
  cases Reg h N <;> simp only [Bool.false_eq_true, if_false, if_true] <;> split_ifs <;>
    simp_all

theorem mapSet_absent (m : RouterMap) (k : String) (v : Ref) (hk : mapGet m k = none) :
    mapSet m k v = (k, v) :: m := by
  unfold mapSet
  rw [mapDelete_absent m k hk]

theorem not_mem_keys_of_mapGet_none {m : RouterMap} {k : String} (hk : mapGet m k = none) :
    k ∉ m.map Prod.fst := by
  induction m with
  | nil => simp
  | cons e m ih =>
    obtain ⟨a, v⟩ := e
    by_cases ha : a = k
    · simp [mapGet, ha] at hk
    · simp only [mapGet, ha, if_false] at hk
      simp only [List.map_cons, List.mem_cons, not_or]
      exact ⟨fun e => ha e.symm, ih hk⟩

/-- The map write of a fresh insert adds one entry and drops none. -/
theorem attach_maps_fresh (E : Env) (h : Heap) (X N : Ref)
    (hk : edgeGet h X (keyOf E h N) = none) (x : Ref) :
    ((attach E h X N x).children =
        if x = X ∧ Reg h N = false then (E.toLower (Name h N), N) :: (h x).children
        else (h x).children) ∧
    ((attach E h X N x).regchildren =
        if x = X ∧ Reg h N = true then (E.toLower (Name h N), N) :: (h x).regchildren
        else (h x).regchildren) := by
  rw [attach_children, attach_regchildren]
  unfold edgeGet keyOf at hk
  constructor
  · by_cases hc : x = X ∧ Reg h N = false
    · obtain ⟨rfl, hr⟩ := hc
      simp only [hr, Bool.false_eq_true, if_false] at hk
      simp only [hr, and_self, if_true]
      exact mapSet_absent _ _ _ hk
    · rw [if_neg hc, if_neg hc]
  · by_cases hc : x = X ∧ Reg h N = true
    · obtain ⟨rfl, hr⟩ := hc
      simp only [hr, if_true] at hk
      simp only [hr, and_self, if_true]
      exact mapSet_absent _ _ _ hk
    · rw [if_neg hc, if_neg hc]

theorem kids_attach_fresh (E : Env) (h : Heap) (X N : Ref)
    (hk : edgeGet h X (keyOf E h N) = none) (x c : Ref) (hc : c ∈ kids h x) :
    c ∈ kids (attach E h X N) x := by
  obtain ⟨e1, e2⟩ := attach_maps_fresh E h X N hk x
  unfold kids at hc ⊢
  rw [e1, e2]
  simp only [List.map_append, List.mem_append] at hc ⊢
  rcases hc with hc | hc
  · left
    split
    · exact List.mem_map.mpr (by
        obtain ⟨e, he, hec⟩ := List.mem_map.mp hc
        exact ⟨e, List.mem_cons_of_mem _ he, hec⟩)
    · exact hc
  · right
    split
    · exact List.mem_map.mpr (by
        obtain ⟨e, he, hec⟩ := List.mem_map.mp hc
        exact ⟨e, List.mem_cons_of_mem _ he, hec⟩)
    · exact hc

theorem mem_kids_attach_fresh (E : Env) (h : Heap) (X N : Ref)
    (hk : edgeGet h X (keyOf E h N) = none) : N ∈ kids (attach E h X N) X := by
  obtain ⟨e1, e2⟩ := attach_maps_fresh E h X N hk X
  unfold kids
  rw [e1, e2]
  cases hr : Reg h N <;> simp

theorem indexOK_iff (E : Env) (h : Heap) (x : Ref) :
    indexOK E h x = true ↔
      (∀ e ∈ (h x).children, keyOf E h e.2 = (false, e.1)) ∧
      (∀ e ∈ (h x).regchildren, keyOf E h e.2 = (true, e.1)) ∧
      ((h x).children.map Prod.fst).Nodup ∧ ((h x).regchildren.map Prod.fst).Nodup := by
  simp only [indexOK, Bool.and_eq_true, List.all_eq_true, decide_eq_true_eq]
  tauto

theorem indexOK_attach_fresh (E : Env) (h : Heap) (X N : Ref)
    (hk : edgeGet h X (keyOf E h N) = none) (h3 : Heap)
    (hkey : ∀ y, keyOf E h3 y = keyOf E h y)
    (hc : ∀ x, (h3 x).children = (attach E h X N x).children)
    (hr : ∀ x, (h3 x).regchildren = (attach E h X N x).regchildren)
    (x : Ref) (hx : indexOK E h x = true) : indexOK E h3 x = true := by
  rw [indexOK_iff] at hx ⊢
  obtain ⟨x1, x2, x3, x4⟩ := hx
  obtain ⟨e1, e2⟩ := attach_maps_fresh E h X N hk x
  rw [hc x, hr x, e1, e2]
  simp only [hkey]
  have hkN : keyOf E h N = (Reg h N, E.toLower (Name h N)) := rfl
  have hkk := hk
  unfold edgeGet at hkk
  rw [hkN] at hkk
  by_cases hxX : x = X
  · subst hxX
    cases hreg : Reg h N with
    | false =>
      simp only [hreg, Bool.false_eq_true, if_false] at hkk
      simp only [hreg, and_self, if_true, and_false, if_false, Bool.false_eq_true]
      refine ⟨?_, x2, ?_, x4⟩
      · intro e he
        rcases List.mem_cons.mp he with rfl | he
        · rw [hkN, hreg]
        · exact x1 e he
      · rw [List.map_cons, List.nodup_cons]
        exact ⟨not_mem_keys_of_mapGet_none hkk, x3⟩
    | true =>
      simp only [hreg, if_true] at hkk
      simp only [hreg, and_self, if_true, and_false, if_false, Bool.true_eq_false]
      refine ⟨x1, ?_, x3, ?_⟩
      · intro e he
        rcases List.mem_cons.mp he with rfl | he
        · rw [hkN, hreg]
        · exact x2 e he
      · rw [List.map_cons, List.nodup_cons]
        exact ⟨not_mem_keys_of_mapGet_none hkk, x4⟩
  · simp only [hxX, false_and, if_false]
    exact ⟨x1, x2, x3, x4⟩

theorem nodes_mono {h h' : Heap} (hm : ∀ x, ∀ c ∈ kids h x, c ∈ kids h' x) (d : Nat)
    (y x : Ref) (hx : x ∈ nodes d h y) : x ∈ nodes d h' y := by
  induction d generalizing y with
  | zero => simp [nodes] at hx
  | succ d ih =>
    simp only [nodes, List.mem_cons, List.mem_flatMap] at hx ⊢
    rcases hx with rfl | ⟨c, hc, hxc⟩
    · exact Or.inl rfl
    · exact Or.inr ⟨c, hm y c hc, ih c hxc⟩

theorem mem_nodes_succ_of_kid {h : Heap} {d : Nat} {y x c : Ref} (hx : x ∈ nodes d h y)
    (hc : c ∈ kids h x) : c ∈ nodes (d + 1) h y := by
  induction d generalizing y with
  | zero => simp [nodes] at hx
  | succ d ih =>
    simp only [nodes, List.mem_cons, List.mem_flatMap] at hx
    rcases hx with rfl | ⟨c0, hc0, hx0⟩
    · simp only [nodes, List.mem_cons, List.mem_flatMap]
      exact Or.inr ⟨c, hc, Or.inl rfl⟩
    · have := ih hx0
      rw [nodes, List.mem_cons, List.mem_flatMap]
      exact Or.inr ⟨c0, hc0, this⟩

/-- A node on a cycle has no depth bound. -/
theorem cycle_not_finite {h : Heap} {X v y : Ref} {a b : Nat} (hv : v ∈ kids h X)
    (hy : y ∈ nodes a h v) (hX : X ∈ nodes b h y) (f : Nat) : finiteTree f h X = false := by
  induction f with
  | zero => rfl
  | succ e ih =>
    cases hf : finiteTree (e + 1) h X with
    | false => rfl
    | true =>
      have h1 := finiteTree_kid hf hv
      have h2 := finiteTree_of_mem_nodes hy h1
      have h3 := finiteTree_of_mem_nodes hX h2
      rw [h3] at ih
      cases ih

theorem Gen.still (E : Env) (h : Heap) (X : Ref) : Gen E h h X :=
  ⟨fun _ => rfl, fun _ _ hc => hc, fun hi => hi, fun _ _ _ => ⟨rfl, rfl⟩⟩

theorem Gen.step {E : Env} {h h1 h' : Heap} {X : Ref} (g1 : Gen E h h1 X)
    (g2 : Gen E h1 h' X) : Gen E h h' X := by
  constructor
  · intro x; rw [g2.core, g1.core]
  · intro x c hc; exact g2.mono x c (g1.mono x c hc)
  · intro hi; exact g2.idx (g1.idx hi)
  · intro y d hX
    obtain ⟨a1, a2⟩ := g1.anc y d hX
    obtain ⟨b1, b2⟩ := g2.anc y d (nodes_mono g1.mono d y X hX)
    exact ⟨b1.trans a1, b2.trans a2⟩

theorem Gen_fresh (E : Env) (f : Nat) (h : Heap) (X v : Ref) (h3 : Heap)
    (hk : edgeGet h X (keyOf E h v) = none)
    (hrun : SetLevel f (attach E h X v) v (intAdd ((attach E h X v) X).level 1) = some h3) :
    Gen E h h3 X := by
  have sh : SameShape (attach E h X v) h3 := SetLevel_shape _ _ _ _ _ hrun
  have hfin := SetLevel_some_finite _ _ _ _ _ hrun
  have hcore : ∀ x, coreOf (h3 x) = coreOf (h x) := fun x => by rw [sh.core, attach_core]
  have hmono2 : ∀ x, ∀ c ∈ kids h x, c ∈ kids (attach E h X v) x :=
    fun x c hc => kids_attach_fresh E h X v hk x c hc
  constructor
  · exact hcore
  · intro x c hc
    rw [sh.kids]
    exact hmono2 x c hc
  · intro hi x
    exact indexOK_attach_fresh E h X v hk h3 (keyOf_of_core hcore) (fun x => sh.children x)
      (fun x => sh.regchildren x) x (hi x)
  · intro y d hX
    have hy : y ∉ nodes f (attach E h X v) v := by
      intro hy
      have hX2 := nodes_mono hmono2 d y X hX
      have hcyc := cycle_not_finite (mem_kids_attach_fresh E h X v hk) hy hX2 f
      have hfX := finiteTree_of_mem_nodes hX2 (finiteTree_of_mem_nodes hy hfin)
      rw [hcyc] at hfX
      cases hfX
    have hyv : y ≠ v := by
      rintro rfl
      exact hy (mem_nodes_self hfin)
    rw [SetLevel_frame _ _ _ _ _ hrun y hy]
    exact ⟨attach_level E h X v y, attach_super E h X v y hyv⟩

theorem Gen_loop (E : Env) (f : Nat) (c : Ref)
    (ih : ∀ hc v h1 b, AddChild E f hc c (some v) = some (h1, b) → Gen E hc h1 c)
    (vs : List Ref) (h h' : Heap) (hrun : forRefs (mergeBody E f c) vs h = some h') :
    Gen E h h' c := by
  induction vs generalizing h with
  | nil =>
    simp only [forRefs, Option.some.injEq] at hrun
    subst hrun
    exact Gen.still E h c
  | cons v vs ihl =>
    simp only [forRefs] at hrun
    cases hv : mergeBody E f c h v with
    | none => rw [hv] at hrun; cases hrun
    | some h1 =>
      rw [hv] at hrun
      simp only [] at hrun
      unfold mergeBody at hv
      cases hr : AddChild E f h c (some v) with
      | none => rw [hr] at hv; cases hv
      | some r =>
        obtain ⟨h1', b⟩ := r
        rw [hr] at hv
        simp only [Option.map, Option.some.injEq] at hv
        subst hv
        exact (ih h v h1' b hr).step (ihl h1' hrun)

/-- Every returning call of `AddChild` satisfies `Gen`. -/
theorem AddChild_gen (E : Env) (fuel : Nat) :
    ∀ (h : Heap) (X : Ref) (r : Router) (h' : Heap) (b : Bool),
      AddChild E fuel h X r = some (h', b) → Gen E h h' X := by
  induction fuel with
  | zero =>
    intro h X r h' b hrun
    simp [AddChild] at hrun
  | succ f ih =>
    intro h X r h' b hrun
    cases r with
    | none =>
      simp only [AddChild, Option.some.injEq, Prod.mk.injEq] at hrun
      rw [← hrun.1]
      exact Gen.still E h X
    | some v =>
      rw [AddChild_succ] at hrun
      cases hk : edgeGet h X (keyOf E h v) with
      | none =>
        rw [hk] at hrun
        simp only [] at hrun
        cases hs : SetLevel f (attach E h X v) v (intAdd ((attach E h X v) X).level 1) with
        | none => rw [hs] at hrun; cases hrun
        | some h3 =>
          rw [hs] at hrun
          simp only [Option.map, Option.some.injEq, Prod.mk.injEq] at hrun
          rw [← hrun.1]
          exact Gen_fresh E f h X v h3 hk hs
      | some c =>
        rw [hk] at hrun
        simp only [] at hrun
        cases hl : forRefs (mergeBody E f c) (kids h v) h with
        | none => rw [hl] at hrun; cases hrun
        | some h2 =>
          rw [hl] at hrun
          simp only [Option.map, Option.some.injEq, Prod.mk.injEq] at hrun
          rw [← hrun.1]
          have g := Gen_loop E f c (fun hc v h1 b e => ih hc c (some v) h1 b e) (kids h v) h h2 hl
          refine ⟨g.core, g.mono, g.idx, ?_⟩
          intro y d hX
          exact g.anc y (d + 1) (mem_nodes_succ_of_kid hX (edgeGet_mem_kids hk))

/-! ## Index well-formedness in every reached state -/

theorem indexOK_of_maps {E : Env} {h h' : Heap} {x : Ref}
    (hkey : ∀ y, keyOf E h' y = keyOf E h y)
    (hc : (h' x).children = (h x).children) (hr : (h' x).regchildren = (h x).regchildren) :
    indexOK E h' x = indexOK E h x := by
  unfold indexOK
  rw [hc, hr]
  simp only [hkey]

theorem indexOK_SetLevel (E : Env) (fuel : Nat) (h : Heap) (P : Ref) (l : Int) (h' : Heap)
    (hrun : SetLevel fuel h P l = some h') (hi : ∀ x, indexOK E h x = true) :
    ∀ x, indexOK E h' x = true := by
  have sh := SetLevel_shape fuel h P l h' hrun
  intro x
  rw [indexOK_of_maps (keyOf_of_core (fun y => sh.core y)) (sh.children x) (sh.regchildren x)]
  exact hi x

theorem indexOK_RemoveChild (E : Env) (h : Heap) (P : Ref) (s : String)
    (hi : ∀ x, indexOK E h x = true) : ∀ x, indexOK E (RemoveChild h P s).1 x = true := by
  unfold RemoveChild
  cases hg : mapGet (h P).children s with
  | none => exact hi
  | some c =>
    simp only []
    have hkey : ∀ y, keyOf E (h.set P { h P with children := mapDelete (h P).children s }) y
        = keyOf E h y := by
      intro y
      unfold keyOf Reg Name Heap.set
      by_cases hy : y = P
      · subst hy; simp
      · simp [hy]
    intro x
    by_cases hx : x = P
    · subst hx
      have hix := hi x
      rw [indexOK_iff] at hix ⊢
      obtain ⟨x1, x2, x3, x4⟩ := hix
      simp only [Heap.set, if_true, hkey]
      refine ⟨?_, x2, ?_, x4⟩
      · intro e he
        exact x1 e (List.mem_of_mem_filter he)
      · exact x3.sublist (List.Sublist.map _ (List.filter_sublist _))
    · rw [indexOK_of_maps hkey (by simp [Heap.set, hx]) (by simp [Heap.set, hx])]
      exact hi x

theorem indexOK_forRouters (E : Env) (fuel : Nat) (P : Ref) (rs : List Router) (h h' : Heap)
    (hrun : forRouters (fun hc router => (AddChild E fuel hc P router).map Prod.fst) rs h
      = some h')
    (hi : ∀ x, indexOK E h x = true) : ∀ x, indexOK E h' x = true := by
  induction rs generalizing h with
  | nil =>
    simp only [forRouters, Option.some.injEq] at hrun
    subst hrun
    exact hi
  | cons r rs ih =>
    simp only [forRouters] at hrun
    cases hr : AddChild E fuel h P r with
    | none => rw [hr] at hrun; cases hrun
    | some res =>
      obtain ⟨h1, b⟩ := res
      rw [hr] at hrun
      simp only [Option.map] at hrun
      exact ih h1 hrun ((AddChild_gen E fuel h P r h1 b hr).idx hi)

theorem indexOK_reached (E : Env) (h : Heap) (hr : Reached E h) :
    ∀ x, indexOK E h x = true := by
  induction hr with
  | fresh h hnew =>
    intro x
    obtain ⟨b, t, name, hx⟩ := hnew x
    simp [indexOK, hx, Init]
  | addChild h fuel P r h' b _ hrun ih =>
    exact (AddChild_gen E fuel h P r h' b hrun).idx ih
  | addChildren h fuel P rs h' b _ hrun ih =>
    unfold AddChildren at hrun
    cases hl : forRouters (fun hc router => (AddChild E fuel hc P router).map Prod.fst) rs h with
    | none => rw [hl] at hrun; cases hrun
    | some h2 =>
      rw [hl] at hrun
      simp only [Option.some.injEq, Prod.mk.injEq] at hrun
      rw [← hrun.1]
      exact indexOK_forRouters E fuel P rs h h2 hl ih
  | removeChild h P s _ ih => exact indexOK_RemoveChild E h P s ih
  | setLevel h fuel P l h' _ hrun ih => exact indexOK_SetLevel E fuel h P l h' hrun ih

/-- C15: in every state reached from freshly initialised routers by returning calls of
`AddChild`, `AddChildren`, `RemoveChild` and `SetLevel`, every entry of a literal index is
keyed by the lower-cased name of the router it holds, which is not a regex router; every
entry of a regex index is keyed by the lower-cased name of the router it holds, which is
a regex router; and two entries of one index whose routers share a lower-cased name are
one entry. -/
theorem index_wellformed (E : Env) (h : Heap) (hr : Reached E h) (x : Ref) :
    (∀ e ∈ (h x).children, e.1 = E.toLower (Name h e.2) ∧ Reg h e.2 = false) ∧
    (∀ e ∈ (h x).regchildren, e.1 = E.toLower (Name h e.2) ∧ Reg h e.2 = true) ∧
    (∀ e1 ∈ (h x).children, ∀ e2 ∈ (h x).children,
      E.toLower (Name h e1.2) = E.toLower (Name h e2.2) → e1 = e2) ∧
    (∀ e1 ∈ (h x).regchildren, ∀ e2 ∈ (h x).regchildren,
      E.toLower (Name h e1.2) = E.toLower (Name h e2.2) → e1 = e2) := by
  have hi := indexOK_reached E h hr x
  rw [indexOK_iff] at hi
  obtain ⟨x1, x2, x3, x4⟩ := hi
  have k1 : ∀ e ∈ (h x).children, e.1 = E.toLower (Name h e.2) ∧ Reg h e.2 = false := by
    intro e he
    have := x1 e he
    simp only [keyOf, Prod.mk.injEq] at this
    exact ⟨this.2.symm, this.1⟩
  have k2 : ∀ e ∈ (h x).regchildren, e.1 = E.toLower (Name h e.2) ∧ Reg h e.2 = true := by
    intro e he
    have := x2 e he
    simp only [keyOf, Prod.mk.injEq] at this
    exact ⟨this.2.symm, this.1⟩
  refine ⟨k1, k2, ?_, ?_⟩
  · intro e1 h1 e2 h2 hn
    apply List.inj_on_of_nodup_map x3 h1 h2
    rw [(k1 e1 h1).1, (k1 e2 h2).1, hn]
  · intro e1 h1 e2 h2 hn
    apply List.inj_on_of_nodup_map x4 h1 h2
    rw [(k2 e1 h1).1, (k2 e2 h2).1, hn]

theorem option_pair_getD (o : Option (Heap × Bool)) (d : Heap) (b : Bool)
    (ho : o.isSome = true) :
    o = some ((o.map Prod.fst).getD d, (o.map Prod.snd).getD b) := by
  cases o with
  | none => cases ho
  | some a => rfl

/-- The heap `twinAttached` is reached from fresh routers by two calls of `AddChild`. -/
theorem twinAttached_reached : Reached caseEnv twinAttached := by
  have r0 : Reached caseEnv twinHeap := by
    apply Reached.fresh
    intro x
    unfold twinHeap
    split
    · exact ⟨zeroNode, some 0, "root", rfl⟩
    · exact ⟨zeroNode, some 1, "(id=[[:alpha:]]+)", rfl⟩
    · exact ⟨zeroNode, some 2, "(ID=[[:ALPHA:]]+)", rfl⟩
    · exact ⟨zeroNode, none, "", by decide⟩
  have r1 : Reached caseEnv
      (((AddChild caseEnv 2 twinHeap 0 (some 1)).map Prod.fst).getD twinHeap) :=
    Reached.addChild twinHeap 2 0 (some 1) _ _ r0
      (option_pair_getD _ twinHeap false (by decide))
  exact Reached.addChild
    (((AddChild caseEnv 2 twinHeap 0 (some 1)).map Prod.fst).getD twinHeap) 2 0 (some 2) _ _ r1
    (option_pair_getD _
      (((AddChild caseEnv 2 twinHeap 0 (some 1)).map Prod.fst).getD twinHeap) false (by decide))

/-- Instance of C15: the root with a literal and a regex child under one key, reached by
two calls of `AddChild`; the two indexes hold the same key side by side. -/
theorem index_wellformed_witness :
    ((∀ e ∈ (twinAttached 0).children,
        e.1 = caseEnv.toLower (Name twinAttached e.2) ∧ Reg twinAttached e.2 = false) ∧
      (∀ e ∈ (twinAttached 0).regchildren,
        e.1 = caseEnv.toLower (Name twinAttached e.2) ∧ Reg twinAttached e.2 = true) ∧
      (∀ e1 ∈ (twinAttached 0).children, ∀ e2 ∈ (twinAttached 0).children,
        caseEnv.toLower (Name twinAttached e1.2) = caseEnv.toLower (Name twinAttached e2.2) →
          e1 = e2) ∧
      (∀ e1 ∈ (twinAttached 0).regchildren, ∀ e2 ∈ (twinAttached 0).regchildren,
        caseEnv.toLower (Name twinAttached e1.2) = caseEnv.toLower (Name twinAttached e2.2) →
          e1 = e2)) ∧
    (twinAttached 0).children = [("(id=[[:alpha:]]+)", 2)] ∧
    (twinAttached 0).regchildren = [("(id=[[:alpha:]]+)", 1)] :=
  ⟨index_wellformed caseEnv twinAttached twinAttached_reached 0,
    by decide, by decide⟩

/-! ## The merge keeps the existing child -/

/-- C19: when the key of `N` is taken by `E` in the index of `P` chosen by `N.Reg()`,
every returning call `P.AddChild(N)` returns false and leaves the name, regex flag,
parent, level and both filter lists of `E` as they were, so `ExecBeforeFilter` and
`ExecAfterFilter` on `E` run the filters of `E` as before and none of the filters of `N`;
and the call does return when the trees below `P` and below `N` are finite trees without
a common node. -/
theorem AddChild_merge_keeps_existing {C : Type} (F : FilterSem C) (E : Env)
    (h : Heap) (P N Ex : Ref)
    (hcol : mapGet (if Reg h N then (h P).regchildren else (h P).children)
      (E.toLower (Name h N)) = some Ex) :
    (∀ fuel h' b, AddChild E fuel h P (some N) = some (h', b) →
      b = false ∧ sameNodeData h h' Ex ∧
      (∀ ctx, ExecBeforeFilter F h' Ex ctx = ExecBeforeFilter F h Ex ctx) ∧
      (∀ ctx, ExecAfterFilter F h' Ex ctx = ExecAfterFilter F h Ex ctx)) ∧
    (∀ dP dN, finiteTree dP h P = true → (nodes dP h P).Nodup →
      finiteTree dN h N = true → (nodes dN h N).Nodup →
      (∀ x ∈ nodes dP h P, x ∉ nodes dN h N) →
      ∃ h', AddChild E (dN + 1) h P (some N) = some (h', false)) := by
  have hk : edgeGet h P (keyOf E h N) = some Ex := by
    rw [edgeGet_keyOf_eq]; exact hcol
  constructor
  · intro fuel h' b hrun
    cases fuel with
    | zero => simp [AddChild] at hrun
    | succ f =>
      rw [AddChild_succ, hk] at hrun
      simp only [] at hrun
      cases hl : forRefs (mergeBody E f Ex) (kids h N) h with
      | none => rw [hl] at hrun; cases hrun
      | some h2 =>
        rw [hl] at hrun
        simp only [Option.map, Option.some.injEq, Prod.mk.injEq] at hrun
        obtain ⟨rfl, rfl⟩ := hrun
        have g := Gen_loop E f Ex (fun hc v h1 b e => AddChild_gen E f hc Ex (some v) h1 b e)
          (kids h N) h h2 hl
        have hcore := g.core Ex
        simp only [coreOf, Prod.mk.injEq] at hcore
        obtain ⟨-, hn, -, hr, hbf, haf⟩ := hcore
        obtain ⟨hlev, hsup⟩ := g.anc Ex 1 (by simp [nodes])
        refine ⟨rfl, ⟨hn, hr, hsup, hlev, hbf, haf⟩, ?_, ?_⟩
        · intro ctx
          unfold ExecBeforeFilter
          rw [hbf]
        · intro ctx
          unfold ExecAfterFilter
          rw [haf]
  · intro dP dN hP hPt hN hNt hdis
    obtain ⟨h', b, hrun, hb, -⟩ := AddChild_main E dN h P N (AddPre_of_lists hP hPt hN hNt hdis)
    rw [hk] at hb
    simp only [Option.isNone] at hb
    subst hb
    exact ⟨h', hrun⟩

/-- Instance of C19: the detached `a` with filters 4, 5 and 7 is merged into the child `a`
of the root, which keeps its filters 3 and 6, its level and its parent, and receives the
child `x`. -/
theorem AddChild_merge_keeps_existing_witness :
    (AddChild asciiEnv 3 keepHeap 0 (some 2)).map
      (fun r => (r.2, (r.1 1).beforeFilters, (r.1 1).afterFilters, (r.1 1).children))
      = some (false, [3], [6], [("x", 3)]) ∧
    sameNodeData keepHeap (((AddChild asciiEnv 3 keepHeap 0 (some 2)).map Prod.fst).getD keepHeap)
      1 ∧
    (∃ h', AddChild asciiEnv 3 keepHeap 0 (some 2) = some (h', false)) :=
  ⟨by decide,
    ((AddChild_merge_keeps_existing countSem asciiEnv keepHeap 0 2 1 (by decide)).1 3 _ _
      (option_pair_getD _ keepHeap false (by decide))).2.1,
    (AddChild_merge_keeps_existing countSem asciiEnv keepHeap 0 2 1 (by decide)).2 2 2
      (by decide) (by decide) (by decide) (by decide) (by decide)⟩

/-! ## Re-initialisation -/

/-- C16, as stated, fails: a router initialised with a regex name and then with a
literal name has `Reg()` false and still carries the segment compiled for the first
name. -/
theorem Init_again_keeps_segment :
    (Init caseEnv zeroNode (some 0) "(id=[[:alpha:]]+)").reg = true ∧
    (Init caseEnv zeroNode (some 0) "(id=[[:alpha:]]+)").segment
      = some ⟨"^[[:alpha:]]+$", ["id"]⟩ ∧
    caseEnv.parseReg "users" = none ∧
    (Init caseEnv (Init caseEnv zeroNode (some 0) "(id=[[:alpha:]]+)") (some 0) "users").reg
      = false ∧
    (Init caseEnv (Init caseEnv zeroNode (some 0) "(id=[[:alpha:]]+)") (some 0) "users").segment
      = some ⟨"^[[:alpha:]]+$", ["id"]⟩ ∧
    (Init caseEnv (Init caseEnv zeroNode (some 0) "(id=[[:alpha:]]+)") (some 0) "users").name
      = "users" := by
  decide

/-- C16, amended: after `Init(t, name)`, whatever the node held before, `Reg()` is true
exactly when `name` parses as a regex name, `Name()` is the lower-cased `name`, and the
segment is the one compiled from `name` when it parses and the one the node held before
when it does not. So on a node that held no segment, as at its first initialisation,
`Reg()` is true exactly when a compiled segment is present. -/
theorem Init_reg_segment (E : Env) (b : BaseRouter) (t : Router) (name : String) :
    ((Init E b t name).reg = true ↔ (E.parseReg name).isSome = true) ∧
    (Init E b t name).name = E.toLower name ∧
    (∀ seg, E.parseReg name = some seg → (Init E b t name).segment = some seg) ∧
    (E.parseReg name = none → (Init E b t name).segment = b.segment) ∧
    (b.segment = none →
      ((Init E b t name).reg = true ↔ (Init E b t name).segment.isSome = true)) := by
  unfold Init setName
  cases hp : E.parseReg name <;> simp

/-- Instance of the amended C16: the first initialisation of a zero router with a regex
name and with a literal name, and the second initialisation of the regex node. -/
theorem Init_reg_segment_witness :
    zeroNode.segment = none ∧
    caseEnv.parseReg "(id=[[:alpha:]]+)" = some ⟨"^[[:alpha:]]+$", ["id"]⟩ ∧
    caseEnv.parseReg "Users" = none ∧
    (Init caseEnv zeroNode (some 0) "(id=[[:alpha:]]+)").segment
      = some ⟨"^[[:alpha:]]+$", ["id"]⟩ ∧
    ((Init caseEnv zeroNode (some 0) "(id=[[:alpha:]]+)").reg = true ↔
      (Init caseEnv zeroNode (some 0) "(id=[[:alpha:]]+)").segment.isSome = true) ∧
    ((Init caseEnv zeroNode (some 0) "Users").reg = true ↔
      (Init caseEnv zeroNode (some 0) "Users").segment.isSome = true) ∧
    (Init caseEnv zeroNode (some 0) "Users").name = "users" ∧
    (Init caseEnv (Init caseEnv zeroNode (some 0) "(id=[[:alpha:]]+)") (some 0) "Users").segment
      = (Init caseEnv zeroNode (some 0) "(id=[[:alpha:]]+)").segment :=
  ⟨rfl, by decide, by decide,
    (Init_reg_segment caseEnv zeroNode (some 0) "(id=[[:alpha:]]+)").2.2.1 _ (by decide),
    (Init_reg_segment caseEnv zeroNode (some 0) "(id=[[:alpha:]]+)").2.2.2.2 rfl,
    (Init_reg_segment caseEnv zeroNode (some 0) "Users").2.2.2.2 rfl,
    by decide,
    (Init_reg_segment caseEnv (Init caseEnv zeroNode (some 0) "(id=[[:alpha:]]+)") (some 0)
      "Users").2.2.2.1 (by decide)⟩

/-! ## The tree below a root -/

theorem Post.inj {h h' : Heap} {X : Ref} {S : List Ref} (post : Post h h' X S)
    (hinj : ∀ p q x, walk h X p = some x → walk h X q = some x → p = q)
    (hdisj : ∀ p x, walk h X p = some x → x ∉ S) :
    ∀ p q x, walk h' X p = some x → walk h' X q = some x → p = q := by
  obtain ⟨W, hW, hR, hI⟩ := post.walk_ex
  intro p q x hp hq
  rw [hW p] at hp
  rw [hW q] at hq
  rcases firstOf_eq_some hp with hp1 | ⟨-, hp2⟩
  · rcases firstOf_eq_some hq with hq1 | ⟨-, hq2⟩
    · exact hinj p q x hp1 hq1
    · exact absurd (hR q x hq2) (hdisj p x hp1)
  · rcases firstOf_eq_some hq with hq1 | ⟨-, hq2⟩
    · exact absurd (hR p x hp2) (hdisj q x hq1)
    · exact hI p q x hp2 hq2

/-- An attachment below the child `X'` of `X` is an attachment below `X`. -/
theorem Post.lift {h h' : Heap} {X X' : Ref} {k : Key} {S : List Ref}
    (hinj : ∀ p q x, walk h X p = some x → walk h X q = some x → p = q)
    (hdisj : ∀ p x, walk h X p = some x → x ∉ S)
    (hk : edgeGet h X k = some X') (post : Post h h' X' S) : Post h h' X S := by
  have hstep : ∀ p, walk h X (k :: p) = walk h X' p := fun p => walk_cons_some hk p
  have f1 : h' X = h X := by
    apply post.frame X
    · intro p hw
      have := hinj (k :: p) [] X (by rw [hstep]; exact hw) rfl
      cases this
    · exact hdisj [] X rfl
  have f2 : ∀ s c, s ≠ k → edgeGet h X s = some c →
      ∀ q x, walk h c q = some x → h' x = h x := by
    intro s c hs hc q x hw
    have hwX : walk h X (s :: q) = some x := by rw [walk_cons_some hc]; exact hw
    apply post.frame x
    · intro p hw'
      have := hinj (k :: p) (s :: q) x (by rw [hstep]; exact hw') hwX
      exact hs (List.cons.inj this).1.symm
    · exact hdisj (s :: q) x hwX
  have hsib : ∀ s c, s ≠ k → edgeGet h X s = some c → ∀ q, walk h' c q = walk h c q := by
    intro s c hs hc
    apply walk_congr
    intro q x hw k'
    exact edgeGet_congr (f2 s c hs hc q x hw) k'
  obtain ⟨W, hW, hR, hI⟩ := post.walk_ex
  constructor
  · refine ⟨under k W, walk_lift_merge f1 hk hsib hW, ?_, ?_⟩
    · intro p x hx
      obtain ⟨q, -, hq⟩ := under_eq_some hx
      exact hR q x hq
    · intro p q x hp hq
      obtain ⟨p', rfl, hp'⟩ := under_eq_some hp
      obtain ⟨q', rfl, hq'⟩ := under_eq_some hq
      rw [hI p' q' x hp' hq']
  · intro x hx hxS
    apply post.frame x _ hxS
    intro p hw
    exact hx (k :: p) (by rw [hstep]; exact hw)
  · exact post.core
  · exact post.outside
  · intro hinv p x st c hw he
    have hinv' : LevelInv h X' := fun p x st c hw he =>
      hinv (k :: p) x st c (by rw [hstep]; exact hw) he
    have hinvL := post.level hinv'
    cases p with
    | nil =>
      simp only [walk, Option.some.injEq] at hw
      subst hw
      rw [edgeGet_congr f1] at he
      have hcS : c ∉ S := hdisj [st] c (walk_snoc (p := []) rfl he)
      rw [(post.outside c hcS).1, f1]
      exact hinv [] X st c rfl he
    | cons s0 q =>
      obtain ⟨c0, hc0, hw0⟩ := walk_cons_eq_some hw
      rw [edgeGet_congr f1] at hc0
      by_cases hs0 : s0 = k
      · subst hs0
        rw [hk] at hc0
        cases hc0
        exact hinvL q x st c hw0 he
      · rw [hsib s0 c0 hs0 hc0] at hw0
        have hx : h' x = h x := f2 s0 c0 hs0 hc0 q x hw0
        rw [edgeGet_congr hx] at he
        have hcc : h' c = h c := f2 s0 c0 hs0 hc0 (q ++ [st]) c (walk_snoc hw0 he)
        rw [hcc, hx]
        exact hinv (s0 :: q) x st c (by rw [walk_cons_some hc0]; exact hw0) he

/-- An attachment below a node of the tree of `R` is an attachment below `R`. -/
theorem Post.lift_path {h h' : Heap} {P : Ref} {S : List Ref} (post : Post h h' P S)
    (path : List Key) : ∀ R,
    (∀ p q x, walk h R p = some x → walk h R q = some x → p = q) →
    (∀ p x, walk h R p = some x → x ∉ S) →
    walk h R path = some P → Post h h' R S := by
  induction path with
  | nil =>
    intro R _ _ hw
    simp only [walk, Option.some.injEq] at hw
    subst hw
    exact post
  | cons k path ih =>
    intro R hinj hdisj hw
    obtain ⟨c, hc, hwc⟩ := walk_cons_eq_some hw
    have hstep : ∀ p, walk h R (k :: p) = walk h c p := fun p => walk_cons_some hc p
    have postc := ih c
      (fun p q x hp hq => (List.cons.inj (hinj (k :: p) (k :: q) x
        (by rw [hstep]; exact hp) (by rw [hstep]; exact hq))).2)
      (fun p x hp => hdisj (k :: p) x (by rw [hstep]; exact hp)) hwc
    exact Post.lift hinj hdisj hc postc

theorem walk_append {h : Heap} {R P : Ref} {path : List Key} (hw : walk h R path = some P)
    (p : List Key) : walk h R (path ++ p) = walk h P p := by
  induction path generalizing R with
  | nil =>
    simp only [walk, Option.some.injEq] at hw
    subst hw
    rfl
  | cons k path ih =>
    obtain ⟨c, hc, hwc⟩ := walk_cons_eq_some hw
    rw [List.cons_append, walk_cons_some hc]
    exact ih hwc

theorem edgeGet_RemoveChild {h : Heap} {P x c : Ref} {s : String} {k : Key}
    (hg : edgeGet (RemoveChild h P s).1 x k = some c) : edgeGet h x k = some c := by
  unfold RemoveChild at hg
  cases hm : mapGet (h P).children s with
  | none => rw [hm] at hg; exact hg
  | some c0 =>
    rw [hm] at hg
    simp only [] at hg
    by_cases hx : x = P
    · subst hx
      unfold edgeGet at hg ⊢
      simp only [Heap.set, if_true] at hg
      obtain ⟨kb, ks⟩ := k
      cases kb with
      | true => exact hg
      | false =>
        simp only [Bool.false_eq_true, if_false] at hg ⊢
        rw [mapGet_mapDelete] at hg
        by_cases hks : ks = s
        · rw [if_pos hks] at hg; cases hg
        · rw [if_neg hks] at hg; exact hg
    · unfold edgeGet at hg ⊢
      simp only [Heap.set, hx, if_false] at hg
      exact hg

theorem walk_RemoveChild {h : Heap} {P R x : Ref} {s : String} {p : List Key}
    (hw : walk (RemoveChild h P s).1 R p = some x) : walk h R p = some x := by
  induction p generalizing R with
  | nil => exact hw
  | cons k p ih =>
    obtain ⟨c, hc, hwc⟩ := walk_cons_eq_some hw
    rw [walk_cons_some (edgeGet_RemoveChild hc)]
    exact ih hwc

/-! ## The stack depth allowed to a call -/

theorem forRefs_body_mono {b1 b2 : Heap → Ref → Option Heap}
    (hb : ∀ hc v h1, b1 hc v = some h1 → b2 hc v = some h1)
    (vs : List Ref) (h h' : Heap) (hr : forRefs b1 vs h = some h') :
    forRefs b2 vs h = some h' := by
  induction vs generalizing h with
  | nil => exact hr
  | cons v vs ih =>
    simp only [forRefs] at hr ⊢
    cases hv : b1 h v with
    | none => rw [hv] at hr; cases hr
    | some h1 =>
      rw [hv] at hr
      rw [hb h v h1 hv]
      exact ih h1 hr

/-- A call of `SetLevel` that returns within some stack depth returns the same heap
within any larger one. -/
theorem SetLevel_fuel_succ (f : Nat) : ∀ (h : Heap) (r : Ref) (l : Int) (h' : Heap),
    SetLevel f h r l = some h' → SetLevel (f + 1) h r l = some h' := by
  induction f with
  | zero => intro h r l h' hr; simp [SetLevel] at hr
  | succ f ih =>
    intro h r l h' hr
    rw [SetLevel_succ] at hr ⊢
    exact forRefs_body_mono (fun hc v h1 e => ih hc v _ h1 e) _ _ _ hr

/-- A call of `AddChild` that returns within some stack depth returns the same result
within any larger one. -/
theorem AddChild_fuel_succ (E : Env) (f : Nat) : ∀ (h : Heap) (X : Ref) (r : Router)
    (res : Heap × Bool), AddChild E f h X r = some res → AddChild E (f + 1) h X r = some res := by
  induction f with
  | zero => intro h X r res hr; simp [AddChild] at hr
  | succ f ih =>
    intro h X r res hr
    cases r with
    | none =>
      simp only [AddChild] at hr ⊢
      exact hr
    | some v =>
      rw [AddChild_succ] at hr ⊢
      cases hk : edgeGet h X (keyOf E h v) with
      | none =>
        rw [hk] at hr
        simp only [] at hr ⊢
        cases hs : SetLevel f (attach E h X v) v (intAdd ((attach E h X v) X).level 1) with
        | none => rw [hs] at hr; cases hr
        | some h3 =>
          rw [hs] at hr
          rw [SetLevel_fuel_succ f _ _ _ h3 hs]
          exact hr
      | some c =>
        rw [hk] at hr
        simp only [] at hr ⊢
        cases hl : forRefs (mergeBody E f c) (kids h v) h with
        | none => rw [hl] at hr; cases hr
        | some h2 =>
          rw [hl] at hr
          have hb : ∀ hc w h1, mergeBody E f c hc w = some h1 →
              mergeBody E (f + 1) c hc w = some h1 := by
            intro hc w h1 e
            unfold mergeBody at e ⊢
            cases ha : AddChild E f hc c (some w) with
            | none => rw [ha] at e; cases e
            | some res1 =>
              rw [ha] at e
              rw [ih hc c (some w) res1 ha]
              exact e
          rw [forRefs_body_mono hb _ _ _ hl]
          exact hr

theorem AddChild_fuel_add (E : Env) (f k : Nat) (h : Heap) (X : Ref) (r : Router)
    (res : Heap × Bool) (hr : AddChild E f h X r = some res) :
    AddChild E (f + k) h X r = some res := by
  induction k with
  | zero => exact hr
  | succ k ih => exact AddChild_fuel_succ E (f + k) h X r res ih

/-- The result of a call of `AddChild` does not depend on the stack depth within which
it returns. -/
theorem AddChild_fuel_agree (E : Env) (f g : Nat) (h : Heap) (X : Ref) (r : Router)
    (res1 res2 : Heap × Bool) (h1 : AddChild E f h X r = some res1)
    (h2 : AddChild E g h X r = some res2) : res1 = res2 := by
  have e1 := AddChild_fuel_add E f g h X r res1 h1
  have e2 := AddChild_fuel_add E g f h X r res2 h2
  rw [Nat.add_comm g f, e1] at e2
  exact Option.some.inj e2

/-! ## A call leaves the routers it cannot reach as they are -/

theorem mem_kids_attach (E : Env) (h : Heap) (X N x c : Ref)
    (hc : c ∈ kids (attach E h X N) x) : c ∈ kids h x ∨ (x = X ∧ c = N) := by
  unfold kids at hc ⊢
  rw [attach_children, attach_regchildren] at hc
  simp only [List.map_append, List.mem_append, List.mem_map] at hc ⊢
  have hset : ∀ (m : RouterMap) (k : String) (e : String × Ref),
      e ∈ mapSet m k N → e ∈ m ∨ e.2 = N := by
    intro m k e he
    unfold mapSet mapDelete at he
    rcases List.mem_cons.mp he with rfl | he
    · exact Or.inr rfl
    · exact Or.inl (List.mem_filter.mp he).1
  rcases hc with ⟨e, he, hec⟩ | ⟨e, he, hec⟩
  · split_ifs at he with hx
    · rcases hset _ _ e he with hm | hm
      · exact Or.inl (Or.inl ⟨e, hx.1 ▸ hm, hec⟩)
      · exact Or.inr ⟨hx.1, by rw [← hec, hm]⟩
    · exact Or.inl (Or.inl ⟨e, he, hec⟩)
  · split_ifs at he with hx
    · rcases hset _ _ e he with hm | hm
      · exact Or.inl (Or.inr ⟨e, hx.1 ▸ hm, hec⟩)
      · exact Or.inr ⟨hx.1, by rw [← hec, hm]⟩
    · exact Or.inl (Or.inr ⟨e, he, hec⟩)

theorem nodes_in_closed {A : Ref → Prop} {h : Heap}
    (hcl : ∀ x, A x → ∀ c ∈ kids h x, A c) (d : Nat) :
    ∀ r, A r → ∀ x ∈ nodes d h r, A x := by
  induction d with
  | zero => intro r _ x hx; simp [nodes] at hx
  | succ d ih =>
    intro r hr x hx
    simp only [nodes, List.mem_cons, List.mem_flatMap] at hx
    rcases hx with rfl | ⟨c, hc, hx⟩
    · exact hr
    · exact ih c (hcl r hr c hc) x hx

theorem frame_loop (E : Env) (f : Nat) (c : Ref) (A : Ref → Prop)
    (ih : ∀ hc v h1 b, (∀ x, A x → ∀ y ∈ kids hc x, A y) → A v →
      AddChild E f hc c (some v) = some (h1, b) →
      (∀ x, ¬ A x → h1 x = hc x) ∧ (∀ x, A x → ∀ y ∈ kids h1 x, A y))
    (vs : List Ref) (h h' : Heap) (hvs : ∀ v ∈ vs, A v)
    (hcl : ∀ x, A x → ∀ y ∈ kids h x, A y)
    (hrun : forRefs (mergeBody E f c) vs h = some h') :
    (∀ x, ¬ A x → h' x = h x) ∧ (∀ x, A x → ∀ y ∈ kids h' x, A y) := by
  induction vs generalizing h with
  | nil =>
    simp only [forRefs, Option.some.injEq] at hrun
    subst hrun
    exact ⟨fun _ _ => rfl, hcl⟩
  | cons v vs ihl =>
    simp only [forRefs] at hrun
    cases hv : mergeBody E f c h v with
    | none => rw [hv] at hrun; cases hrun
    | some h1 =>
      rw [hv] at hrun
      simp only [] at hrun
      unfold mergeBody at hv
      cases hr : AddChild E f h c (some v) with
      | none => rw [hr] at hv; cases hv
      | some r =>
        obtain ⟨h1', b⟩ := r
        rw [hr] at hv
        simp only [Option.map, Option.some.injEq] at hv
        subst hv
        obtain ⟨hs1, hc1⟩ := ih h v h1' b hcl (hvs v (List.mem_cons_self _ _)) hr
        obtain ⟨hs2, hc2⟩ := ihl h1' (fun w hw => hvs w (List.mem_cons_of_mem _ hw)) hc1 hrun
        exact ⟨fun x hx => (hs2 x hx).trans (hs1 x hx), hc2⟩

/-- A returning call `X.AddChild(r)` writes no router outside a set that holds `X` and
`r` and is closed under the child maps, and the set stays closed. -/
theorem AddChild_frame (E : Env) (fuel : Nat) (A : Ref → Prop) :
    ∀ (h : Heap) (X : Ref) (r : Router) (h' : Heap) (b : Bool),
      (∀ x, A x → ∀ y ∈ kids h x, A y) → A X → (∀ v, r = some v → A v) →
      AddChild E fuel h X r = some (h', b) →
      (∀ x, ¬ A x → h' x = h x) ∧ (∀ x, A x → ∀ y ∈ kids h' x, A y) := by
  induction fuel with
  | zero =>
    intro h X r h' b _ _ _ hrun
    simp [AddChild] at hrun
  | succ f ih =>
    intro h X r h' b hcl hX hr hrun
    cases r with
    | none =>
      simp only [AddChild, Option.some.injEq, Prod.mk.injEq] at hrun
      rw [← hrun.1]
      exact ⟨fun _ _ => rfl, hcl⟩
    | some v =>
      have hv : A v := hr v rfl
      rw [AddChild_succ] at hrun
      cases hk : edgeGet h X (keyOf E h v) with
      | none =>
        rw [hk] at hrun
        simp only [] at hrun
        cases hs : SetLevel f (attach E h X v) v (intAdd ((attach E h X v) X).level 1) with
        | none => rw [hs] at hrun; cases hrun
        | some h3 =>
          rw [hs] at hrun
          simp only [Option.map, Option.some.injEq, Prod.mk.injEq] at hrun
          rw [← hrun.1]
          have sh : SameShape (attach E h X v) h3 := SetLevel_shape _ _ _ _ _ hs
          have hcl2 : ∀ x, A x → ∀ y ∈ kids (attach E h X v) x, A y := by
            intro x hx y hy
            rcases mem_kids_attach E h X v x y hy with hy | ⟨-, rfl⟩
            · exact hcl x hx y hy
            · exact hv
          constructor
          · intro x hx
            have hxn : x ∉ nodes f (attach E h X v) v :=
              fun hmem => hx (nodes_in_closed hcl2 f v hv x hmem)
            rw [SetLevel_frame _ _ _ _ _ hs x hxn]
            exact attach_other E h X v x (fun e => hx (e ▸ hX)) (fun e => hx (e ▸ hv))
          · intro x hx y hy
            rw [sh.kids] at hy
            exact hcl2 x hx y hy
      | some c =>
        rw [hk] at hrun
        simp only [] at hrun
        cases hl : forRefs (mergeBody E f c) (kids h v) h with
        | none => rw [hl] at hrun; cases hrun
        | some h2 =>
          rw [hl] at hrun
          simp only [Option.map, Option.some.injEq, Prod.mk.injEq] at hrun
          rw [← hrun.1]
          have hAc : A c := hcl X hX c (edgeGet_mem_kids hk)
          exact frame_loop E f c A
            (fun hc w h1 b1 hclc hw e => ih hc c (some w) h1 b1 hclc hAc
              (fun v' hv' => by cases hv'; exact hw) e)
            (kids h v) h h2 (fun w hw => hcl v hv w hw) hcl hl

/-! ## The tree below a root, call by call -/

theorem fresh_walk {E : Env} {h : Heap} (hnew : ∀ x, ∃ b t name, h x = Init E b t name)
    (R : Ref) (p : List Key) (x : Ref) (hw : walk h R p = some x) : p = [] := by
  cases p with
  | nil => rfl
  | cons k p =>
    obtain ⟨c, hc, -⟩ := walk_cons_eq_some hw
    obtain ⟨b, t, name, hR⟩ := hnew R
    unfold edgeGet at hc
    rw [hR] at hc
    simp [Init, mapGet] at hc

/-- One admitted call of `AddChild` keeps the key paths from `R` apart. -/
theorem admits_step (E : Env) (R : Ref) (h : Heap) (fuel : Nat) (P : Ref) (r : Router)
    (h' : Heap) (b : Bool)
    (hinj : ∀ p q x, walk h R p = some x → walk h R q = some x → p = q)
    (hadm : admits R h P r) (hrun : AddChild E fuel h P r = some (h', b)) :
    ∀ p q x, walk h' R p = some x → walk h' R q = some x → p = q := by
  cases r with
  | none =>
    cases fuel with
    | zero => simp [AddChild] at hrun
    | succ f =>
      simp only [AddChild, Option.some.injEq, Prod.mk.injEq] at hrun
      rw [← hrun.1]
      exact hinj
  | some N =>
    rcases hadm with ⟨path, d, hP, hN, hNt, hdis⟩ | haway
    · have pre : AddPre d h P N :=
        ⟨hN, hNt,
          fun p q x hp hq => List.append_cancel_left (hinj (path ++ p) (path ++ q) x
            (by rw [walk_append hP]; exact hp) (by rw [walk_append hP]; exact hq)),
          fun p x hp => hdis (path ++ p) x (by rw [walk_append hP]; exact hp)⟩
      obtain ⟨h2, b2, hrun2, -, post, -, -⟩ := AddChild_main E d h P N pre
      have he := AddChild_fuel_agree E fuel (d + 1) h P (some N) _ _ hrun hrun2
      simp only [Prod.mk.injEq] at he
      rw [he.1]
      exact (post.lift_path path R hinj hdis hP).inj hinj hdis
    · have hfr := (AddChild_frame E fuel
        (fun x => ∃ d, x ∈ nodes d h P ∨ x ∈ nodes d h N) h P (some N) h' b
        (by
          rintro x ⟨d, hx | hx⟩ y hy
          · exact ⟨d + 1, Or.inl (mem_nodes_succ_of_kid hx hy)⟩
          · exact ⟨d + 1, Or.inr (mem_nodes_succ_of_kid hx hy)⟩)
        ⟨1, Or.inl (by simp [nodes])⟩
        (by
          intro v hv
          cases hv
          exact ⟨1, Or.inr (by simp [nodes])⟩)
        hrun).1
      have hsame : ∀ q, walk h' R q = walk h R q := by
        apply walk_congr
        intro q x hw k
        apply edgeGet_congr
        apply hfr
        rintro ⟨d, hx | hx⟩
        · exact (haway q x d hw).1 hx
        · exact (haway q x d hw).2 hx
      intro p q x hp hq
      rw [hsame] at hp hq
      exact hinj p q x hp hq

/-- One admitted call of `AddChildren` keeps the key paths from `R` apart. -/
theorem admitsAll_step (E : Env) (R : Ref) (fuel : Nat) (P : Ref) (rs : List Router)
    (h h' : Heap)
    (hinj : ∀ p q x, walk h R p = some x → walk h R q = some x → p = q)
    (hadm : admitsAll E fuel R P h rs)
    (hrun : forRouters (fun hc router => (AddChild E fuel hc P router).map Prod.fst) rs h
      = some h') :
    ∀ p q x, walk h' R p = some x → walk h' R q = some x → p = q := by
  induction rs generalizing h with
  | nil =>
    simp only [forRouters, Option.some.injEq] at hrun
    subst hrun
    exact hinj
  | cons r rs ih =>
    obtain ⟨h1adm, hrest⟩ := hadm
    simp only [forRouters] at hrun
    cases hr : AddChild E fuel h P r with
    | none => rw [hr] at hrun; cases hrun
    | some res =>
      obtain ⟨h1, b⟩ := res
      rw [hr] at hrun
      simp only [Option.map] at hrun
      exact ih h1 (admits_step E R h fuel P r h1 b hinj h1adm hr) (hrest h1 b hr) hrun

theorem treeReached_inj (E : Env) (R : Ref) (h : Heap) (hr : TreeReached E R h) :
    ∀ p q x, walk h R p = some x → walk h R q = some x → p = q := by
  induction hr with
  | fresh h hnew =>
    intro p q x hp hq
    rw [fresh_walk hnew R p x hp, fresh_walk hnew R q x hq]
  | addChild h fuel P r h' b _ hadm hrun ih =>
    exact admits_step E R h fuel P r h' b ih hadm hrun
  | addChildren h fuel P rs h' b _ hadm hrun ih =>
    unfold AddChildren at hrun
    cases hl : forRouters (fun hc router => (AddChild E fuel hc P router).map Prod.fst) rs h with
    | none => rw [hl] at hrun; cases hrun
    | some h2 =>
      rw [hl] at hrun
      simp only [Option.some.injEq, Prod.mk.injEq] at hrun
      rw [← hrun.1]
      exact admitsAll_step E R fuel P rs h h2 ih hadm hl
  | removeChild h P s _ ih =>
    intro p q x hp hq
    exact ih p q x (walk_RemoveChild hp) (walk_RemoveChild hq)

theorem nodes_bounded {e d : Nat} {h : Heap} {r x : Ref} (hf : finiteTree e h r = true)
    (hx : x ∈ nodes d h r) : x ∈ nodes e h r := by
  obtain ⟨k, hk⟩ := mem_nodes_depth d h r x hx
  exact nodesAt_subset_nodes hf k x hk

theorem admits_below {dR d : Nat} {h : Heap} {R P N : Ref} (path : List Key)
    (hR : finiteTree dR h R = true) (hP : walk h R path = some P)
    (hN : finiteTree d h N = true) (hNt : (nodes d h N).Nodup)
    (hdis : ∀ x ∈ nodes dR h R, x ∉ nodes d h N) : admits R h P (some N) :=
  Or.inl ⟨path, d, hP, hN, hNt, fun _ x hw => hdis x (walk_mem_nodes hR hw)⟩

theorem admits_away {dR dP dN : Nat} {h : Heap} {R P N : Ref}
    (hR : finiteTree dR h R = true) (hP : finiteTree dP h P = true)
    (hN : finiteTree dN h N = true)
    (hdis : ∀ x ∈ nodes dR h R, x ∉ nodes dP h P ∧ x ∉ nodes dN h N) :
    admits R h P (some N) :=
  Or.inr (fun _ x _ hw =>
    ⟨fun hx => (hdis x (walk_mem_nodes hR hw)).1 (nodes_bounded hP hx),
      fun hx => (hdis x (walk_mem_nodes hR hw)).2 (nodes_bounded hN hx)⟩)

/-- The heap `graftHeap` is reached from fresh routers by a call of `AddChild` away from
the root and a call of `AddChildren` on the root, both admitted by the tree below it. -/
theorem graftHeap_treeReached : TreeReached asciiEnv 0 graftHeap := by
  have r0 : TreeReached asciiEnv 0 sharedBase := by
    apply TreeReached.fresh
    intro x
    unfold sharedBase
    split
    · exact ⟨zeroNode, some 0, "root", rfl⟩
    · exact ⟨zeroNode, some 1, "a", rfl⟩
    · exact ⟨zeroNode, some 2, "A", rfl⟩
    · exact ⟨zeroNode, some 3, "x", rfl⟩
    · exact ⟨zeroNode, none, "", by decide⟩
  have r1 : TreeReached asciiEnv 0 graftOne :=
    TreeReached.addChild sharedBase 2 2 (some 3) _ _ r0
      (admits_away (by decide : finiteTree 1 sharedBase 0 = true)
        (by decide : finiteTree 1 sharedBase 2 = true)
        (by decide : finiteTree 1 sharedBase 3 = true) (by decide))
      (option_pair_getD _ sharedBase false (by decide))
  refine TreeReached.addChildren graftOne 3 0 [some 1, some 2] _ _ r1 ?_
    (option_pair_getD _ graftOne false (by decide))
  refine ⟨admits_below [] (by decide : finiteTree 1 graftOne 0 = true) rfl
    (by decide : finiteTree 1 graftOne 1 = true) (by decide) (by decide), ?_⟩
  intro h2 b e
  have e2 : h2 = ((AddChild asciiEnv 3 graftOne 0 (some 1)).map Prod.fst).getD graftOne := by
    rw [e]; rfl
  subst e2
  exact ⟨admits_below []
    (by decide : finiteTree 2
      (((AddChild asciiEnv 3 graftOne 0 (some 1)).map Prod.fst).getD graftOne) 0 = true) rfl
    (by decide : finiteTree 2
      (((AddChild asciiEnv 3 graftOne 0 (some 1)).map Prod.fst).getD graftOne) 2 = true)
    (by decide) (by decide), fun _ _ _ => trivial⟩

/-- C14, as stated, fails, in three ways. After `A.AddChild(x)`, `root.AddChild(a)` and
the merging call `root.AddChild(A)`, the router `x` is held by `a` and still by the
discarded `A`, which no root reaches. The calls `root.AddChild(a)`, `root.AddChild(b)`,
`a.AddChild(x)`, `b.AddChild(x)` all return true and leave `x` held by `a` and by `b`,
so that two key paths lead from the root to `x`. And after `q.AddChild(n)`,
`root.AddChild(n)`, `N.AddChild(w)`, `root.AddChild(w)`, the call `q.AddChild(N)` on a
router `q` that is not below the root merges `N` into `n`, and leaves `w` held by the
root and by `n`. -/
theorem child_held_twice :
    ((AddChild asciiEnv 2 sharedBase 2 (some 3)).map Prod.snd = some true ∧
      (sharedHeap 1).children = [("x", 3)] ∧
      (sharedHeap 2).children = [("x", 3)] ∧
      (sharedHeap 0).children = [("a", 1)] ∧
      Super sharedHeap 3 = some 1) ∧
    ((AddChild asciiEnv 2 pairBase 0 (some 1)).map Prod.snd = some true ∧
      (AddChild asciiEnv 2 pairOne 0 (some 2)).map Prod.snd = some true ∧
      (AddChild asciiEnv 2 pairTwo 1 (some 3)).map Prod.snd = some true ∧
      (AddChild asciiEnv 2 pairThree 2 (some 3)).map Prod.snd = some true ∧
      (pairShared 0).children = [("b", 2), ("a", 1)] ∧
      (pairShared 1).children = [("x", 3)] ∧
      (pairShared 2).children = [("x", 3)] ∧
      walk pairShared 0 [(false, "a"), (false, "x")] = some 3 ∧
      walk pairShared 0 [(false, "b"), (false, "x")] = some 3) ∧
    ((AddChild asciiEnv 2 holderBase 1 (some 2)).map Prod.snd = some true ∧
      (AddChild asciiEnv 2 holderOne 0 (some 2)).map Prod.snd = some true ∧
      (AddChild asciiEnv 2 holderTwo 3 (some 4)).map Prod.snd = some true ∧
      (AddChild asciiEnv 2 holderThree 0 (some 4)).map Prod.snd = some true ∧
      (AddChild asciiEnv 3 holderFour 1 (some 3)).map Prod.snd = some false ∧
      finiteTree 2 holderFour 0 = true ∧
      nodes 2 holderFour 0 = [0, 4, 2] ∧
      (holderFive 0).children = [("w", 4), ("n", 2)] ∧
      (holderFive 2).children = [("w", 4)] ∧
      walk holderFive 0 [(false, "w")] = some 4 ∧
      walk holderFive 0 [(false, "n"), (false, "w")] = some 4) := by
  decide

/-- C14, amended: take a root `R` and a state reached from freshly initialised routers
by calls of `AddChild`, `AddChildren` and `RemoveChild` in which every router handed to a
router below `R` is the root of a finite tree with no router below `R`, and every other
call of `AddChild` involves no router below `R`. Then no two key paths from `R` lead to
the same router; every router held by a router below `R` is held by one router below
`R`, in one index and under one key; and no router below `R` holds `R`. -/
theorem tree_below_root (E : Env) (R : Ref) (h : Heap) (hr : TreeReached E R h) :
    (∀ p q x, walk h R p = some x → walk h R q = some x → p = q) ∧
    (∀ p q y z k l x, walk h R p = some y → walk h R q = some z →
      edgeGet h y k = some x → edgeGet h z l = some x → y = z ∧ k = l) ∧
    (∀ p y k, walk h R p = some y → edgeGet h y k ≠ some R) := by
  have hinj := treeReached_inj E R h hr
  refine ⟨hinj, ?_, ?_⟩
  · intro p q y z k l x hp hq hy hz
    have e := hinj (p ++ [k]) (q ++ [l]) x (walk_snoc hp hy) (walk_snoc hq hz)
    have e1 := List.append_inj_left' e rfl
    have e2 := List.append_inj_right' e rfl
    subst e1
    rw [hp] at hq
    exact ⟨Option.some.inj hq, List.cons.inj e2 |>.1⟩
  · intro p y k hp hy
    have e := hinj (p ++ [k]) [] R (walk_snoc hp hy) rfl
    simp at e

/-- Instance of the amended C14: after `A.AddChild(x)` and `root.AddChildren(a, A)` the
merge has moved `x` below `a`, and the routers below the root are held once. -/
theorem tree_below_root_witness :
    walk graftHeap 0 [(false, "a"), (false, "x")] = some 3 ∧
    ((∀ p q x, walk graftHeap 0 p = some x → walk graftHeap 0 q = some x → p = q) ∧
    (∀ p q y z k l x, walk graftHeap 0 p = some y → walk graftHeap 0 q = some z →
      edgeGet graftHeap y k = some x → edgeGet graftHeap z l = some x → y = z ∧ k = l) ∧
    (∀ p y k, walk graftHeap 0 p = some y → edgeGet graftHeap y k ≠ some 0)) :=
  ⟨by decide, tree_below_root asciiEnv 0 graftHeap graftHeap_treeReached⟩

end TinyRouter
